import Mathlib

/-!
# POLDER `ini` module: a shallow embedding and its properties

The development embeds `src/src/POLDER/ini.cpp` (namespace `polder::ini`).

Conventions of the embedding

* A C string or `std::string` is the list of its characters before the
  terminating NUL (`Str`).  A test `line[i] == '\0'` of the source is a test
  for the end of the list; the characters of a dialect are not NUL.
* The file system is reduced to the one path the call names: `Option Str`,
  `none` when the file does not exist, `some bytes` otherwise.  The temporary
  file is the list of chunks written to it, one chunk per `fprintf`; `remove`
  followed by `rename` installs the concatenation of the chunks.
* A thrown `polder::ini::Error` is an `Error` value; the functions that modify
  the file return an `Outcome`: the error thrown, if any, and the content of
  the file when the call is left.
-/

namespace Polder.Ini

/-- Characters of a C string, the terminating NUL left out. -/
abbrev Str := List Char

/-- Modelled from the spec: `Dialect` is declared in `POLDER/ini.h`, which is
not part of the sources at hand; the spec gives it three single-character
fields. -/
structure Dialect where
  delimiter : Char
  commentchar : Char
  lineterminator : Char
deriving DecidableEq, Repr

/-- Modelled from the spec: the default dialect of `POLDER/ini.h` "uses `=`,
`;` and the platform newline". -/
def defaultDialect : Dialect := ⟨'=', ';', '\n'⟩

/-- The kinds of `polder::ini::Error` the source throws, one per message. -/
inductive Error where
  | cannotOpen            -- "can not open file"
  | sectionNotFound       -- "section '...' not found"
  | keyNotFound           -- "key '...' not found"
  | sectionAlreadyExists  -- "section '...' already exists"
  | keyAlreadyExists      -- "key '...' already exists"
deriving DecidableEq, Repr

/-- What a modifying call leaves behind: the error it threw, if any, and the
content of the file named by `fname` afterwards. -/
structure Outcome where
  error : Option Error
  file : Option Str
deriving DecidableEq, Repr

/-! ## The collaborators of `POLDER/string.h` and `POLDER/io.h` -/

/-- Modelled from the spec: the characters the trim utility of
`POLDER/string.h` removes.  The source tests `line[0] == lineterminator` after
`strip(line)` to recognise an empty line and copies stripped lines with `"%s"`,
so the line terminator is not one of them: blanks are the space and the tab. -/
def isBlank (c : Char) : Bool := c == ' ' || c == '\t'

/-- Modelled from the spec: `lstrip` of `POLDER/string.h`, the "leading-strip"
of the trim utility. -/
def lstrip (s : Str) : Str := s.dropWhile isBlank

/-- Modelled from the spec: `rstrip` of `POLDER/string.h`, the "trailing-strip"
of the trim utility. -/
def rstrip (s : Str) : Str := (s.reverse.dropWhile isBlank).reverse

/-- Modelled from the spec: `strip` of `POLDER/string.h`, which trims both
ends in place. -/
def strip (s : Str) : Str := rstrip (lstrip s)

/-- Modelled from the spec: `stripped` of `POLDER/string.h`, the trimmed copy
of its argument. -/
def stripped (s : Str) : Str := strip s

/-- Modelled from the spec: `substr(str, min, max)` of `POLDER/string.h`, the
characters at the positions `min`, ..., `max`.  The embedding passes the
exclusive end `stop = max + 1`, so that the empty range of `substr(line, 0, i-1)`
at `i = 0` is the empty string, as `line.substr(0, i)` is for `std::string`. -/
def substr (s : Str) (min stop : Nat) : Str := (s.drop min).take (stop - min)

/-- Modelled from the spec: the lines `io::fgetl` of `POLDER/io.h` yields, "the
successive raw lines of a file".  A raw line keeps its `'\n'` (the source
copies lines with `"%s"` and adds none); the characters after the last `'\n'`,
if any, are a last line without one. -/
def rawLines : Str → List Str
  | [] => []
  | c :: cs =>
    if c = '\n' then ['\n'] :: rawLines cs
    else
      match rawLines cs with
      | [] => [[c]]
      | l :: ls => (c :: l) :: ls

/-- A raw line without the `'\n'` that ends it. -/
def chomp (l : Str) : Str := if l.getLast? = some '\n' then l.dropLast else l

/-- The lines `std::getline(file, line)` yields: the raw lines, each without
its `'\n'`. -/
def getlines (content : Str) : List Str := (rawLines content).map chomp

/-! ## Pieces shared by the functions of `ini.cpp` -/

/-- The searched word `"[" + section + "]"`. -/
def searchedWord (sect : Str) : Str := '[' :: (sect ++ [']'])

/-- Both `line.substr(0, searched.size()) == searched` and
`!strncmp(line, searched_word, length)`: the first `length` characters of the
line are the searched word. -/
def startsWith (line word : Str) : Bool := line.take word.length == word

/-- The index `i` after
`int i = -1; while (line[++i] != '\0' && line[i] != lineterminator && line[i] != delimiter);`. -/
def scanDelim (d : Dialect) : Str → Nat
  | [] => 0
  | c :: cs => if c = d.lineterminator ∨ c = d.delimiter then 0 else scanDelim d cs + 1

/-- The distance `j - (i+1)` after
`int j = i; while (line[++j] != '\0' && line[j] != lineterminator && line[j] != commentchar);`,
computed on the characters that follow position `i`. -/
def scanComment (d : Dialect) : Str → Nat
  | [] => 0
  | c :: cs => if c = d.lineterminator ∨ c = d.commentchar then 0 else scanComment d cs + 1

/-- The test the functions share on a line of the searched section that
neither is empty nor starts with `'['`:
`line[0] != commentchar && line[0] != '\0'`, then `line[i] == delimiter` at the
index of `scanDelim`, then `key == stripped(substr(line, 0, i-1))`. -/
def isKeyLine (d : Dialect) (key line : Str) : Bool :=
  decide (line.head? ≠ some d.commentchar) && decide (line ≠ []) &&
    (decide (line.get? (scanDelim d line) = some d.delimiter) &&
      decide (key = stripped (substr line 0 (scanDelim d line))))

/-! ## Read-only functions -/

/-- The function `section_exists` (ini.cpp 125-152). -/
def section_exists (_d : Dialect) (file : Option Str) (sect : Str) : Except Error Bool :=
  match file with
  | none => .error .cannotOpen
  | some content =>
    .ok ((getlines content).any fun line => startsWith (lstrip line) (searchedWord sect))

/-- The loop of `key_exists` (ini.cpp 172-209); `none` when the loop ends
without a `return`. -/
def keyExistsLoop (d : Dialect) (searched key : Str) : Bool → List Str → Option Bool
  | _, [] => none
  | false, raw :: rest =>
    if startsWith (strip raw) searched then keyExistsLoop d searched key true rest
    else keyExistsLoop d searched key false rest
  | true, raw :: rest =>
    if (strip raw).head? = some '[' then some false
    else if isKeyLine d key (strip raw) then some true
    else keyExistsLoop d searched key true rest

/-- The function `key_exists` (ini.cpp 158-214). -/
def key_exists (d : Dialect) (file : Option Str) (sect key : Str) : Except Error Bool :=
  match file with
  | none => .error .cannotOpen
  | some content =>
    .ok ((keyExistsLoop d (searchedWord sect) key false (getlines content)).getD false)

/-- The loop of `read` (ini.cpp 234-275); `none` when the loop ends without a
`return`. -/
def readLoop (d : Dialect) (searched key default_value : Str) : Bool → List Str → Option Str
  | _, [] => none
  | false, raw :: rest =>
    if startsWith (strip raw) searched then readLoop d searched key default_value true rest
    else readLoop d searched key default_value false rest
  | true, raw :: rest =>
    if (strip raw).head? = some '[' then some default_value
    else if isKeyLine d key (strip raw) then
      some (stripped ((strip raw).drop (scanDelim d (strip raw) + 1)))
    else readLoop d searched key default_value true rest

/-- The function `read` (ini.cpp 220-279). -/
def read (d : Dialect) (file : Option Str) (sect key default_value : Str) : Except Error Str :=
  match file with
  | none => .error .cannotOpen
  | some content =>
    .ok ((readLoop d (searchedWord sect) key default_value false (getlines content)).getD
      default_value)

/-! ## Functions that rewrite the file -/

/-- Replaces the file by the temporary one: `remove(fname); rename(temp_name, fname)`. -/
def installTemp (chunks : List Str) : Option Str := some chunks.flatten

/-- The loop of `section_delete` (ini.cpp 308-335): the chunks written to the
temporary file and the final value of `section_found`. -/
def sectionDeleteLoop (searched : Str) : (in_section section_found : Bool) → List Str →
    List Str × Bool
  | _, section_found, [] => ([], section_found)
  | true, section_found, raw :: rest =>
    if (strip raw).head? = some '[' then
      let r := sectionDeleteLoop searched false section_found rest
      (strip raw :: r.1, r.2)
    else sectionDeleteLoop searched true section_found rest
  | false, section_found, raw :: rest =>
    if startsWith (strip raw) searched then sectionDeleteLoop searched true true rest
    else
      let r := sectionDeleteLoop searched false section_found rest
      (strip raw :: r.1, r.2)

/-- The function `section_delete` (ini.cpp 285-348). -/
def section_delete (_d : Dialect) (file : Option Str) (sect : Str) : Outcome :=
  match file with
  | none => ⟨some .cannotOpen, none⟩
  | some content =>
    let r := sectionDeleteLoop (searchedWord sect) false false (rawLines content)
    if !r.2 then ⟨some .sectionNotFound, some content⟩
    else ⟨none, installTemp r.1⟩

/-- The loop of `key_delete` (ini.cpp 382-434).  A `throw` inside the loop is
`Except.error`; otherwise the result is the chunks written to the temporary
file and the final value of `section_found`. -/
def keyDeleteLoop (d : Dialect) (searched key : Str) :
    (in_section section_found key_found : Bool) → List Str → Except Error (List Str × Bool)
  | _, section_found, _, [] => .ok ([], section_found)
  | in_section, section_found, true, raw :: rest =>
    (keyDeleteLoop d searched key in_section section_found true rest).map
      fun r => (strip raw :: r.1, r.2)
  | true, section_found, false, raw :: rest =>
    if (strip raw).head? = some '[' then .error .keyNotFound
    else if isKeyLine d key (strip raw) then
      -- `key_found = true; in_key = true`: the line is not copied
      keyDeleteLoop d searched key true section_found true rest
    else
      (keyDeleteLoop d searched key true section_found false rest).map
        fun r => (strip raw :: r.1, r.2)
  | false, section_found, false, raw :: rest =>
    if startsWith (strip raw) searched then
      (keyDeleteLoop d searched key true true false rest).map fun r => (strip raw :: r.1, r.2)
    else
      (keyDeleteLoop d searched key false section_found false rest).map
        fun r => (strip raw :: r.1, r.2)

/-- The function `key_delete` (ini.cpp 354-446). -/
def key_delete (d : Dialect) (file : Option Str) (sect key : Str) : Outcome :=
  match file with
  | none => ⟨some .cannotOpen, none⟩
  | some content =>
    match keyDeleteLoop d (searchedWord sect) key false false false (rawLines content) with
    | .error e => ⟨some e, some content⟩
    | .ok r =>
      if !r.2 then ⟨some .sectionNotFound, some content⟩
      else ⟨none, installTemp r.1⟩

/-- The line `fprintf(temp, "%s%c%s\n", key, dialect.delimiter, value)`. -/
def keyLine (d : Dialect) (key value : Str) : Str := key ++ d.delimiter :: (value ++ ['\n'])

/-- The chunks of `for (i = 0; i < empty_lines; ++i) fprintf(temp, "%c", lineterminator)`. -/
def flushEmpty (d : Dialect) (empty_lines : Nat) : List Str :=
  List.replicate empty_lines [d.lineterminator]

/-- The variables of the loop of `write` that live across iterations. -/
structure WriteState where
  section_found : Bool
  key_found : Bool
  in_section : Bool
  empty_lines : Nat
deriving DecidableEq, Repr

/-- One iteration of the loop of `write` (ini.cpp 486-562) on the stripped
line: the new state and the chunks written to the temporary file.  The call
`strnorm(line, dialect)` of line 534 returns a copy that the source drops, so
it leaves no trace here. -/
def writeStep (d : Dialect) (searched key value : Str) (st : WriteState) (line : Str) :
    WriteState × List Str :=
  if !st.key_found then
    if st.section_found == false then
      if startsWith line searched then
        ({ st with in_section := true, section_found := true }, [line])
      else (st, [line])
    else
      if line.head? = some d.lineterminator then
        ({ st with empty_lines := st.empty_lines + 1 }, [])
      else if line.head? = some '[' then
        if st.in_section then
          ({ st with key_found := true, empty_lines := 0 },
            keyLine d key value :: (flushEmpty d st.empty_lines ++ [line]))
        else
          ({ st with empty_lines := 0 }, flushEmpty d st.empty_lines ++ [line])
      else
        if isKeyLine d key line then
          ({ st with key_found := true, empty_lines := 0 },
            flushEmpty d st.empty_lines ++ [keyLine d key value])
        else
          ({ st with empty_lines := 0 }, flushEmpty d st.empty_lines ++ [line])
  else (st, [line])

/-- The loop of `write` (ini.cpp 484-563). -/
def writeLoop (d : Dialect) (searched key value : Str) : WriteState → List Str →
    WriteState × List Str
  | st, [] => (st, [])
  | st, raw :: rest =>
    let r := writeStep d searched key value st (strip raw)
    let t := writeLoop d searched key value r.1 rest
    (t.1, r.2 ++ t.2)

/-- The chunks written after the loop of `write` (ini.cpp 565-574). -/
def writeTail (d : Dialect) (searched key value : Str) (st : WriteState) : List Str :=
  if !st.section_found then [['\n'], searched ++ ['\n'], keyLine d key value]
  else if !st.key_found then [keyLine d key value]
  else []

/-- The lines the loop of `write` reads.  When the file does not exist the
source creates it, prints the section and the key to it and goes on reading
from that handle, which is open for writing only: no line is read; what was
printed is removed with the file by `remove(fname)`. -/
def writeInput (file : Option Str) : List Str :=
  match file with
  | none => []
  | some content => rawLines content

/-- The function `write` for a string value (ini.cpp 452-581): the content of
the file afterwards.  It throws nothing. -/
def write (d : Dialect) (file : Option Str) (sect key value : Str) : Option Str :=
  let r := writeLoop d (searchedWord sect) key value ⟨false, false, false, 0⟩ (writeInput file)
  installTemp (r.2 ++ writeTail d (searchedWord sect) key value r.1)

/-- The line `fprintf(temp, "%s%c%f\n", key, dialect.delimiter, value)` of the
function `write` for a real value.  The rendering of a `double` by `"%f"` is
the parameter `fmt`; `R` stands for the type `double`. -/
def keyLineDouble {R : Type} (fmt : R → Str) (d : Dialect) (key : Str) (value : R) : Str :=
  key ++ d.delimiter :: (fmt value ++ ['\n'])

/-- One iteration of the loop of `write` for a real value (ini.cpp 621-698) on
the stripped line. -/
def writeStepDouble {R : Type} (fmt : R → Str) (d : Dialect) (searched key : Str) (value : R)
    (st : WriteState) (line : Str) : WriteState × List Str :=
  if !st.key_found then
    if st.section_found == false then
      if startsWith line searched then
        ({ st with in_section := true, section_found := true }, [line])
      else (st, [line])
    else
      if line.head? = some d.lineterminator then
        ({ st with empty_lines := st.empty_lines + 1 }, [])
      else if line.head? = some '[' then
        if st.in_section then
          ({ st with key_found := true, empty_lines := 0 },
            keyLineDouble fmt d key value :: (flushEmpty d st.empty_lines ++ [line]))
        else
          ({ st with empty_lines := 0 }, flushEmpty d st.empty_lines ++ [line])
      else
        if isKeyLine d key line then
          ({ st with key_found := true, empty_lines := 0 },
            flushEmpty d st.empty_lines ++ [keyLineDouble fmt d key value])
        else
          ({ st with empty_lines := 0 }, flushEmpty d st.empty_lines ++ [line])
  else (st, [line])

/-- The loop of `write` for a real value (ini.cpp 619-699). -/
def writeLoopDouble {R : Type} (fmt : R → Str) (d : Dialect) (searched key : Str) (value : R) :
    WriteState → List Str → WriteState × List Str
  | st, [] => (st, [])
  | st, raw :: rest =>
    let r := writeStepDouble fmt d searched key value st (strip raw)
    let t := writeLoopDouble fmt d searched key value r.1 rest
    (t.1, r.2 ++ t.2)

/-- The chunks written after the loop of `write` for a real value
(ini.cpp 701-710). -/
def writeTailDouble {R : Type} (fmt : R → Str) (d : Dialect) (searched key : Str) (value : R)
    (st : WriteState) : List Str :=
  if !st.section_found then [['\n'], searched ++ ['\n'], keyLineDouble fmt d key value]
  else if !st.key_found then [keyLineDouble fmt d key value]
  else []

/-- The function `write` for a real value (ini.cpp 587-717): the content of
the file afterwards. -/
def writeDouble {R : Type} (fmt : R → Str) (d : Dialect) (file : Option Str) (sect key : Str)
    (value : R) : Option Str :=
  let r := writeLoopDouble fmt d (searchedWord sect) key value ⟨false, false, false, 0⟩
    (writeInput file)
  installTemp (r.2 ++ writeTailDouble fmt d (searchedWord sect) key value r.1)

/-- The loop of `section_rename` (ini.cpp 754-779). -/
def sectionRenameLoop (d : Dialect) (searched new_searched : Str) : (section_found : Bool) →
    List Str → Except Error (List Str × Bool)
  | section_found, [] => .ok ([], section_found)
  | section_found, raw :: rest =>
    if startsWith (lstrip raw) searched then
      (sectionRenameLoop d searched new_searched true rest).map
        fun r => ((new_searched ++ [d.lineterminator]) :: r.1, r.2)
    else if startsWith (lstrip raw) new_searched then .error .sectionAlreadyExists
    else
      (sectionRenameLoop d searched new_searched section_found rest).map
        fun r => (lstrip raw :: r.1, r.2)

/-- The function `section_rename` (ini.cpp 722-791).  The file is replaced
before `section_found` is tested. -/
def section_rename (d : Dialect) (file : Option Str) (sect new_section : Str) : Outcome :=
  match file with
  | none => ⟨some .cannotOpen, none⟩
  | some content =>
    match sectionRenameLoop d (searchedWord sect) (searchedWord new_section) false
        (rawLines content) with
    | .error e => ⟨some e, some content⟩
    | .ok r =>
      if !r.2 then ⟨some .sectionNotFound, installTemp r.1⟩
      else ⟨none, installTemp r.1⟩

/-- The loop of `key_rename` (ini.cpp 823-881).  A line is stripped only while
the key has not been found. -/
def keyRenameLoop (d : Dialect) (searched key new_key : Str) :
    (section_found key_found in_section : Bool) → List Str → Except Error (List Str × Bool)
  | section_found, _, _, [] => .ok ([], section_found)
  | section_found, true, in_section, raw :: rest =>
    (keyRenameLoop d searched key new_key section_found true in_section rest).map
      fun r => (raw :: r.1, r.2)
  | false, false, in_section, raw :: rest =>
    if startsWith (strip raw) searched then
      (keyRenameLoop d searched key new_key true false true rest).map
        fun r => (strip raw :: r.1, r.2)
    else
      (keyRenameLoop d searched key new_key false false in_section rest).map
        fun r => (strip raw :: r.1, r.2)
  | true, false, false, raw :: rest =>
    (keyRenameLoop d searched key new_key true false false rest).map
      fun r => (strip raw :: r.1, r.2)
  | true, false, true, raw :: rest =>
    if (strip raw).head? = some '[' then .error .keyNotFound
    else if isKeyLine d key (strip raw) then
      let i := scanDelim d (strip raw)
      let j := i + 1 + scanComment d ((strip raw).drop (i + 1))
      (keyRenameLoop d searched key new_key true true true rest).map
        fun r => ((new_key ++ d.delimiter :: (substr (strip raw) (i + 1) j ++ ['\n'])) :: r.1, r.2)
    else if isKeyLine d new_key (strip raw) then .error .keyAlreadyExists
    else
      (keyRenameLoop d searched key new_key true false true rest).map
        fun r => (strip raw :: r.1, r.2)

/-- The function `key_rename` (ini.cpp 796-894). -/
def key_rename (d : Dialect) (file : Option Str) (sect key new_key : Str) : Outcome :=
  match file with
  | none => ⟨some .cannotOpen, none⟩
  | some content =>
    match keyRenameLoop d (searchedWord sect) key new_key false false false
        (rawLines content) with
    | .error e => ⟨some e, some content⟩
    | .ok r =>
      if !r.2 then ⟨some .sectionNotFound, some content⟩
      else ⟨none, installTemp r.1⟩


/-! ## Notions used to state the properties -/

/-- A raw line that ends with the only `'\n'` it holds. -/
def Terminated (l : Str) : Prop := ∃ b, l = b ++ ['\n'] ∧ '\n' ∉ b

/-- A list of raw lines as a file is cut into them: every line but the last
is terminated, the last one may lack its `'\n'`. -/
def LineList : List Str → Prop
  | [] => True
  | l :: ls => (Terminated l ∧ LineList ls) ∨ ('\n' ∉ l ∧ ls = [])

/-- The content is empty or its last character is `'\n'`. -/
def EndsWithNewline (content : Str) : Prop := content = [] ∨ content.getLast? = some '\n'

/-- The test for a header of the section on a raw line, as `section_exists`
makes it. -/
def isHeader (sect raw : Str) : Bool := startsWith (lstrip raw) (searchedWord sect)

/-- The lines the read-only functions see in the file; none when the file does
not exist. -/
def linesOf (file : Option Str) : List Str :=
  match file with
  | none => []
  | some content => getlines content

/-- The reference definition of a key line, in the words of the claim: a
trimmed line that is not blank, is no comment, holds a delimiter and whose
trimmed text before its first delimiter is the key. -/
def keyLineSpec (d : Dialect) (key l : Str) : Bool :=
  l != [] && l.head? != some d.commentchar && l.contains d.delimiter &&
    strip (l.takeWhile (fun c => c != d.delimiter)) == key

/-- The reference definition of the search in a section, in the words of the
claim: among the trimmed lines before the next line that starts with `'['`,
the first key line gives the trimmed text after its first delimiter; the
default when there is no such line. -/
def readSectionSpec (d : Dialect) (key default_value : Str) (after : List Str) : Str :=
  match (after.takeWhile (fun l => l.head? != some '[')).find? (keyLineSpec d key) with
  | none => default_value
  | some l => strip ((l.dropWhile (fun c => c != d.delimiter)).drop 1)

/-- The reference definition of `read`, in the words of the claim: the default
when no trimmed line starts with `"[s]"`; otherwise the search in the lines
after the first such header. -/
def readSpec (d : Dialect) (content sect key default_value : Str) : Str :=
  match ((getlines content).map strip).dropWhile
      (fun l => !(searchedWord sect).isPrefixOf l) with
  | [] => default_value
  | _ :: after => readSectionSpec d key default_value after

/-- The chunks `write` produces from the lines that follow the header of the
section, `empty_lines` empty lines being held back: the loop of `write` in the
state `section_found`, `in_section`, not `key_found`, followed by the chunks
written after the loop, as one recursion on the lines. -/
def writeSection (d : Dialect) (key value : Str) : Nat → List Str → List Str
  | _, [] => [keyLine d key value]
  | n, raw :: rest =>
    if (strip raw).head? = some d.lineterminator then writeSection d key value (n + 1) rest
    else if (strip raw).head? = some '[' then
      keyLine d key value :: (flushEmpty d n ++ strip raw :: rest.map strip)
    else if isKeyLine d key (strip raw) then
      flushEmpty d n ++ keyLine d key value :: rest.map strip
    else flushEmpty d n ++ strip raw :: writeSection d key value 0 rest

/-- The chunks `write` produces from the lines of the file: the loop of
`write` from its initial state, followed by the chunks written after the loop,
as one recursion on the lines. -/
def writeFile (d : Dialect) (sect key value : Str) : List Str → List Str
  | [] => [['\n'], searchedWord sect ++ ['\n'], keyLine d key value]
  | raw :: rest =>
    if startsWith (strip raw) (searchedWord sect) then
      strip raw :: writeSection d key value 0 rest
    else strip raw :: writeFile d sect key value rest

/-- What the read-only functions test on a raw line: the line without its
terminator, stripped. -/
def view (raw : Str) : Str := strip (chomp raw)

/-- The result of `read` on the raw lines of the file, the loop being entered
with `section_found` equal to `found`. -/
def readRaw (d : Dialect) (sect key default_value : Str) (found : Bool) (raws : List Str) : Str :=
  (readLoop d (searchedWord sect) key default_value found (raws.map chomp)).getD default_value

/-- The line without its trailing comment, in the words of the claim:
everything from the first comment character on is removed. -/
def removeComment (d : Dialect) (l : Str) : Str := l.takeWhile (fun c => c != d.commentchar)

/-- The reference definition of a section header named `sect`, in the words of
the claim: after removing a trailing comment and surrounding whitespace the
line starts with `'['` and the text up to the first `']'` is the name. -/
def isHeaderSpec (d : Dialect) (sect l : Str) : Bool :=
  (strip (removeComment d l)).head? == some '[' &&
    (strip (removeComment d l)).tail.contains ']' &&
    (strip (removeComment d l)).tail.takeWhile (fun c => c != ']') == sect

/-- A line the scanner ignores: a blank line, a line whose first character
that is no blank is the comment character, or a line that holds no delimiter
and whose first character that is no blank is not `'['`. -/
def ignoredLine (d : Dialect) (x : Str) : Prop :=
  strip x = [] ∨ (strip x).head? = some d.commentchar ∨
    ((strip x).head? ≠ some '[' ∧ d.delimiter ∉ x)


end Polder.Ini

/-! # The formulas of `POLDER/math/formula.inl`

An unsigned type of `w` bits holds the numbers below `2 ^ w`; its arithmetic is
that of `Nat` reduced modulo `2 ^ w` wherever a result can leave the type.  A
loop or a recursion of the source that the text alone does not bound takes a
number of steps `fuel` and answers `none` when it needs more. -/

namespace Polder.Math

/-- The helper `meta::_is_prime_helper` (formula.inl 205-212):
`(div*div > n) ? true : (n % div == 0) ? false : _is_prime_helper(n, div+2)`. -/
def meta._is_prime_helper (w : Nat) : (fuel n div : Nat) → Option Bool
  | 0, _, _ => none
  | fuel + 1, n, div =>
    if (div * div) % 2 ^ w > n then some true
    else if n % div = 0 then some false
    else meta._is_prime_helper w fuel n ((div + 2) % 2 ^ w)

/-- The function `meta::is_prime` (formula.inl 233-240):
`(n < 2) ? false : (n == 2) ? true : _is_prime_helper(n, 3)`. -/
def meta.is_prime (w fuel n : Nat) : Option Bool :=
  if n < 2 then some false
  else if n = 2 then some true
  else meta._is_prime_helper w fuel n 3

/-- The function `is_prime` (formula.inl 35-40), which returns `meta::is_prime(n)`. -/
def is_prime (w fuel n : Nat) : Option Bool := meta.is_prime w fuel n

/-- The loop of `fibonacci` (formula.inl 102-106), run `n` times on the
variables `a` and `b`: `b += a; a = b - a;`.  The counter `i` runs from `0` to
`n`, a value of the type, and does not wrap. -/
def fibonacciLoop (w : Nat) : Nat → Nat × Nat → Nat × Nat
  | 0, s => s
  | n + 1, (a, b) =>
    fibonacciLoop w n ((((b + a) % 2 ^ w) + 2 ^ w - a) % 2 ^ w, (b + a) % 2 ^ w)

/-- The function `fibonacci` (formula.inl 96-108). -/
def fibonacci (w n : Nat) : Nat := (fibonacciLoop w n (0, 1 % 2 ^ w)).1

/-- The function `meta::fibonacci` (formula.inl 256-261):
`(n < 2) ? n : meta::fibonacci(n-2) + meta::fibonacci(n-1)`. -/
def meta.fibonacci (w : Nat) : Nat → Nat
  | 0 => 0
  | 1 => 1
  | n + 2 => (meta.fibonacci w n + meta.fibonacci w (n + 1)) % 2 ^ w

/-- The `for` loop of `prime` (formula.inl 137-150) on the known primes from
`primes.begin()+2` on: the final value of `is_prime`.  The test `pri > root`
with `root = std::sqrt(tested_number)` is the test `pri * pri > tested_number`
on the numbers themselves. -/
def primeDivisorLoop (tested_number : Nat) : List Nat → Bool
  | [] => true
  | pri :: rest =>
    if pri * pri > tested_number then true
    else if tested_number % pri = 0 then false
    else primeDivisorLoop tested_number rest

/-- The `while` loop of `prime` (formula.inl 125-156) on the variable
`tested_number` and the vector `primes`: the vector when the loop is left. -/
def primeLoop (w n : Nat) : (fuel tested_number : Nat) → List Nat → Option (List Nat)
  | 0, _, primes => if primes.length - 1 < n then none else some primes
  | fuel + 1, tested_number, primes =>
    if primes.length - 1 < n then
      if primeDivisorLoop ((tested_number + 2) % 2 ^ w) (primes.drop 2) then
        primeLoop w n fuel ((tested_number + 2) % 2 ^ w)
          (primes ++ [(tested_number + 2) % 2 ^ w])
      else primeLoop w n fuel ((tested_number + 2) % 2 ^ w) primes
    else some primes

/-- The function `prime` (formula.inl 110-159) on the static vector `primes`:
the number returned and the vector afterwards. -/
def prime (w fuel n : Nat) (primes : List Nat) : Option (Nat × List Nat) :=
  if primes.length - 1 < n then
    (primeLoop w n fuel (primes.getLast?.getD 0) primes).map fun ps => (ps.getD n 0, ps)
  else some (primes.getD n 0, primes)

/-- The loop of `gcd` (formula.inl 175-180) on the variables `a`, `b` and `r`:
the final value of `b`. -/
def gcdLoop : (fuel a b r : Nat) → Option Nat
  | 0, _, b, r => if r ≠ 0 then none else some b
  | fuel + 1, _, b, r => if r ≠ 0 then gcdLoop fuel b r (b % r) else some b

/-- The function `gcd` (formula.inl 161-182).  No operation of it leaves the
type. -/
def gcd (fuel a b : Nat) : Option Nat :=
  if a = 0 ∨ b = 0 then some 0
  else if b > a then gcdLoop fuel b a (b % a)
  else gcdLoop fuel a b (a % b)

/-- The function `lcm` (formula.inl 184-193): `a*b / gcd(a, b)`. -/
def lcm (w fuel a b : Nat) : Option Nat :=
  if a = 0 ∨ b = 0 then some 1
  else (gcd fuel a b).map fun g => (a * b) % 2 ^ w / g

/-! ## Notions used to state the properties of the formulas -/

/-- The initial value `{ 1, 2, 3 }` of the static vector of `prime`. -/
def primesInit : List Nat := [1, 2, 3]

/-- The static vector of `prime` after the calls `prime(n)` for the numbers `n`
of a list, in their order; none when a call does not return. -/
def primeCalls (w fuel : Nat) : List Nat → List Nat → Option (List Nat)
  | [], primes => some primes
  | n :: rest, primes =>
    match prime w fuel n primes with
    | none => none
    | some r => primeCalls w fuel rest r.2

/-- The prime numbers below `m`, in increasing order. -/
def primesBelow (m : Nat) : List Nat := (List.range m).filter fun k => decide (Nat.Prime k)

end Polder.Math

/-! # The type list of `POLDER/type_list.h`

A list of types is the list of its elements; `void` is a type among them.  The
type `size_type` is an unsigned type of `w` bits. -/

namespace Polder.type_list

/-- The member `size` of the three specializations of `type_list`
(type_list.h 40, 71, 106). -/
def size {Ty : Type} : List Ty → Nat
  | [] => 0
  | [_] => 1
  | _ :: tail => tail.length + 1

/-- The member `is_empty` (type_list.h 41, 72, 107). -/
def is_empty {Ty : Type} : List Ty → Bool
  | [] => true
  | [_] => false
  | _ :: _ :: _ => false

/-- The member `at<N>` (type_list.h 43-48, 74-79, 109-110);
`std::conditional_t<c, A, B>` is `A` when `c` holds and `B` otherwise, and
`N-1` is taken in `size_type`.  The name is `at_` because `at` is a keyword. -/
def at_ {Ty : Type} (w : Nat) (void : Ty) : List Ty → Nat → Ty
  | [], _ => void
  | [head], N => if N = 0 then head else void
  | head :: tail, N => if N = 0 then head else at_ w void tail ((N + 2 ^ w - 1) % 2 ^ w)

/-- The member `front` (type_list.h 50, 81, 112). -/
def front {Ty : Type} (void : Ty) : List Ty → Ty
  | [] => void
  | [head] => head
  | head :: _ => head

/-- The member `back` (type_list.h 51, 82, 113). -/
def back {Ty : Type} (w : Nat) (void : Ty) : List Ty → Ty
  | [] => void
  | [head] => head
  | head :: tail => at_ w void (head :: tail) (size (head :: tail) - 1)

end Polder.type_list

namespace Polder.Ini


/-! ## Blanks and trimming -/

theorem startsWith_iff (l w : Str) : startsWith l w = true ↔ w <+: l := by
  unfold startsWith
  rw [beq_iff_eq, List.prefix_iff_eq_take]
  exact eq_comm

theorem dropWhile_append_cons_neg {α : Type} (p : α → Bool) (a : List α) (c : α) (r : List α)
    (hc : p c = false) : (a ++ c :: r).dropWhile p = a.dropWhile p ++ c :: r := by
  induction a with
  | nil => simp [List.dropWhile_cons, hc]
  | cons x xs ih =>
    by_cases hx : p x = true
    · simp [List.dropWhile_cons, hx, ih]
    · simp [List.dropWhile_cons, hx]

theorem lstrip_append_cons (a : Str) (c : Char) (r : Str) (hc : isBlank c = false) :
    lstrip (a ++ c :: r) = lstrip a ++ c :: r :=
  dropWhile_append_cons_neg isBlank a c r hc

theorem lstrip_cons_nonblank (c : Char) (r : Str) (hc : isBlank c = false) :
    lstrip (c :: r) = c :: r := by
  simp [lstrip, List.dropWhile_cons, hc]

theorem lstrip_cons_blank (c : Char) (r : Str) (hc : isBlank c = true) :
    lstrip (c :: r) = lstrip r := by
  simp [lstrip, List.dropWhile_cons, hc]

theorem lstrip_nil : lstrip [] = [] := rfl

theorem rstrip_nil : rstrip [] = [] := rfl

theorem rstrip_append_cons (a : Str) (c : Char) (r : Str) (hc : isBlank c = false) :
    rstrip (a ++ c :: r) = a ++ c :: rstrip r := by
  unfold rstrip
  have h : (a ++ c :: r).reverse = r.reverse ++ c :: a.reverse := by simp
  rw [h, dropWhile_append_cons_neg isBlank _ _ _ hc]
  simp

theorem rstrip_cons_nonblank (c : Char) (r : Str) (hc : isBlank c = false) :
    rstrip (c :: r) = c :: rstrip r :=
  rstrip_append_cons [] c r hc

theorem rstrip_append_singleton (a : Str) (c : Char) (hc : isBlank c = false) :
    rstrip (a ++ [c]) = a ++ [c] := by
  rw [rstrip_append_cons a c [] hc, rstrip_nil]

theorem rstrip_idem (s : Str) : rstrip (rstrip s) = rstrip s := by
  have h := List.rdropWhile_idempotent isBlank s
  simpa [List.rdropWhile, rstrip] using h

theorem lstrip_idem (s : Str) : lstrip (lstrip s) = lstrip s :=
  List.dropWhile_idempotent isBlank s

/-- The trimmed string is empty or starts with a character that is not a blank. -/
theorem lstrip_cases (s : Str) :
    lstrip s = [] ∨ ∃ c r, lstrip s = c :: r ∧ isBlank c = false := by
  induction s with
  | nil => exact Or.inl rfl
  | cons x xs ih =>
    by_cases hx : isBlank x = true
    · rw [lstrip_cons_blank x xs hx]; exact ih
    · right
      have hx' : isBlank x = false := by simpa using hx
      exact ⟨x, xs, lstrip_cons_nonblank x xs hx', hx'⟩

theorem strip_of_lstrip_nil (s : Str) (h : lstrip s = []) : strip s = [] := by
  simp [strip, h, rstrip_nil]

theorem strip_of_lstrip_cons (s : Str) (c : Char) (r : Str) (h : lstrip s = c :: r)
    (hc : isBlank c = false) : strip s = c :: rstrip r := by
  simp [strip, h, rstrip_cons_nonblank c r hc]

theorem strip_cons_nonblank (c : Char) (r : Str) (hc : isBlank c = false) :
    strip (c :: r) = c :: rstrip r :=
  strip_of_lstrip_cons _ c r (lstrip_cons_nonblank c r hc) hc

theorem strip_idem (s : Str) : strip (strip s) = strip s := by
  rcases lstrip_cases s with h | ⟨c, r, h, hc⟩
  · rw [strip_of_lstrip_nil s h]; rfl
  · rw [strip_of_lstrip_cons s c r h hc, strip_cons_nonblank c _ hc, rstrip_idem]

theorem lstrip_strip (s : Str) : lstrip (strip s) = strip s := by
  rcases lstrip_cases s with h | ⟨c, r, h, hc⟩
  · rw [strip_of_lstrip_nil s h]; rfl
  · rw [strip_of_lstrip_cons s c r h hc, lstrip_cons_nonblank c _ hc]

theorem strip_lstrip (s : Str) : strip (lstrip s) = strip s := by
  unfold strip; rw [lstrip_idem]

theorem head?_strip (s : Str) : (strip s).head? = (lstrip s).head? := by
  rcases lstrip_cases s with h | ⟨c, r, h, hc⟩
  · rw [strip_of_lstrip_nil s h, h]
  · rw [strip_of_lstrip_cons s c r h hc, h]; rfl

theorem strip_eq_nil_iff (s : Str) : strip s = [] ↔ lstrip s = [] := by
  rcases lstrip_cases s with h | ⟨c, r, h, hc⟩
  · simp [strip_of_lstrip_nil s h, h]
  · simp [strip_of_lstrip_cons s c r h hc, h]

/-- A raw line that ends with its terminator keeps it when stripped. -/
theorem strip_append_nl (b : Str) : strip (b ++ ['\n']) = lstrip b ++ ['\n'] := by
  unfold strip
  rw [lstrip_append_cons b '\n' [] (by decide), rstrip_append_singleton _ _ (by decide)]


/-! ## Cutting a file into lines -/

theorem rawLines_nil : rawLines [] = [] := rfl

theorem rawLines_cons_nl (cs : Str) : rawLines ('\n' :: cs) = ['\n'] :: rawLines cs := by
  simp [rawLines]

theorem rawLines_ne_nil (c : Char) (cs : Str) : rawLines (c :: cs) ≠ [] := by
  unfold rawLines
  split
  · simp
  · split <;> simp

theorem rawLines_flatten (s : Str) : (rawLines s).flatten = s := by
  induction s with
  | nil => rfl
  | cons c cs ih =>
    unfold rawLines
    split
    · next h => simp [ih, h]
    · split
      · next h => rw [h] at ih; simp at ih; simp [← ih]
      · next l ls h => rw [h] at ih; simp at ih; simp [← ih]

theorem rawLines_append_nl (b rest : Str) (hb : '\n' ∉ b) :
    rawLines (b ++ '\n' :: rest) = (b ++ ['\n']) :: rawLines rest := by
  induction b with
  | nil => simp [rawLines]
  | cons c cs ih =>
    have hc : c ≠ '\n' := fun h => hb (by simp [h])
    have hcs : '\n' ∉ cs := fun h => hb (by simp [h])
    have e : (c :: cs) ++ '\n' :: rest = c :: (cs ++ '\n' :: rest) := rfl
    rw [e, rawLines, if_neg hc, ih hcs]
    rfl

theorem rawLines_of_not_mem (b : Str) (hb : '\n' ∉ b) (hne : b ≠ []) : rawLines b = [b] := by
  induction b with
  | nil => exact absurd rfl hne
  | cons c cs ih =>
    have hc : c ≠ '\n' := fun h => hb (by simp [h])
    have hcs : '\n' ∉ cs := fun h => hb (by simp [h])
    rw [rawLines, if_neg hc]
    cases cs with
    | nil => rfl
    | cons x xs => rw [ih hcs (by simp)]

theorem terminated_singleton : Terminated ['\n'] := ⟨[], rfl, by simp⟩

theorem Terminated.cons {l : Str} (h : Terminated l) {c : Char} (hc : c ≠ '\n') :
    Terminated (c :: l) := by
  obtain ⟨b, rfl, hb⟩ := h
  refine ⟨c :: b, rfl, ?_⟩
  simp only [List.mem_cons, not_or]
  exact ⟨fun h => hc h.symm, hb⟩

theorem Terminated.ne_nil {l : Str} (h : Terminated l) : l ≠ [] := by
  obtain ⟨b, rfl, _⟩ := h
  simp

theorem lineList_rawLines (s : Str) : LineList (rawLines s) := by
  induction s with
  | nil => trivial
  | cons c cs ih =>
    unfold rawLines
    split
    · exact Or.inl ⟨terminated_singleton, ih⟩
    · next hc =>
      split
      · right; simp; exact fun h => hc h.symm
      · next l ls h =>
        rw [h] at ih
        rcases ih with ⟨ht, hl⟩ | ⟨hn, rfl⟩
        · exact Or.inl ⟨ht.cons hc, hl⟩
        · right
          refine ⟨?_, rfl⟩
          simp only [List.mem_cons, not_or]
          exact ⟨fun h => hc h.symm, hn⟩

theorem LineList.mem {ls : List Str} (h : LineList ls) {l : Str} (hl : l ∈ ls) :
    Terminated l ∨ '\n' ∉ l := by
  induction ls with
  | nil => simp at hl
  | cons x xs ih =>
    rcases h with ⟨ht, hx⟩ | ⟨hn, rfl⟩
    · rcases List.mem_cons.1 hl with rfl | hm
      · exact Or.inl ht
      · exact ih hx hm
    · simp at hl; subst hl; exact Or.inr hn

theorem LineList.of_all_terminated {ls : List Str} (h : ∀ l ∈ ls, Terminated l) :
    LineList ls := by
  induction ls with
  | nil => trivial
  | cons x xs ih =>
    exact Or.inl ⟨h x (by simp), ih fun l hl => h l (by simp [hl])⟩

theorem LineList.sublist {ls ls' : List Str} (h : LineList ls) (hs : ls'.Sublist ls) :
    LineList ls' := by
  induction hs with
  | slnil => trivial
  | cons a _ ih =>
    rcases h with ⟨_, hx⟩ | ⟨_, rfl⟩
    · exact ih hx
    · exact ih trivial
  | cons₂ a hs' ih =>
    rcases h with ⟨ht, hx⟩ | ⟨hn, rfl⟩
    · exact Or.inl ⟨ht, ih hx⟩
    · right
      exact ⟨hn, List.sublist_nil.1 hs'⟩

/-- Cutting the concatenation of a list of lines gives the lines back, the
empty ones apart. -/
theorem rawLines_flatten_of_lineList {ls : List Str} (h : LineList ls) :
    rawLines ls.flatten = ls.filter (fun l => decide (l ≠ [])) := by
  induction ls with
  | nil => rfl
  | cons x xs ih =>
    rcases h with ⟨ht, hx⟩ | ⟨hn, rfl⟩
    · obtain ⟨b, rfl, hb⟩ := ht
      have e : ((b ++ ['\n']) :: xs).flatten = b ++ '\n' :: xs.flatten := by simp
      rw [e, rawLines_append_nl b _ hb, ih hx]
      simp
    · by_cases hx : x = []
      · subst hx; rfl
      · simp [rawLines_of_not_mem x hn hx, hx]

theorem rawLines_flatten_of_terminated {ls : List Str} (h : ∀ l ∈ ls, Terminated l) :
    rawLines ls.flatten = ls := by
  rw [rawLines_flatten_of_lineList (LineList.of_all_terminated h)]
  apply List.filter_eq_self.2
  intro l hl
  simpa using (h l hl).ne_nil

theorem rawLines_append_singleton_nl (s : Str) : ∀ l ∈ rawLines (s ++ ['\n']), Terminated l := by
  induction s with
  | nil => intro l hl; simp [rawLines] at hl; subst hl; exact terminated_singleton
  | cons c cs ih =>
    intro l hl
    have e : (c :: cs) ++ ['\n'] = c :: (cs ++ ['\n']) := rfl
    rw [e, rawLines] at hl
    split at hl
    · rcases List.mem_cons.1 hl with rfl | hm
      · exact terminated_singleton
      · exact ih l hm
    · next hc =>
      split at hl
      · next h0 =>
        exfalso
        cases cs <;> simp [rawLines] at h0
        · rename_i x xs
          exact rawLines_ne_nil x (xs ++ ['\n']) (by simpa using h0)
      · next l0 ls h0 =>
        rw [h0] at ih
        rcases List.mem_cons.1 hl with rfl | hm
        · exact (ih l0 (by simp)).cons hc
        · exact ih l (by simp [hm])

theorem rawLines_terminated {s : Str} (h : EndsWithNewline s) :
    ∀ l ∈ rawLines s, Terminated l := by
  rcases h with rfl | h
  · intro l hl; simp [rawLines] at hl
  · obtain ⟨t, rfl⟩ : ∃ t, s = t ++ ['\n'] := by
      rcases List.eq_nil_or_concat s with rfl | ⟨t, c, rfl⟩
      · simp at h
      · simp at h; subst h; exact ⟨t, by simp⟩
    exact rawLines_append_singleton_nl t

theorem endsWithNewline_flatten {ls : List Str} (h : ∀ l ∈ ls, Terminated l) :
    EndsWithNewline ls.flatten := by
  rcases List.eq_nil_or_concat ls with rfl | ⟨xs, x, rfl⟩
  · exact Or.inl rfl
  · obtain ⟨b, rfl, _⟩ := h x (by simp)
    right
    simp [List.flatten_append, ← List.append_assoc]

/-! ## Removing the terminator -/

theorem chomp_append_nl (b : Str) : chomp (b ++ ['\n']) = b := by
  simp [chomp]

theorem chomp_of_not_mem (l : Str) (h : '\n' ∉ l) : chomp l = l := by
  unfold chomp
  rw [if_neg]
  intro hl
  exact h (List.mem_of_getLast?_eq_some hl)


/-! ## The test for a section header -/

theorem rstrip_prefix_self (t : Str) : rstrip t <+: t := by
  have h := List.rdropWhile_prefix isBlank t
  simpa [List.rdropWhile, rstrip] using h

theorem prefix_rstrip_iff (u : Str) (x : Char) (hx : isBlank x = false) (t : Str) :
    u ++ [x] <+: rstrip t ↔ u ++ [x] <+: t := by
  constructor
  · intro h; exact h.trans (rstrip_prefix_self t)
  · rintro ⟨r, rfl⟩
    have e : u ++ [x] ++ r = u ++ x :: r := by simp
    rw [e, rstrip_append_cons u x r hx]
    exact ⟨rstrip r, by simp⟩

theorem prefix_append_nl_iff (u : Str) (x : Char) (hx : x ≠ '\n') (t : Str) :
    u ++ [x] <+: t ++ ['\n'] ↔ u ++ [x] <+: t := by
  constructor
  · intro h
    rcases List.prefix_concat_iff.1 (by simpa using h) with h1 | h1
    · exfalso
      have := congrArg List.getLast? h1
      simp at this
      exact hx this
    · exact h1
  · intro h; exact h.trans (List.prefix_append t _)

theorem searchedWord_eq (s : Str) : searchedWord s = ('[' :: s) ++ [']'] := rfl

theorem startsWith_strip (l s : Str) :
    startsWith (strip l) (searchedWord s) = startsWith (lstrip l) (searchedWord s) := by
  rw [Bool.eq_iff_iff, startsWith_iff, startsWith_iff, searchedWord_eq]
  exact prefix_rstrip_iff _ _ (by decide) _

theorem startsWith_append_nl (t s : Str) :
    startsWith (t ++ ['\n']) (searchedWord s) = startsWith t (searchedWord s) := by
  rw [Bool.eq_iff_iff, startsWith_iff, startsWith_iff, searchedWord_eq]
  exact prefix_append_nl_iff _ _ (by decide) _

theorem isHeader_eq (s l : Str) : isHeader s l = startsWith (strip l) (searchedWord s) := by
  rw [startsWith_strip]; rfl

theorem isHeader_strip (s l : Str) : isHeader s (strip l) = isHeader s l := by
  unfold isHeader; rw [lstrip_strip, startsWith_strip]

theorem isHeader_lstrip (s l : Str) : isHeader s (lstrip l) = isHeader s l := by
  unfold isHeader; rw [lstrip_idem]

theorem isHeader_nil (s : Str) : isHeader s [] = false := by
  simp [isHeader, lstrip, startsWith, searchedWord]

theorem isHeader_chomp (s : Str) {l : Str} (h : Terminated l ∨ '\n' ∉ l) :
    isHeader s (chomp l) = isHeader s l := by
  rcases h with ⟨b, rfl, _⟩ | h
  · rw [chomp_append_nl]
    unfold isHeader
    rw [lstrip_append_cons b '\n' [] (by decide), startsWith_append_nl]
  · rw [chomp_of_not_mem l h]

theorem any_congr_mem {α : Type} (l : List α) (p q : α → Bool) (h : ∀ a ∈ l, p a = q a) :
    l.any p = l.any q := by
  induction l with
  | nil => rfl
  | cons x xs ih =>
    simp only [List.any_cons]
    rw [h x (by simp), ih fun a ha => h a (by simp [ha])]

/-- On the raw lines of the file `section_exists` is the search for a header. -/
theorem section_exists_eq (d : Dialect) (content sect : Str) :
    section_exists d (some content) sect = .ok ((rawLines content).any (isHeader sect)) := by
  unfold section_exists getlines
  simp only [List.any_map]
  congr 1
  apply any_congr_mem
  intro l hl
  exact isHeader_chomp sect ((lineList_rawLines content).mem hl)


/-! ## Stripping the lines of a file -/

theorem lstrip_sublist (s : Str) : (lstrip s).Sublist s := List.dropWhile_sublist isBlank

theorem strip_sublist (s : Str) : (strip s).Sublist s :=
  (rstrip_prefix_self (lstrip s)).sublist.trans (lstrip_sublist s)

theorem Terminated.strip {l : Str} (h : Terminated l) : Terminated (strip l) := by
  obtain ⟨b, rfl, hb⟩ := h
  exact ⟨lstrip b, strip_append_nl b, fun h => hb ((lstrip_sublist b).subset h)⟩

theorem Terminated.lstrip {l : Str} (h : Terminated l) : Terminated (lstrip l) := by
  obtain ⟨b, rfl, hb⟩ := h
  exact ⟨Polder.Ini.lstrip b, lstrip_append_cons b '\n' [] (by decide),
    fun h => hb ((lstrip_sublist b).subset h)⟩

theorem LineList.map_strip {ls : List Str} (h : LineList ls) : LineList (ls.map strip) := by
  induction ls with
  | nil => trivial
  | cons x xs ih =>
    rcases h with ⟨ht, hx⟩ | ⟨hn, rfl⟩
    · exact Or.inl ⟨ht.strip, ih hx⟩
    · exact Or.inr ⟨fun h => hn ((strip_sublist x).subset h), rfl⟩

theorem LineList.map_lstrip {ls : List Str} (h : LineList ls) : LineList (ls.map lstrip) := by
  induction ls with
  | nil => trivial
  | cons x xs ih =>
    rcases h with ⟨ht, hx⟩ | ⟨hn, rfl⟩
    · exact Or.inl ⟨ht.lstrip, ih hx⟩
    · exact Or.inr ⟨fun h => hn ((lstrip_sublist x).subset h), rfl⟩

theorem any_isHeader_filter (sect : Str) (ls : List Str) :
    (ls.filter (fun l => decide (l ≠ []))).any (isHeader sect) = ls.any (isHeader sect) := by
  induction ls with
  | nil => rfl
  | cons x xs ih =>
    by_cases hx : x = []
    · subst hx
      rw [List.filter_cons_of_neg (by simp), ih, List.any_cons, isHeader_nil, Bool.false_or]
    · rw [List.filter_cons_of_pos (by simpa using hx), List.any_cons, List.any_cons, ih]

/-- The search for a header in the concatenation of a list of lines. -/
theorem section_exists_flatten (d : Dialect) (sect : Str) {ls : List Str} (h : LineList ls) :
    section_exists d (some ls.flatten) sect = .ok (ls.any (isHeader sect)) := by
  rw [section_exists_eq, rawLines_flatten_of_lineList h, any_isHeader_filter]

theorem countP_getlines (content sect : Str) :
    (getlines content).countP (isHeader sect) = (rawLines content).countP (isHeader sect) := by
  unfold getlines
  rw [List.countP_map]
  apply List.countP_congr
  intro l hl
  simp only [Function.comp]
  rw [isHeader_chomp sect ((lineList_rawLines content).mem hl)]

/-! ## `section_delete` -/

theorem sectionDeleteLoop_sublist (w : Str) (ls : List Str) :
    ∀ b sf, (sectionDeleteLoop w b sf ls).1.Sublist (ls.map strip) := by
  induction ls with
  | nil => intro b sf; cases b <;> simp [sectionDeleteLoop]
  | cons x xs ih =>
    intro b sf
    cases b
    · simp only [sectionDeleteLoop]
      split
      · exact (ih true true).trans (List.sublist_cons_self _ _)
      · exact (ih false sf).cons₂ _
    · simp only [sectionDeleteLoop]
      split
      · exact (ih false sf).cons₂ _
      · exact (ih true sf).trans (List.sublist_cons_self _ _)

/-- When the section has at most one header among the lines read, no chunk
written by the loop of `section_delete` is a header of the section. -/
theorem sectionDeleteLoop_no_header (sect : Str) (ls : List Str) :
    ∀ b sf, (b = false → ls.countP (isHeader sect) ≤ 1) →
      (b = true → ls.countP (isHeader sect) = 0) →
      ∀ o ∈ (sectionDeleteLoop (searchedWord sect) b sf ls).1, isHeader sect o = false := by
  induction ls with
  | nil => intro b sf _ _ o ho; cases b <;> simp [sectionDeleteLoop] at ho
  | cons x xs ih =>
    intro b sf h0 h1 o ho
    cases b
    · simp only [sectionDeleteLoop] at ho
      have h0' := h0 rfl
      rw [← isHeader_eq] at ho
      by_cases hx : isHeader sect x = true
      · rw [if_pos hx] at ho
        rw [List.countP_cons_of_pos _ _ hx] at h0'
        exact ih true true (by simp) (fun _ => by omega) o ho
      · rw [if_neg hx] at ho
        rw [List.countP_cons_of_neg _ _ hx] at h0'
        rcases List.mem_cons.1 ho with rfl | hm
        · rw [isHeader_strip]; simpa using hx
        · exact ih false sf (fun _ => h0') (by simp) o hm
    · simp only [sectionDeleteLoop] at ho
      have h1' := h1 rfl
      have hx : ¬ isHeader sect x = true := by
        intro hx
        rw [List.countP_cons_of_pos _ _ hx] at h1'
        omega
      rw [List.countP_cons_of_neg _ _ hx] at h1'
      split at ho
      · rcases List.mem_cons.1 ho with rfl | hm
        · rw [isHeader_strip]; simpa using hx
        · exact ih false sf (fun _ => by omega) (by simp) o hm
      · exact ih true sf (by simp) (fun _ => h1') o ho


/-! ## `section_rename` -/

/-- What `section_rename` writes for a raw line when it does not throw. -/
theorem sectionRenameLoop_ok (d : Dialect) (a b : Str) (ls : List Str) :
    ∀ sf r, sectionRenameLoop d (searchedWord a) (searchedWord b) sf ls = .ok r →
      r.1 = ls.map (fun raw =>
        if isHeader a raw then searchedWord b ++ [d.lineterminator] else lstrip raw) ∧
      r.2 = (sf || ls.any (isHeader a)) := by
  induction ls with
  | nil =>
    intro sf r h
    simp only [sectionRenameLoop, Except.ok.injEq] at h
    subst h
    simp
  | cons x xs ih =>
    intro sf r h
    simp only [sectionRenameLoop] at h
    by_cases hx : isHeader a x = true
    · have hx' : startsWith (lstrip x) (searchedWord a) = true := hx
      rw [if_pos hx'] at h
      cases h1 : sectionRenameLoop d (searchedWord a) (searchedWord b) true xs with
      | error e => rw [h1] at h; simp [Except.map] at h
      | ok r1 =>
        rw [h1] at h
        simp only [Except.map, Except.ok.injEq] at h
        subst h
        obtain ⟨e1, e2⟩ := ih true r1 h1
        simp [e1, e2, hx]
    · have hx' : ¬ startsWith (lstrip x) (searchedWord a) = true := hx
      rw [if_neg hx'] at h
      split at h
      · simp at h
      · cases h1 : sectionRenameLoop d (searchedWord a) (searchedWord b) sf xs with
        | error e => rw [h1] at h; simp [Except.map] at h
        | ok r1 =>
          rw [h1] at h
          simp only [Except.map, Except.ok.injEq] at h
          subst h
          obtain ⟨e1, e2⟩ := ih sf r1 h1
          simp [e1, e2, hx]

theorem searchedWord_prefix_inj {a b : Str} (hb : ']' ∉ b)
    (h : searchedWord a <+: searchedWord b) : a = b := by
  unfold searchedWord at h
  rw [List.cons_prefix_cons] at h
  rcases List.prefix_concat_iff.1 (by simpa using h.2) with h1 | h1
  · exact List.append_inj_left' h1 rfl
  · exfalso
    apply hb
    exact h1.subset (by simp)

theorem lstrip_searchedWord_append (s r : Str) : lstrip (searchedWord s ++ r) = searchedWord s ++ r :=
  lstrip_cons_nonblank '[' _ (by decide)

theorem isHeader_searchedWord_nl (a b : Str) :
    isHeader a (searchedWord b ++ ['\n']) = startsWith (searchedWord b) (searchedWord a) := by
  unfold isHeader
  rw [lstrip_searchedWord_append, startsWith_append_nl]

theorem isHeader_newHeader_self (b : Str) : isHeader b (searchedWord b ++ ['\n']) = true := by
  rw [isHeader_searchedWord_nl, startsWith_iff]

theorem isHeader_newHeader_other {a b : Str} (hab : a ≠ b) (hb : ']' ∉ b) :
    isHeader a (searchedWord b ++ ['\n']) = false := by
  rw [isHeader_searchedWord_nl]
  cases h : startsWith (searchedWord b) (searchedWord a) with
  | false => rfl
  | true => exact absurd (searchedWord_prefix_inj hb ((startsWith_iff _ _).1 h)) hab

theorem terminated_searchedWord {b : Str} (hnl : '\n' ∉ b) : Terminated (searchedWord b ++ ['\n']) := by
  refine ⟨searchedWord b, rfl, ?_⟩
  simp only [searchedWord, List.mem_cons, List.mem_append, List.mem_singleton, not_or]
  exact ⟨by decide, hnl, by decide⟩

theorem LineList.map_rename {ls : List Str} (h : LineList ls) (a b : Str) (hnl : '\n' ∉ b) :
    LineList (ls.map (fun raw =>
      if isHeader a raw then searchedWord b ++ ['\n'] else lstrip raw)) := by
  induction ls with
  | nil => trivial
  | cons x xs ih =>
    simp only [List.map_cons]
    by_cases hx : isHeader a x = true
    · rw [if_pos hx]
      left
      refine ⟨terminated_searchedWord hnl, ?_⟩
      rcases h with ⟨_, hxs⟩ | ⟨_, rfl⟩
      · exact ih hxs
      · trivial
    · rw [if_neg hx]
      rcases h with ⟨ht, hxs⟩ | ⟨hn, rfl⟩
      · exact Or.inl ⟨ht.lstrip, ih hxs⟩
      · exact Or.inr ⟨fun h => hn ((lstrip_sublist x).subset h), rfl⟩


/-! ## `key_delete` -/

theorem except_map_ok {ε α β : Type} {f : α → β} {x : Except ε α} {r : β}
    (h : x.map f = .ok r) : ∃ a, x = .ok a ∧ r = f a := by
  cases x with
  | error e => simp [Except.map] at h
  | ok a => simp only [Except.map, Except.ok.injEq] at h; exact ⟨a, rfl, h.symm⟩

/-- Once the key is found `key_delete` copies the stripped lines. -/
theorem keyDeleteLoop_found (d : Dialect) (w k : Str) (ls : List Str) :
    ∀ ins sf, keyDeleteLoop d w k ins sf true ls = .ok (ls.map strip, sf) := by
  induction ls with
  | nil => intro ins sf; cases ins <;> rfl
  | cons x xs ih =>
    intro ins sf
    cases ins <;> simp [keyDeleteLoop, ih, Except.map]

/-- Inside the section: the lines up to the next header are copied stripped,
but for the line of the key, and the loop goes past the next header only when
the key has been found. -/
theorem keyDeleteLoop_section (d : Dialect) (w k : Str) (post : List Str)
    (hpost : post = [] ∨ ∃ p ps, post = p :: ps ∧ (strip p).head? = some '[')
    (body : List Str) :
    ∀ sf r, (∀ l ∈ body, (strip l).head? ≠ some '[') →
      keyDeleteLoop d w k true sf false (body ++ post) = .ok r →
      ∃ body', body'.Sublist (body.map strip) ∧ r.1 = body' ++ post.map strip := by
  induction body with
  | nil =>
    intro sf r _ h
    rcases hpost with rfl | ⟨p, ps, rfl, hp⟩
    · simp only [List.append_nil, keyDeleteLoop, Except.ok.injEq] at h
      subst h
      exact ⟨[], List.Sublist.slnil, rfl⟩
    · simp [keyDeleteLoop, hp] at h
  | cons x xs ih =>
    intro sf r hb h
    have hx : (strip x).head? ≠ some '[' := hb x (by simp)
    have hxs : ∀ l ∈ xs, (strip l).head? ≠ some '[' := fun l hl => hb l (by simp [hl])
    simp only [List.cons_append, keyDeleteLoop, if_neg hx] at h
    split at h
    · rw [keyDeleteLoop_found] at h
      simp only [Except.ok.injEq] at h
      subst h
      exact ⟨xs.map strip, (List.sublist_cons_self _ _), by simp⟩
    · obtain ⟨r1, h1, rfl⟩ := except_map_ok h
      obtain ⟨body', hs, e⟩ := ih sf r1 hxs h1
      exact ⟨strip x :: body', hs.cons₂ _, by simp [e]⟩

/-- Before the section: the lines are copied stripped up to the first header
of the section, which is copied stripped too. -/
theorem keyDeleteLoop_before (d : Dialect) (sect k : Str) (h : Str) (rest : List Str)
    (hh : isHeader sect h = true) (pre : List Str) :
    ∀ sf r, (∀ l ∈ pre, isHeader sect l = false) →
      keyDeleteLoop d (searchedWord sect) k false sf false (pre ++ h :: rest) = .ok r →
      ∃ r', keyDeleteLoop d (searchedWord sect) k true true false rest = .ok r' ∧
        r.1 = pre.map strip ++ strip h :: r'.1 ∧ r.2 = r'.2 := by
  induction pre with
  | nil =>
    intro sf r _ hr
    rw [isHeader_eq] at hh
    simp only [List.nil_append, keyDeleteLoop, if_pos hh] at hr
    obtain ⟨r1, h1, rfl⟩ := except_map_ok hr
    exact ⟨r1, h1, rfl, rfl⟩
  | cons x xs ih =>
    intro sf r hpre hr
    have hx : ¬ startsWith (strip x) (searchedWord sect) = true := by
      rw [← isHeader_eq, hpre x (by simp)]; simp
    simp only [List.cons_append, keyDeleteLoop, if_neg hx] at hr
    obtain ⟨r1, h1, rfl⟩ := except_map_ok hr
    obtain ⟨r', h2, e1, e2⟩ := ih sf r1 (fun l hl => hpre l (by simp [hl])) h1
    exact ⟨r', h2, by simp [e1], e2⟩


/-! ## The scan for the delimiter -/

theorem scanDelim_eq (d : Dialect) (t : Str) (h : d.lineterminator ∉ t) :
    scanDelim d t = (t.takeWhile (fun c => c != d.delimiter)).length := by
  induction t with
  | nil => rfl
  | cons c cs ih =>
    have hc : c ≠ d.lineterminator := fun e => h (by simp [e])
    have hcs : d.lineterminator ∉ cs := fun e => h (by simp [e])
    by_cases hd : c = d.delimiter
    · simp [scanDelim, hd]
    · simp [scanDelim, hc, hd, ih hcs, List.takeWhile_cons]

theorem take_scanDelim (d : Dialect) (t : Str) (h : d.lineterminator ∉ t) :
    t.take (scanDelim d t) = t.takeWhile (fun c => c != d.delimiter) := by
  induction t with
  | nil => rfl
  | cons c cs ih =>
    have hc : c ≠ d.lineterminator := fun e => h (by simp [e])
    have hcs : d.lineterminator ∉ cs := fun e => h (by simp [e])
    by_cases hd : c = d.delimiter
    · simp [scanDelim, hd]
    · simp [scanDelim, hc, hd, ih hcs, List.takeWhile_cons]

theorem drop_scanDelim (d : Dialect) (t : Str) (h : d.lineterminator ∉ t) :
    t.drop (scanDelim d t + 1) = (t.dropWhile (fun c => c != d.delimiter)).drop 1 := by
  induction t with
  | nil => rfl
  | cons c cs ih =>
    have hc : c ≠ d.lineterminator := fun e => h (by simp [e])
    have hcs : d.lineterminator ∉ cs := fun e => h (by simp [e])
    by_cases hd : c = d.delimiter
    · simp [scanDelim, hd]
    · simp [scanDelim, hc, hd, ih hcs, List.dropWhile_cons]

theorem get?_scanDelim (d : Dialect) (t : Str) (h : d.lineterminator ∉ t) :
    t.get? (scanDelim d t) = some d.delimiter ↔ d.delimiter ∈ t := by
  induction t with
  | nil => simp [scanDelim]
  | cons c cs ih =>
    have hc : c ≠ d.lineterminator := fun e => h (by simp [e])
    have hcs : d.lineterminator ∉ cs := fun e => h (by simp [e])
    by_cases hd : c = d.delimiter
    · simp [scanDelim, hd]
    · have hd' : ¬ d.delimiter = c := fun e => hd e.symm
      have ih' := ih hcs
      simp only [List.get?_eq_getElem?] at ih' ⊢
      simp [scanDelim, hc, hd, hd', ih']

/-- On a line that holds no line terminator, the test for the key in the
words of the reference definition. -/
theorem isKeyLine_eq (d : Dialect) (k t : Str) (h : d.lineterminator ∉ t) :
    isKeyLine d k t = keyLineSpec d k t := by
  unfold isKeyLine substr stripped keyLineSpec
  rw [Nat.sub_zero, List.drop_zero, take_scanDelim d t h]
  rw [Bool.eq_iff_iff]
  have hc : t.contains d.delimiter = true ↔ d.delimiter ∈ t := by
    rw [List.contains, List.elem_iff]
  simp only [Bool.and_eq_true, decide_eq_true_eq, bne_iff_ne, ne_eq, beq_iff_eq,
    hc, get?_scanDelim d t h]
  constructor
  · rintro ⟨⟨h1, h2⟩, h3, h4⟩; exact ⟨⟨⟨h2, h1⟩, h3⟩, h4.symm⟩
  · rintro ⟨⟨⟨h2, h1⟩, h3⟩, h4⟩; exact ⟨⟨h1, h2⟩, h3, h4.symm⟩


/-! ## `read` and its reference definition -/

theorem getlines_not_mem (content : Str) : ∀ l ∈ getlines content, '\n' ∉ l := by
  intro l hl
  obtain ⟨raw, hraw, rfl⟩ := List.mem_map.1 hl
  rcases (lineList_rawLines content).mem hraw with ⟨b, rfl, hb⟩ | h
  · rw [chomp_append_nl]; exact hb
  · rw [chomp_of_not_mem raw h]; exact h

theorem startsWith_eq_isPrefixOf (t w : Str) : startsWith t w = w.isPrefixOf t := by
  rw [Bool.eq_iff_iff, startsWith_iff, List.isPrefixOf_iff_prefix]

theorem readLoop_section (d : Dialect) (w k dv : Str) (ls : List Str)
    (h : ∀ l ∈ ls, d.lineterminator ∉ l) :
    (readLoop d w k dv true ls).getD dv = readSectionSpec d k dv (ls.map strip) := by
  induction ls with
  | nil => rfl
  | cons x xs ih =>
    have hx : d.lineterminator ∉ strip x := fun e => h x (by simp) ((strip_sublist x).subset e)
    have ih' := ih fun l hl => h l (by simp [hl])
    simp only [readLoop, List.map_cons]
    unfold readSectionSpec at ih' ⊢
    by_cases hb : (strip x).head? = some '['
    · simp [hb]
    · rw [if_neg hb, List.takeWhile_cons_of_pos (by simpa using hb), List.find?_cons,
        ← isKeyLine_eq d k (strip x) hx]
      cases hk : isKeyLine d k (strip x) with
      | true => simp [stripped, drop_scanDelim d (strip x) hx]
      | false => simpa using ih'

theorem readLoop_file (d : Dialect) (sect k dv : Str) (ls : List Str)
    (h : ∀ l ∈ ls, d.lineterminator ∉ l) :
    (readLoop d (searchedWord sect) k dv false ls).getD dv =
      match (ls.map strip).dropWhile (fun l => !(searchedWord sect).isPrefixOf l) with
      | [] => dv
      | _ :: after => readSectionSpec d k dv after := by
  induction ls with
  | nil => rfl
  | cons x xs ih =>
    have hxs : ∀ l ∈ xs, d.lineterminator ∉ l := fun l hl => h l (by simp [hl])
    simp only [readLoop, List.map_cons]
    rw [startsWith_eq_isPrefixOf]
    cases hp : (searchedWord sect).isPrefixOf (strip x) with
    | true =>
      rw [if_pos rfl, List.dropWhile_cons_of_neg (by simp [hp])]
      exact readLoop_section d _ k dv xs hxs
    | false =>
      rw [List.dropWhile_cons_of_pos (by simp [hp])]
      simpa using ih hxs


/-! ## The loop of `write` as a recursion on the lines -/

/-- Once the key is found `write` copies the stripped lines. -/
theorem writeLoop_found (d : Dialect) (w k v : Str) (ls : List Str) :
    ∀ st : WriteState, st.key_found = true →
      writeLoop d w k v st ls = (st, ls.map strip) := by
  induction ls with
  | nil => intro st _; rfl
  | cons x xs ih =>
    intro st h
    simp [writeLoop, writeStep, h, ih st h]

theorem writeStep_section (d : Dialect) (w k v : Str) (n : Nat) (line : Str) :
    writeStep d w k v ⟨true, false, true, n⟩ line =
      if line.head? = some d.lineterminator then (⟨true, false, true, n + 1⟩, [])
      else if line.head? = some '[' then
        (⟨true, true, true, 0⟩, keyLine d k v :: (flushEmpty d n ++ [line]))
      else if isKeyLine d k line then
        (⟨true, true, true, 0⟩, flushEmpty d n ++ [keyLine d k v])
      else (⟨true, false, true, 0⟩, flushEmpty d n ++ [line]) := by
  simp only [writeStep, Bool.not_false, if_true, beq_iff_eq, Bool.true_eq_false, if_false]

theorem writeLoop_section (d : Dialect) (w k v : Str) (ls : List Str) :
    ∀ n, (writeLoop d w k v ⟨true, false, true, n⟩ ls).2 ++
        writeTail d w k v (writeLoop d w k v ⟨true, false, true, n⟩ ls).1
      = writeSection d k v n ls := by
  induction ls with
  | nil => intro n; simp [writeLoop, writeTail, writeSection]
  | cons x xs ih =>
    intro n
    simp only [writeLoop, writeSection, writeStep_section]
    by_cases h1 : (strip x).head? = some d.lineterminator
    · rw [if_pos h1, if_pos h1]
      simpa using ih (n + 1)
    · rw [if_neg h1, if_neg h1]
      by_cases h2 : (strip x).head? = some '['
      · rw [if_pos h2, if_pos h2]
        simp [writeLoop_found, writeTail]
      · rw [if_neg h2, if_neg h2]
        by_cases h3 : isKeyLine d k (strip x) = true
        · rw [if_pos h3, if_pos h3]
          simp [writeLoop_found, writeTail]
        · rw [if_neg h3, if_neg h3]
          simpa using ih 0

theorem writeLoop_file (d : Dialect) (sect k v : Str) (ls : List Str) :
    (writeLoop d (searchedWord sect) k v ⟨false, false, false, 0⟩ ls).2 ++
        writeTail d (searchedWord sect) k v
          (writeLoop d (searchedWord sect) k v ⟨false, false, false, 0⟩ ls).1
      = writeFile d sect k v ls := by
  induction ls with
  | nil => simp [writeLoop, writeTail, writeFile]
  | cons x xs ih =>
    simp only [writeLoop, writeFile, writeStep]
    by_cases h1 : startsWith (strip x) (searchedWord sect) = true
    · simp [h1, writeLoop_section]
    · simp [h1, ih]

/-- The function `write` installs the chunks of `writeFile`. -/
theorem write_eq (d : Dialect) (file : Option Str) (sect k v : Str) :
    write d file sect k v = some (writeFile d sect k v (writeInput file)).flatten := by
  unfold write installTemp
  simp only
  rw [writeLoop_file]


/-! ## The test for the key -/

theorem scanDelim_append (d : Dialect) (p q : Str) (h1 : d.delimiter ∉ p)
    (h2 : d.lineterminator ∉ p) : scanDelim d (p ++ d.delimiter :: q) = p.length := by
  induction p with
  | nil => simp [scanDelim]
  | cons c cs ih =>
    have hc1 : c ≠ d.delimiter := fun e => h1 (by simp [e])
    have hc2 : c ≠ d.lineterminator := fun e => h2 (by simp [e])
    simp [scanDelim, hc1, hc2, ih (fun e => h1 (by simp [e])) (fun e => h2 (by simp [e]))]

theorem scanDelim_split (d : Dialect) (x : Str)
    (h : x.get? (scanDelim d x) = some d.delimiter) :
    ∃ p q, x = p ++ d.delimiter :: q ∧ d.delimiter ∉ p ∧ d.lineterminator ∉ p := by
  induction x with
  | nil => simp [scanDelim] at h
  | cons c cs ih =>
    by_cases hc : c = d.lineterminator ∨ c = d.delimiter
    · simp only [scanDelim, if_pos hc, List.get?_cons_zero, Option.some.injEq] at h
      exact ⟨[], cs, by simp [h], by simp, by simp⟩
    · simp only [scanDelim, if_neg hc, List.get?_cons_succ] at h
      obtain ⟨p, q, rfl, h1, h2⟩ := ih h
      refine ⟨c :: p, q, rfl, ?_, ?_⟩
      · simp only [List.mem_cons, not_or]; exact ⟨fun e => hc (Or.inr e.symm), h1⟩
      · simp only [List.mem_cons, not_or]; exact ⟨fun e => hc (Or.inl e.symm), h2⟩

theorem get?_append_cons_length {α : Type} (p : List α) (c : α) (q : List α) :
    (p ++ c :: q).get? p.length = some c := by
  induction p with
  | nil => rfl
  | cons x xs ih => simpa using ih

theorem head?_append_cons {α : Type} (p : List α) (c : α) (q : List α) :
    (p ++ c :: q).head? = (p ++ [c]).head? := by
  cases p <;> rfl

/-- A line passes the test for the key when it is no comment and the text
before its first delimiter, which holds no line terminator, is the key once
trimmed. -/
theorem isKeyLine_iff (d : Dialect) (k x : Str) :
    isKeyLine d k x = true ↔
      x.head? ≠ some d.commentchar ∧
        ∃ p q, x = p ++ d.delimiter :: q ∧ d.delimiter ∉ p ∧ d.lineterminator ∉ p ∧
          k = strip p := by
  unfold isKeyLine
  simp only [Bool.and_eq_true, decide_eq_true_eq]
  constructor
  · rintro ⟨⟨h1, _⟩, h3, h4⟩
    obtain ⟨p, q, rfl, hp1, hp2⟩ := scanDelim_split d x h3
    refine ⟨h1, p, q, rfl, hp1, hp2, ?_⟩
    rw [scanDelim_append d p q hp1 hp2] at h4
    simpa [substr, stripped] using h4
  · rintro ⟨h1, p, q, rfl, hp1, hp2, rfl⟩
    refine ⟨⟨h1, by simp⟩, ?_, ?_⟩
    · rw [scanDelim_append d p q hp1 hp2]; exact get?_append_cons_length p _ q
    · rw [scanDelim_append d p q hp1 hp2]; simp [substr, stripped]

/-- The value `read` returns on a line that passes the test for the key. -/
theorem drop_scanDelim_append (d : Dialect) (p q : Str) (h1 : d.delimiter ∉ p)
    (h2 : d.lineterminator ∉ p) :
    (p ++ d.delimiter :: q).drop (scanDelim d (p ++ d.delimiter :: q) + 1) = q := by
  rw [scanDelim_append d p q h1 h2]
  simp

/-- The test for the key does not see the trailing blanks of the line. -/
theorem isKeyLine_rstrip (d : Dialect) (hd : isBlank d.delimiter = false) (k t : Str) :
    isKeyLine d k (rstrip t) = isKeyLine d k t := by
  rw [Bool.eq_iff_iff, isKeyLine_iff, isKeyLine_iff]
  constructor
  · rintro ⟨h1, p, q, hx, hp1, hp2, hk⟩
    obtain ⟨r, hr⟩ := rstrip_prefix_self t
    rw [hx] at hr h1
    have e : t = p ++ d.delimiter :: (q ++ r) := by simp [← hr]
    refine ⟨?_, p, q ++ r, e, hp1, hp2, hk⟩
    rw [e, head?_append_cons]
    rwa [head?_append_cons] at h1
  · rintro ⟨h1, p, q, rfl, hp1, hp2, hk⟩
    rw [rstrip_append_cons p d.delimiter q hd]
    refine ⟨?_, p, rstrip q, rfl, hp1, hp2, hk⟩
    rw [head?_append_cons]
    rwa [head?_append_cons] at h1

/-- The test for the key does not see the terminator of the line. -/
theorem isKeyLine_append_nl (d : Dialect) (hd : d.delimiter ≠ '\n')
    (k t : Str) : isKeyLine d k (t ++ ['\n']) = isKeyLine d k t := by
  rw [Bool.eq_iff_iff, isKeyLine_iff, isKeyLine_iff]
  constructor
  · rintro ⟨h1, p, q, hx, hp1, hp2, hk⟩
    have hpre : p ++ [d.delimiter] <+: t ++ ['\n'] := ⟨q, by simp [hx]⟩
    obtain ⟨q', hq'⟩ := (prefix_append_nl_iff p d.delimiter hd t).1 hpre
    have e : t = p ++ d.delimiter :: q' := by simp [← hq']
    refine ⟨?_, p, q', e, hp1, hp2, hk⟩
    rw [hx, head?_append_cons] at h1
    rwa [e, head?_append_cons]
  · rintro ⟨h1, p, q, rfl, hp1, hp2, hk⟩
    refine ⟨?_, p, q ++ ['\n'], by simp, hp1, hp2, hk⟩
    rw [head?_append_cons] at h1
    rwa [List.append_assoc, List.cons_append, head?_append_cons]


/-! ## What `read` sees of a raw line -/

theorem view_append_nl (b : Str) : view (b ++ ['\n']) = strip b := by
  unfold view; rw [chomp_append_nl]

theorem view_strip {l : Str} (h : Terminated l) : view (strip l) = view l := by
  obtain ⟨b, rfl, _⟩ := h
  rw [strip_append_nl, view_append_nl, view_append_nl, strip_lstrip]

theorem head?_lstrip_ne {b : Str} {c : Char} (hc : isBlank c = true) :
    (lstrip b).head? ≠ some c := by
  rcases lstrip_cases b with h | ⟨x, r, h, hx⟩
  · simp [h]
  · rw [h]
    simp only [List.head?_cons, ne_eq, Option.some.injEq]
    rintro rfl
    simp [hx] at hc

theorem head?_strip_terminated {l : Str} (h : Terminated l) :
    (strip l).head? = some '\n' ↔ view l = [] := by
  obtain ⟨b, rfl, hb⟩ := h
  rw [strip_append_nl, view_append_nl, strip_eq_nil_iff]
  rcases lstrip_cases b with h | ⟨x, r, h, _⟩
  · simp [h]
  · rw [h]
    simp only [List.cons_append, List.head?_cons, Option.some.injEq, reduceCtorEq, iff_false]
    rintro rfl
    exact hb ((lstrip_sublist b).subset (by simp [h]))

theorem head?_strip_bracket {l : Str} (h : Terminated l) :
    (strip l).head? = some '[' ↔ (view l).head? = some '[' := by
  obtain ⟨b, rfl, _⟩ := h
  rw [strip_append_nl, view_append_nl, head?_strip]
  rcases lstrip_cases b with h | ⟨x, r, h, _⟩
  · simp [h]
  · simp [h]

theorem isKeyLine_view {l : Str} (h : Terminated l) (k : Str) :
    isKeyLine defaultDialect k (strip l) = isKeyLine defaultDialect k (view l) := by
  obtain ⟨b, rfl, _⟩ := h
  rw [strip_append_nl, view_append_nl, isKeyLine_append_nl defaultDialect (by decide)]
  unfold strip
  rw [isKeyLine_rstrip defaultDialect (by decide)]

theorem startsWith_view (s : Str) {l : Str} (h : Terminated l ∨ '\n' ∉ l) :
    startsWith (view l) (searchedWord s) = isHeader s l := by
  unfold view
  rw [← isHeader_eq, isHeader_chomp s h]

theorem head?_of_isHeader {s l : Str} (h : isHeader s l = true) :
    (strip l).head? = some '[' := by
  rw [isHeader_eq, startsWith_iff] at h
  obtain ⟨r, hr⟩ := h
  rw [← hr]; rfl

/-! ## `read` on the raw lines -/

theorem read_eq_readRaw (d : Dialect) (content sect key dv : Str) :
    read d (some content) sect key dv = .ok (readRaw d sect key dv false (rawLines content)) :=
  rfl

theorem readRaw_nil (d : Dialect) (sect key dv : Str) (b : Bool) :
    readRaw d sect key dv b [] = dv := by
  cases b <;> rfl

theorem readRaw_false_cons (d : Dialect) (sect key dv : Str) (l : Str) (rest : List Str)
    (h : Terminated l ∨ '\n' ∉ l) :
    readRaw d sect key dv false (l :: rest) =
      if isHeader sect l then readRaw d sect key dv true rest
      else readRaw d sect key dv false rest := by
  unfold readRaw
  simp only [List.map_cons, readLoop]
  have e : startsWith (strip (chomp l)) (searchedWord sect) = isHeader sect l :=
    startsWith_view sect h
  rw [e]
  split <;> rfl

theorem readRaw_true_cons (d : Dialect) (sect key dv : Str) (l : Str) (rest : List Str) :
    readRaw d sect key dv true (l :: rest) =
      if (view l).head? = some '[' then dv
      else if isKeyLine d key (view l) then
        stripped ((view l).drop (scanDelim d (view l) + 1))
      else readRaw d sect key dv true rest := by
  unfold readRaw view
  simp only [List.map_cons, readLoop]
  split
  · rfl
  · split <;> rfl


/-! ## The chunks `write` adds -/

theorem lstrip_of_strip_eq {k : Str} (hk : strip k = k) : lstrip k = k := by
  have h := lstrip_strip k
  rwa [hk] at h

theorem rstrip_of_strip_eq {v : Str} (hv : strip v = v) : rstrip v = v := by
  have h : rstrip (strip v) = strip v := rstrip_idem (lstrip v)
  rwa [hv] at h

theorem lstrip_prefix_eq_nil {p v : Str} (hp : p <+: v) (hv : lstrip v = []) :
    lstrip p = [] := by
  unfold lstrip at hv ⊢
  rw [List.dropWhile_eq_nil_iff] at hv ⊢
  exact fun x hx => hv x (hp.subset hx)

theorem strip_rstrip (v : Str) : strip (rstrip v) = strip v := by
  rcases lstrip_cases v with h | ⟨c, r, h, hc⟩
  · rw [strip_of_lstrip_nil v h,
      strip_of_lstrip_nil _ (lstrip_prefix_eq_nil (rstrip_prefix_self v) h)]
  · have hv : v = v.takeWhile isBlank ++ c :: r := by
      have := List.takeWhile_append_dropWhile isBlank v
      unfold lstrip at h
      rw [h] at this
      exact this.symm
    have hbl : lstrip (v.takeWhile isBlank) = [] := by
      unfold lstrip
      rw [List.dropWhile_eq_nil_iff]
      intro x hx
      exact (List.mem_takeWhile_imp hx)
    have e : rstrip v = v.takeWhile isBlank ++ c :: rstrip r := by
      conv_lhs => rw [hv]
      exact rstrip_append_cons _ c r hc
    have e2 : lstrip (rstrip v) = c :: rstrip r := by
      rw [e, lstrip_append_cons _ c _ hc, hbl]; rfl
    rw [strip_of_lstrip_cons _ c _ e2 hc, strip_of_lstrip_cons v c r h hc, rstrip_idem]

theorem keyLine_eq (k v : Str) : keyLine defaultDialect k v = (k ++ '=' :: v) ++ ['\n'] := by
  simp [keyLine, defaultDialect]

theorem terminated_keyLine {k v : Str} (hk : '\n' ∉ k) (hv : '\n' ∉ v) :
    Terminated (keyLine defaultDialect k v) := by
  refine ⟨k ++ '=' :: v, keyLine_eq k v, ?_⟩
  simp only [List.mem_append, List.mem_cons, not_or]
  exact ⟨hk, by decide, hv⟩

theorem lstrip_key_append {k : Str} (hk : strip k = k) (r : Str) :
    lstrip (k ++ '=' :: r) = k ++ '=' :: r := by
  rw [lstrip_append_cons k '=' r (by decide), lstrip_of_strip_eq hk]

theorem strip_keyLine {k : Str} (hk : strip k = k) (v : Str) :
    strip (keyLine defaultDialect k v) = keyLine defaultDialect k v := by
  rw [keyLine_eq, strip_append_nl, lstrip_key_append hk]

theorem view_keyLine {k : Str} (hk : strip k = k) (v : Str) :
    view (keyLine defaultDialect k v) = k ++ '=' :: rstrip v := by
  rw [keyLine_eq, view_append_nl]
  unfold strip
  rw [lstrip_key_append hk, rstrip_append_cons k '=' v (by decide)]

theorem head?_key_ne {k : Str} {c : Char} (hc : c ≠ '=') (hk : k.head? ≠ some c) (r : Str) :
    (k ++ '=' :: r).head? ≠ some c := by
  cases k with
  | nil => simpa using fun e => hc e.symm
  | cons x xs => simpa using hk

theorem head?_ne_of_not_mem {k : Str} {c : Char} (h : c ∉ k) : k.head? ≠ some c := by
  cases k with
  | nil => simp
  | cons x xs =>
    simp only [List.head?_cons, ne_eq, Option.some.injEq]
    rintro rfl
    exact h (by simp)

theorem head?_keyLine_nl {k : Str} (hk : '\n' ∉ k) (v : Str) :
    (keyLine defaultDialect k v).head? ≠ some '\n' := by
  rw [keyLine_eq, List.append_assoc, List.cons_append]
  exact head?_key_ne (by decide) (head?_ne_of_not_mem hk) _

theorem head?_keyLine_bracket {k : Str} (hk : k.head? ≠ some '[') (v : Str) :
    (keyLine defaultDialect k v).head? ≠ some '[' := by
  rw [keyLine_eq, List.append_assoc, List.cons_append]
  exact head?_key_ne (by decide) hk _

theorem isKeyLine_key_append {k : Str} (hk : strip k = k) (hkd : '=' ∉ k) (hkn : '\n' ∉ k)
    (hkc : k.head? ≠ some ';') (r : Str) :
    isKeyLine defaultDialect k (k ++ '=' :: r) = true := by
  rw [isKeyLine_iff]
  exact ⟨head?_key_ne (by decide) hkc r, k, r, rfl, hkd, hkn, hk.symm⟩

theorem append_cons_inj_of_not_mem {α : Type} {p p' q q' : List α} {c : α}
    (h : p ++ c :: q = p' ++ c :: q') (hp : c ∉ p) (hp' : c ∉ p') : p = p' := by
  induction p generalizing p' with
  | nil =>
    cases p' with
    | nil => rfl
    | cons x xs =>
      simp only [List.nil_append, List.cons_append, List.cons.injEq] at h
      exact absurd (by simp [h.1]) hp'
  | cons x xs ih =>
    cases p' with
    | nil =>
      simp only [List.nil_append, List.cons_append, List.cons.injEq] at h
      exact absurd (by simp [h.1]) hp
    | cons y ys =>
      simp only [List.cons_append, List.cons.injEq] at h
      rw [h.1, ih h.2 (fun e => hp (by simp [e])) (fun e => hp' (by simp [e]))]

theorem eq_of_isKeyLine_key_append {k k' : Str} (hk : strip k = k) (hkd : '=' ∉ k) (r : Str)
    (h : isKeyLine defaultDialect k' (k ++ '=' :: r) = true) : k' = k := by
  rw [isKeyLine_iff] at h
  obtain ⟨_, p, q, hx, hp1, _, rfl⟩ := h
  have : k = p := append_cons_inj_of_not_mem hx hkd hp1
  rw [← this, hk]

theorem isKeyLine_keyLine {k : Str} (hk : strip k = k) (hkd : '=' ∉ k) (hkn : '\n' ∉ k)
    (hkc : k.head? ≠ some ';') (v : Str) :
    isKeyLine defaultDialect k (keyLine defaultDialect k v) = true := by
  rw [keyLine_eq, isKeyLine_append_nl defaultDialect (by decide)]
  exact isKeyLine_key_append hk hkd hkn hkc v

theorem isHeader_key_append {k : Str} (hk : strip k = k) (hkb : k.head? ≠ some '[')
    (s r : Str) : isHeader s (k ++ '=' :: r) = false := by
  unfold isHeader
  rw [lstrip_key_append hk]
  cases h : startsWith (k ++ '=' :: r) (searchedWord s) with
  | false => rfl
  | true =>
    exfalso
    obtain ⟨t, ht⟩ := (startsWith_iff _ _).1 h
    have := head?_key_ne (by decide) hkb r
    rw [← ht] at this
    exact this rfl

theorem isHeader_keyLine {k : Str} (hk : strip k = k) (hkb : k.head? ≠ some '[')
    (s v : Str) : isHeader s (keyLine defaultDialect k v) = false := by
  rw [keyLine_eq, List.append_assoc, List.cons_append]
  exact isHeader_key_append hk hkb s _

theorem strip_searchedWord_nl (s : Str) :
    strip (searchedWord s ++ ['\n']) = searchedWord s ++ ['\n'] := by
  rw [strip_append_nl]
  have := lstrip_searchedWord_append s []
  rw [List.append_nil] at this
  rw [this]

theorem view_searchedWord_nl (s : Str) : view (searchedWord s ++ ['\n']) = searchedWord s := by
  rw [view_append_nl, searchedWord_eq]
  unfold strip
  rw [List.cons_append, lstrip_cons_nonblank '[' _ (by decide), ← List.cons_append,
    rstrip_append_singleton _ _ (by decide)]

theorem isHeader_nl (s : Str) : isHeader s ['\n'] = false := by
  simp [isHeader, lstrip, startsWith, searchedWord, isBlank]

theorem view_nl : view ['\n'] = [] := by decide

theorem strip_nl : strip ['\n'] = ['\n'] := by decide


/-! ## The chunks of `write` are terminated lines -/

theorem terminated_flushEmpty (n : Nat) : ∀ l ∈ flushEmpty defaultDialect n, Terminated l := by
  intro l hl
  have := List.eq_of_mem_replicate hl
  subst this
  exact terminated_singleton

theorem terminated_map_strip {ls : List Str} (h : ∀ l ∈ ls, Terminated l) :
    ∀ l ∈ ls.map strip, Terminated l := by
  intro l hl
  obtain ⟨x, hx, rfl⟩ := List.mem_map.1 hl
  exact (h x hx).strip

theorem writeSection_terminated {k v : Str} (hk : '\n' ∉ k) (hv : '\n' ∉ v) (ls : List Str)
    (hls : ∀ l ∈ ls, Terminated l) :
    ∀ n, ∀ o ∈ writeSection defaultDialect k v n ls, Terminated o := by
  induction ls with
  | nil =>
    intro n o ho
    simp only [writeSection, List.mem_singleton] at ho
    subst ho
    exact terminated_keyLine hk hv
  | cons x xs ih =>
    intro n o ho
    have hx := (hls x (by simp)).strip
    have hxs : ∀ l ∈ xs, Terminated l := fun l hl => hls l (by simp [hl])
    rw [writeSection] at ho
    split at ho
    · exact ih hxs _ o ho
    · split at ho
      · simp only [List.mem_cons, List.mem_append] at ho
        rcases ho with rfl | ho | rfl | ho
        · exact terminated_keyLine hk hv
        · exact terminated_flushEmpty n o ho
        · exact hx
        · exact terminated_map_strip hxs o ho
      · split at ho
        · simp only [List.mem_cons, List.mem_append] at ho
          rcases ho with ho | rfl | ho
          · exact terminated_flushEmpty n o ho
          · exact terminated_keyLine hk hv
          · exact terminated_map_strip hxs o ho
        · simp only [List.mem_cons, List.mem_append] at ho
          rcases ho with ho | rfl | ho
          · exact terminated_flushEmpty n o ho
          · exact hx
          · exact ih hxs 0 o ho

theorem writeFile_terminated {s k v : Str} (hs : '\n' ∉ s) (hk : '\n' ∉ k) (hv : '\n' ∉ v)
    (ls : List Str) (hls : ∀ l ∈ ls, Terminated l) :
    ∀ o ∈ writeFile defaultDialect s k v ls, Terminated o := by
  induction ls with
  | nil =>
    intro o ho
    simp only [writeFile, List.mem_cons, List.mem_singleton, List.not_mem_nil, or_false] at ho
    rcases ho with rfl | rfl | rfl
    · exact terminated_singleton
    · exact terminated_searchedWord hs
    · exact terminated_keyLine hk hv
  | cons x xs ih =>
    intro o ho
    have hx := (hls x (by simp)).strip
    have hxs : ∀ l ∈ xs, Terminated l := fun l hl => hls l (by simp [hl])
    rw [writeFile] at ho
    split at ho
    · rcases List.mem_cons.1 ho with rfl | ho
      · exact hx
      · exact writeSection_terminated hk hv xs hxs 0 o ho
    · rcases List.mem_cons.1 ho with rfl | ho
      · exact hx
      · exact ih hxs o ho

theorem writeInput_terminated {file : Option Str}
    (hfile : ∀ content, file = some content → EndsWithNewline content) :
    ∀ l ∈ writeInput file, Terminated l := by
  cases file with
  | none => intro l hl; simp [writeInput] at hl
  | some content => exact rawLines_terminated (hfile content rfl)

/-- The lines of the file after `write`, when the file ended with a newline:
the chunks of `writeFile`. -/
theorem rawLines_write {file : Option Str} {s k v : Str}
    (hfile : ∀ content, file = some content → EndsWithNewline content)
    (hs : '\n' ∉ s) (hk : '\n' ∉ k) (hv : '\n' ∉ v) :
    ∃ out, write defaultDialect file s k v = some out ∧
      rawLines out = writeFile defaultDialect s k v (writeInput file) :=
  ⟨_, write_eq defaultDialect file s k v,
    rawLines_flatten_of_terminated
      (writeFile_terminated hs hk hv _ (writeInput_terminated hfile))⟩


/-! ## `read` over the chunks of `write` -/

theorem isKeyLine_nil (d : Dialect) (k : Str) : isKeyLine d k [] = false := by
  simp [isKeyLine]

theorem readRaw_nl_cons (sect key dv : Str) (b : Bool) (rest : List Str) :
    readRaw defaultDialect sect key dv b (['\n'] :: rest) =
      readRaw defaultDialect sect key dv b rest := by
  cases b
  · rw [readRaw_false_cons _ _ _ _ _ _ (Or.inl terminated_singleton), isHeader_nl]
    simp
  · rw [readRaw_true_cons, view_nl, isKeyLine_nil]
    simp

theorem readRaw_flushEmpty (sect key dv : Str) (b : Bool) (n : Nat) (rest : List Str) :
    readRaw defaultDialect sect key dv b (flushEmpty defaultDialect n ++ rest) =
      readRaw defaultDialect sect key dv b rest := by
  induction n with
  | zero => rfl
  | succ m ih =>
    have e : flushEmpty defaultDialect (m + 1) ++ rest
        = ['\n'] :: (flushEmpty defaultDialect m ++ rest) := by
      simp [flushEmpty, List.replicate_succ, defaultDialect]
    rw [e, readRaw_nl_cons, ih]

theorem readRaw_map_strip (sect key dv : Str) (ls : List Str)
    (hls : ∀ l ∈ ls, Terminated l) :
    ∀ b, readRaw defaultDialect sect key dv b (ls.map strip) =
      readRaw defaultDialect sect key dv b ls := by
  induction ls with
  | nil => intro b; rfl
  | cons x xs ih =>
    intro b
    have hx := hls x (by simp)
    have ih' := ih fun l hl => hls l (by simp [hl])
    cases b
    · rw [List.map_cons, readRaw_false_cons _ _ _ _ _ _ (Or.inl hx.strip),
        readRaw_false_cons _ _ _ _ _ _ (Or.inl hx), isHeader_strip, ih' true, ih' false]
    · rw [List.map_cons, readRaw_true_cons, readRaw_true_cons, view_strip hx, ih' true]

/-- In the section, `read` stops at the line of the key that `write` printed. -/
theorem readRaw_keyLine_true {k : Str} (hk : strip k = k) (hkd : '=' ∉ k) (hkn : '\n' ∉ k)
    (hkb : k.head? ≠ some '[') (hkc : k.head? ≠ some ';') (s v dv : Str) (rest : List Str) :
    readRaw defaultDialect s k dv true (keyLine defaultDialect k v :: rest) = strip v := by
  rw [readRaw_true_cons, view_keyLine hk, if_neg (head?_key_ne (by decide) hkb _),
    isKeyLine_key_append hk hkd hkn hkc, if_pos rfl]
  have := drop_scanDelim_append defaultDialect k (rstrip v) hkd hkn
  simp only [defaultDialect] at this ⊢
  rw [this]
  exact strip_rstrip v

theorem readRaw_writeSection {k : Str} (hk : strip k = k) (hkd : '=' ∉ k) (hkn : '\n' ∉ k)
    (hkb : k.head? ≠ some '[') (hkc : k.head? ≠ some ';') (s v dv : Str) (ls : List Str)
    (hls : ∀ l ∈ ls, Terminated l) :
    ∀ n, readRaw defaultDialect s k dv true (writeSection defaultDialect k v n ls) = strip v := by
  induction ls with
  | nil =>
    intro n
    rw [writeSection]
    exact readRaw_keyLine_true hk hkd hkn hkb hkc s v dv []
  | cons x xs ih =>
    intro n
    have hx := hls x (by simp)
    have ih' := ih fun l hl => hls l (by simp [hl])
    rw [writeSection]
    by_cases h1 : (strip x).head? = some defaultDialect.lineterminator
    · rw [if_pos h1]; exact ih' (n + 1)
    · rw [if_neg h1]
      by_cases h2 : (strip x).head? = some '['
      · rw [if_pos h2]
        exact readRaw_keyLine_true hk hkd hkn hkb hkc s v dv _
      · rw [if_neg h2]
        by_cases h3 : isKeyLine defaultDialect k (strip x) = true
        · rw [if_pos h3, readRaw_flushEmpty]
          exact readRaw_keyLine_true hk hkd hkn hkb hkc s v dv _
        · rw [if_neg h3, readRaw_flushEmpty, readRaw_true_cons, view_strip hx,
            if_neg (fun e => h2 ((head?_strip_bracket hx).2 e)), ← isKeyLine_view hx, if_neg h3]
          exact ih' 0

/-- After `write`, `read` finds the value in the lines `write` produced. -/
theorem readRaw_writeFile {s k : Str} (hs : '\n' ∉ s) (hk : strip k = k) (hkd : '=' ∉ k)
    (hkn : '\n' ∉ k) (hkb : k.head? ≠ some '[') (hkc : k.head? ≠ some ';') (v dv : Str)
    (ls : List Str) (hls : ∀ l ∈ ls, Terminated l) :
    readRaw defaultDialect s k dv false (writeFile defaultDialect s k v ls) = strip v := by
  induction ls with
  | nil =>
    rw [writeFile, readRaw_nl_cons,
      readRaw_false_cons _ _ _ _ _ _ (Or.inl (terminated_searchedWord hs)),
      isHeader_newHeader_self, if_pos rfl]
    exact readRaw_keyLine_true hk hkd hkn hkb hkc s v dv []
  | cons x xs ih =>
    have hx := hls x (by simp)
    have hxs : ∀ l ∈ xs, Terminated l := fun l hl => hls l (by simp [hl])
    rw [writeFile, ← isHeader_eq]
    by_cases hh : isHeader s x = true
    · rw [if_pos hh, readRaw_false_cons _ _ _ _ _ _ (Or.inl hx.strip), isHeader_strip, if_pos hh]
      exact readRaw_writeSection hk hkd hkn hkb hkc s v dv xs hxs 0
    · rw [if_neg hh, readRaw_false_cons _ _ _ _ _ _ (Or.inl hx.strip), isHeader_strip, if_neg hh]
      exact ih hxs

/-- After `write` on a file that ended with a newline, `read` returns the
trimmed value. -/
theorem read_write {file : Option Str} {s k : Str}
    (hfile : ∀ content, file = some content → EndsWithNewline content)
    (hs : '\n' ∉ s) (hk : strip k = k) (hkd : '=' ∉ k)
    (hkn : '\n' ∉ k) (hkb : k.head? ≠ some '[') (hkc : k.head? ≠ some ';') (v dv : Str)
    (hv : '\n' ∉ v) :
    read defaultDialect (write defaultDialect file s k v) s k dv = .ok (strip v) := by
  obtain ⟨out, e1, e2⟩ := rawLines_write (v := v) hfile hs hkn hv
  rw [e1, read_eq_readRaw, e2,
    readRaw_writeFile hs hk hkd hkn hkb hkc v dv _ (writeInput_terminated hfile)]


/-! ## `write` over the chunks of `write` -/

theorem map_strip_flushEmpty (n : Nat) :
    (flushEmpty defaultDialect n).map strip = flushEmpty defaultDialect n := by
  unfold flushEmpty
  rw [List.map_replicate]
  show List.replicate n (strip ['\n']) = List.replicate n ['\n']
  rw [strip_nl]

theorem map_strip_map_strip (ls : List Str) : (ls.map strip).map strip = ls.map strip := by
  rw [List.map_map]
  congr 1
  funext x
  exact strip_idem x

theorem flushEmpty_add (d : Dialect) (m n : Nat) :
    flushEmpty d (m + n) = flushEmpty d m ++ flushEmpty d n := by
  unfold flushEmpty
  exact List.replicate_add m n _

theorem writeSection_nl_cons (k v : Str) (m : Nat) (rest : List Str) :
    writeSection defaultDialect k v m (['\n'] :: rest) =
      writeSection defaultDialect k v (m + 1) rest := by
  rw [writeSection, strip_nl,
    if_pos (show ['\n'].head? = some defaultDialect.lineterminator from rfl)]

theorem writeSection_flushEmpty (k v : Str) (n : Nat) (rest : List Str) :
    ∀ m, writeSection defaultDialect k v m (flushEmpty defaultDialect n ++ rest) =
      writeSection defaultDialect k v (m + n) rest := by
  induction n with
  | zero => intro m; rfl
  | succ j ih =>
    intro m
    have e : flushEmpty defaultDialect (j + 1) ++ rest
        = ['\n'] :: (flushEmpty defaultDialect j ++ rest) := by
      simp [flushEmpty, List.replicate_succ, defaultDialect]
    rw [e, writeSection_nl_cons, ih (m + 1)]
    congr 1
    omega

/-- The line of the key that `write` printed is the line a second `write`
replaces. -/
theorem writeSection_keyLine {k : Str} (hk : strip k = k) (hkd : '=' ∉ k) (hkn : '\n' ∉ k)
    (hkb : k.head? ≠ some '[') (hkc : k.head? ≠ some ';') (v : Str) (m : Nat)
    (rest : List Str) :
    writeSection defaultDialect k v m (keyLine defaultDialect k v :: rest) =
      flushEmpty defaultDialect m ++ keyLine defaultDialect k v :: rest.map strip := by
  rw [writeSection, strip_keyLine hk,
    if_neg (show ¬ (keyLine defaultDialect k v).head? = some defaultDialect.lineterminator
      from head?_keyLine_nl hkn v),
    if_neg (head?_keyLine_bracket hkb v), isKeyLine_keyLine hk hkd hkn hkc v, if_pos rfl]

theorem writeSection_writeSection {k : Str} (hk : strip k = k) (hkd : '=' ∉ k)
    (hkn : '\n' ∉ k) (hkb : k.head? ≠ some '[') (hkc : k.head? ≠ some ';') (v : Str)
    (ls : List Str) :
    ∀ n m, writeSection defaultDialect k v m (writeSection defaultDialect k v n ls) =
      flushEmpty defaultDialect m ++ writeSection defaultDialect k v n ls := by
  induction ls with
  | nil =>
    intro n m
    rw [writeSection, writeSection_keyLine hk hkd hkn hkb hkc]
    rfl
  | cons x xs ih =>
    intro n m
    rw [writeSection]
    by_cases h1 : (strip x).head? = some defaultDialect.lineterminator
    · rw [if_pos h1]; exact ih (n + 1) m
    · rw [if_neg h1]
      by_cases h2 : (strip x).head? = some '['
      · rw [if_pos h2, writeSection_keyLine hk hkd hkn hkb hkc, List.map_append, List.map_cons,
          map_strip_flushEmpty, strip_idem, map_strip_map_strip]
      · rw [if_neg h2]
        by_cases h3 : isKeyLine defaultDialect k (strip x) = true
        · rw [if_pos h3, writeSection_flushEmpty, writeSection_keyLine hk hkd hkn hkb hkc,
            flushEmpty_add, map_strip_map_strip]
          simp
        · rw [if_neg h3, writeSection_flushEmpty, writeSection, strip_idem, if_neg h1,
            if_neg h2, if_neg h3, ih 0 0, flushEmpty_add defaultDialect m n, List.append_assoc]
          rfl

/-- A second `write` of the same setting produces the chunks of the first. -/
theorem writeFile_writeFile {k : Str} (hk : strip k = k) (hkd : '=' ∉ k)
    (hkn : '\n' ∉ k) (hkb : k.head? ≠ some '[') (hkc : k.head? ≠ some ';') (s v : Str)
    (ls : List Str) :
    writeFile defaultDialect s k v (writeFile defaultDialect s k v ls) =
      writeFile defaultDialect s k v ls := by
  induction ls with
  | nil =>
    have h1 : startsWith (strip ['\n']) (searchedWord s) = false := by
      rw [← isHeader_eq, isHeader_nl]
    have h2 : startsWith (strip (searchedWord s ++ ['\n'])) (searchedWord s) = true := by
      rw [← isHeader_eq, isHeader_newHeader_self]
    rw [writeFile, writeFile, h1, writeFile, h2, writeSection_keyLine hk hkd hkn hkb hkc,
      strip_nl, strip_searchedWord_nl]
    rfl
  | cons x xs ih =>
    rw [writeFile]
    by_cases hh : startsWith (strip x) (searchedWord s) = true
    · rw [if_pos hh, writeFile, strip_idem, if_pos hh,
        writeSection_writeSection hk hkd hkn hkb hkc]
      rfl
    · rw [if_neg hh, writeFile, strip_idem, if_neg hh, ih]

/-- On a file that ended with a newline, a second `write` of the same setting
leaves the content the first one produced. -/
theorem write_write {file : Option Str} {s k : Str}
    (hfile : ∀ content, file = some content → EndsWithNewline content)
    (hs : '\n' ∉ s) (hk : strip k = k) (hkd : '=' ∉ k)
    (hkn : '\n' ∉ k) (hkb : k.head? ≠ some '[') (hkc : k.head? ≠ some ';') (v : Str)
    (hv : '\n' ∉ v) :
    write defaultDialect (write defaultDialect file s k v) s k v =
      write defaultDialect file s k v := by
  obtain ⟨out, e1, e2⟩ := rawLines_write (v := v) hfile hs hkn hv
  rw [e1, write_eq defaultDialect (some out)]
  simp only [writeInput]
  rw [e2, writeFile_writeFile hk hkd hkn hkb hkc, ← e1, write_eq]


/-! ## `read` of another setting over the chunks of `write` -/

/-- A line is the header of one section only, when the names hold no `']'`. -/
theorem isHeader_unique {s s' l : Str} (hs : ']' ∉ s) (hs' : ']' ∉ s')
    (h : isHeader s l = true) (h' : isHeader s' l = true) : s' = s := by
  unfold isHeader at h h'
  rw [startsWith_iff] at h h'
  rcases Nat.le_total (searchedWord s).length (searchedWord s').length with hle | hle
  · exact (searchedWord_prefix_inj hs' (List.prefix_of_prefix_length_le h h' hle)).symm
  · exact searchedWord_prefix_inj hs (List.prefix_of_prefix_length_le h' h hle)

theorem isHeader_false_of_head? {s l : Str} (h : (strip l).head? ≠ some '[') :
    isHeader s l = false := by
  cases hh : isHeader s l with
  | false => rfl
  | true => exact absurd (head?_of_isHeader hh) h

/-- A line passes the test for one key only. -/
theorem isKeyLine_unique {d : Dialect} {k k' x : Str} (h : isKeyLine d k x = true)
    (h' : isKeyLine d k' x = true) : k' = k := by
  rw [isKeyLine_iff] at h h'
  obtain ⟨_, p, q, hx, hp, _, rfl⟩ := h
  obtain ⟨_, p', q', hx', hp', _, rfl⟩ := h'
  rw [hx] at hx'
  rw [append_cons_inj_of_not_mem hx' hp hp']

theorem readRaw_keyLine_false {k : Str} (hk : strip k = k) (hkn : '\n' ∉ k)
    (hkb : k.head? ≠ some '[') (v s' k' dv : Str) (hv : '\n' ∉ v) (rest : List Str) :
    readRaw defaultDialect s' k' dv false (keyLine defaultDialect k v :: rest) =
      readRaw defaultDialect s' k' dv false rest := by
  rw [readRaw_false_cons _ _ _ _ _ _ (Or.inl (terminated_keyLine hkn hv)),
    isHeader_keyLine hk hkb]
  simp

theorem readRaw_keyLine_other {k k' : Str} (hk : strip k = k) (hkd : '=' ∉ k)
    (hkb : k.head? ≠ some '[') (hkk : k' ≠ k) (v s' dv : Str) (rest : List Str) :
    readRaw defaultDialect s' k' dv true (keyLine defaultDialect k v :: rest) =
      readRaw defaultDialect s' k' dv true rest := by
  rw [readRaw_true_cons, view_keyLine hk, if_neg (head?_key_ne (by decide) hkb _)]
  have : ¬ isKeyLine defaultDialect k' (k ++ '=' :: rstrip v) = true :=
    fun e => hkk (eq_of_isKeyLine_key_append hk hkd _ e)
  rw [if_neg this]

/-- Outside the section it reads, `read` sees the same headers after `write`. -/
theorem readRaw_false_writeSection {k : Str} (hk : strip k = k) (hkn : '\n' ∉ k)
    (hkb : k.head? ≠ some '[') (v s' k' dv : Str) (hv : '\n' ∉ v) (ls : List Str)
    (hls : ∀ l ∈ ls, Terminated l) :
    ∀ n, readRaw defaultDialect s' k' dv false (writeSection defaultDialect k v n ls) =
      readRaw defaultDialect s' k' dv false ls := by
  induction ls with
  | nil =>
    intro n
    rw [writeSection, readRaw_keyLine_false hk hkn hkb v s' k' dv hv]
  | cons x xs ih =>
    intro n
    have hx := hls x (by simp)
    have hxs : ∀ l ∈ xs, Terminated l := fun l hl => hls l (by simp [hl])
    have ih' := ih hxs
    rw [writeSection]
    by_cases h1 : (strip x).head? = some defaultDialect.lineterminator
    · have hb : (strip x).head? ≠ some '[' := by rw [h1]; decide
      rw [if_pos h1, ih' (n + 1), readRaw_false_cons _ _ _ _ _ _ (Or.inl hx),
        isHeader_false_of_head? hb]
      simp
    · rw [if_neg h1]
      by_cases h2 : (strip x).head? = some '['
      · rw [if_pos h2, readRaw_keyLine_false hk hkn hkb v s' k' dv hv, readRaw_flushEmpty]
        exact readRaw_map_strip s' k' dv (x :: xs) hls false
      · rw [if_neg h2, readRaw_false_cons _ _ _ _ x _ (Or.inl hx), isHeader_false_of_head? h2]
        by_cases h3 : isKeyLine defaultDialect k (strip x) = true
        · rw [if_pos h3, readRaw_flushEmpty, readRaw_keyLine_false hk hkn hkb v s' k' dv hv,
            readRaw_map_strip s' k' dv xs hxs false]
          simp
        · rw [if_neg h3, readRaw_flushEmpty, readRaw_false_cons _ _ _ _ _ _ (Or.inl hx.strip),
            isHeader_strip, isHeader_false_of_head? h2, ih' 0]
          simp

/-- In the section that `write` changes, `read` of another key sees the same
lines after `write`. -/
theorem readRaw_true_writeSection {k k' : Str} (hk : strip k = k) (hkd : '=' ∉ k)
    (hkb : k.head? ≠ some '[') (hkk : k' ≠ k) (v s' dv : Str) (ls : List Str)
    (hls : ∀ l ∈ ls, Terminated l) :
    ∀ n, readRaw defaultDialect s' k' dv true (writeSection defaultDialect k v n ls) =
      readRaw defaultDialect s' k' dv true ls := by
  induction ls with
  | nil =>
    intro n
    rw [writeSection, readRaw_keyLine_other hk hkd hkb hkk]
  | cons x xs ih =>
    intro n
    have hx := hls x (by simp)
    have hxs : ∀ l ∈ xs, Terminated l := fun l hl => hls l (by simp [hl])
    have ih' := ih hxs
    rw [writeSection]
    by_cases h1 : (strip x).head? = some defaultDialect.lineterminator
    · have hv : view x = [] := (head?_strip_terminated hx).1 h1
      rw [if_pos h1, ih' (n + 1), readRaw_true_cons _ _ _ _ x, hv, isKeyLine_nil]
      simp
    · rw [if_neg h1]
      by_cases h2 : (strip x).head? = some '['
      · have hb := (head?_strip_bracket hx).1 h2
        rw [if_pos h2, readRaw_keyLine_other hk hkd hkb hkk, readRaw_flushEmpty,
          readRaw_true_cons, view_strip hx, if_pos hb, readRaw_true_cons, if_pos hb]
      · have hb : ¬ (view x).head? = some '[' := fun e => h2 ((head?_strip_bracket hx).2 e)
        rw [if_neg h2, readRaw_true_cons _ _ _ _ x, if_neg hb]
        by_cases h3 : isKeyLine defaultDialect k (strip x) = true
        · have h3' : ¬ isKeyLine defaultDialect k' (view x) = true := by
            intro e
            rw [isKeyLine_view hx] at h3
            exact hkk (isKeyLine_unique h3 e)
          rw [if_pos h3, readRaw_flushEmpty, readRaw_keyLine_other hk hkd hkb hkk,
            readRaw_map_strip s' k' dv xs hxs true, if_neg h3']
        · rw [if_neg h3, readRaw_flushEmpty, readRaw_true_cons, view_strip hx, if_neg hb,
            ih' 0]

/-- The result of `read` for another setting is the same on the lines of the
file and on the chunks of `write`. -/
theorem readRaw_writeFile_other {s s' k k' : Str} (hs : ']' ∉ s) (hsn : '\n' ∉ s)
    (hs' : ']' ∉ s') (hk : strip k = k) (hkd : '=' ∉ k) (hkn : '\n' ∉ k)
    (hkb : k.head? ≠ some '[') (hne : s' ≠ s ∨ k' ≠ k) (v dv : Str) (hv : '\n' ∉ v)
    (ls : List Str) (hls : ∀ l ∈ ls, Terminated l) :
    ∀ b, readRaw defaultDialect s' k' dv b (writeFile defaultDialect s k v ls) =
      readRaw defaultDialect s' k' dv b ls := by
  induction ls with
  | nil =>
    intro b
    rw [writeFile, readRaw_nl_cons, readRaw_nil]
    cases b
    · rw [readRaw_false_cons _ _ _ _ _ _ (Or.inl (terminated_searchedWord hsn))]
      by_cases hh : isHeader s' (searchedWord s ++ ['\n']) = true
      · have hss : s' = s := by
          by_contra hc
          rw [isHeader_newHeader_other hc hs] at hh
          cases hh
        have hkk : k' ≠ k := by
          rcases hne with h | h
          · exact absurd hss h
          · exact h
        rw [if_pos hh, readRaw_keyLine_other hk hkd hkb hkk, readRaw_nil]
      · rw [if_neg hh, readRaw_keyLine_false hk hkn hkb v s' k' dv hv, readRaw_nil]
    · rw [readRaw_true_cons, view_searchedWord_nl,
        if_pos (show (searchedWord s).head? = some '[' from rfl)]
  | cons x xs ih =>
    intro b
    have hx := hls x (by simp)
    have hxs : ∀ l ∈ xs, Terminated l := fun l hl => hls l (by simp [hl])
    have ih' := ih hxs
    rw [writeFile, ← isHeader_eq]
    by_cases hh : isHeader s x = true
    · rw [if_pos hh]
      cases b
      · rw [readRaw_false_cons _ _ _ _ _ _ (Or.inl hx.strip), isHeader_strip,
          readRaw_false_cons _ _ _ _ x _ (Or.inl hx)]
        by_cases hh' : isHeader s' x = true
        · have hss : s' = s := isHeader_unique hs hs' hh hh'
          have hkk : k' ≠ k := by
            rcases hne with h | h
            · exact absurd hss h
            · exact h
          rw [if_pos hh', if_pos hh']
          exact readRaw_true_writeSection hk hkd hkb hkk v s' dv xs hxs 0
        · rw [if_neg hh', if_neg hh']
          exact readRaw_false_writeSection hk hkn hkb v s' k' dv hv xs hxs 0
      · have hb := (head?_strip_bracket hx).1 (head?_of_isHeader hh)
        rw [readRaw_true_cons, view_strip hx, if_pos hb, readRaw_true_cons, if_pos hb]
    · rw [if_neg hh]
      cases b
      · rw [readRaw_false_cons _ _ _ _ _ _ (Or.inl hx.strip), isHeader_strip,
          readRaw_false_cons _ _ _ _ x _ (Or.inl hx), ih' true, ih' false]
      · rw [readRaw_true_cons, view_strip hx, readRaw_true_cons _ _ _ _ x, ih' true]


/-! ## `section_rename` when the new name is taken -/

theorem except_map_error {ε α β : Type} (f : α → β) (e : ε) :
    (Except.error e : Except ε α).map f = .error e := rfl

/-- The loop of `section_rename` throws when a line is a header of the new
name. -/
theorem sectionRenameLoop_exists (d : Dialect) {a b : Str} (hab : a ≠ b) (ha : ']' ∉ a)
    (hb : ']' ∉ b) (ls : List Str) (h : ls.any (isHeader b) = true) :
    ∀ sf, sectionRenameLoop d (searchedWord a) (searchedWord b) sf ls
      = .error .sectionAlreadyExists := by
  induction ls with
  | nil => simp at h
  | cons x xs ih =>
    intro sf
    rw [List.any_cons, Bool.or_eq_true] at h
    simp only [sectionRenameLoop]
    by_cases hxa : isHeader a x = true
    · have hxb : ¬ isHeader b x = true := fun e => hab (isHeader_unique hb ha e hxa)
      have hxs : xs.any (isHeader b) = true := by
        rcases h with h | h
        · exact absurd h hxb
        · exact h
      rw [if_pos (show startsWith (lstrip x) (searchedWord a) = true from hxa), ih hxs true]
      rfl
    · rw [if_neg (show ¬ startsWith (lstrip x) (searchedWord a) = true from hxa)]
      by_cases hxb : isHeader b x = true
      · rw [if_pos (show startsWith (lstrip x) (searchedWord b) = true from hxb)]
      · have hxs : xs.any (isHeader b) = true := by
          rcases h with h | h
          · exact absurd h hxb
          · exact h
        rw [if_neg (show ¬ startsWith (lstrip x) (searchedWord b) = true from hxb), ih hxs sf]
        rfl


/-! ## What `section_delete` finds -/

theorem sectionDeleteLoop_found_of_true (w : Str) (ls : List Str) :
    ∀ b, (sectionDeleteLoop w b true ls).2 = true := by
  induction ls with
  | nil => intro b; cases b <;> rfl
  | cons x xs ih =>
    intro b
    cases b
    · simp only [sectionDeleteLoop]
      split
      · exact ih true
      · exact ih false
    · simp only [sectionDeleteLoop]
      split
      · exact ih false
      · exact ih true

/-- The loop of `section_delete` finds the section when a line is a header of
it. -/
theorem sectionDeleteLoop_found (s : Str) (ls : List Str) :
    (sectionDeleteLoop (searchedWord s) false false ls).2 = ls.any (isHeader s) := by
  induction ls with
  | nil => rfl
  | cons x xs ih =>
    simp only [sectionDeleteLoop, List.any_cons]
    rw [← isHeader_eq]
    by_cases hx : isHeader s x = true
    · rw [if_pos hx, hx, sectionDeleteLoop_found_of_true]
      rfl
    · rw [if_neg hx]
      have : isHeader s x = false := by simpa using hx
      rw [this, Bool.false_or]
      exact ih


/-! ## `key_exists` and `read` make the same scan -/

theorem keyExistsLoop_readLoop (d : Dialect) (w k : Str) (ls : List Str) :
    ∀ b,
      (keyExistsLoop d w k b ls = some true ∧ ∃ v, ∀ dv, readLoop d w k dv b ls = some v) ∨
      (keyExistsLoop d w k b ls = some false ∧ ∀ dv, readLoop d w k dv b ls = some dv) ∨
      (keyExistsLoop d w k b ls = none ∧ ∀ dv, readLoop d w k dv b ls = none) := by
  induction ls with
  | nil => intro b; cases b <;> exact Or.inr (Or.inr ⟨rfl, fun _ => rfl⟩)
  | cons x xs ih =>
    intro b
    cases b
    · by_cases h0 : startsWith (strip x) w = true
      · have e1 : keyExistsLoop d w k false (x :: xs) = keyExistsLoop d w k true xs := by
          simp only [keyExistsLoop, if_pos h0]
        have e2 : ∀ dv, readLoop d w k dv false (x :: xs) = readLoop d w k dv true xs := by
          intro dv; simp only [readLoop, if_pos h0]
        simp only [e1, e2]
        exact ih true
      · have e1 : keyExistsLoop d w k false (x :: xs) = keyExistsLoop d w k false xs := by
          simp only [keyExistsLoop, if_neg h0]
        have e2 : ∀ dv, readLoop d w k dv false (x :: xs) = readLoop d w k dv false xs := by
          intro dv; simp only [readLoop, if_neg h0]
        simp only [e1, e2]
        exact ih false
    · by_cases h1 : (strip x).head? = some '['
      · have e1 : keyExistsLoop d w k true (x :: xs) = some false := by
          simp only [keyExistsLoop, if_pos h1]
        have e2 : ∀ dv, readLoop d w k dv true (x :: xs) = some dv := by
          intro dv; simp only [readLoop, if_pos h1]
        exact Or.inr (Or.inl ⟨e1, e2⟩)
      · by_cases h2 : isKeyLine d k (strip x) = true
        · have e1 : keyExistsLoop d w k true (x :: xs) = some true := by
            simp only [keyExistsLoop, if_neg h1, if_pos h2]
          have e2 : ∀ dv, readLoop d w k dv true (x :: xs)
              = some (stripped ((strip x).drop (scanDelim d (strip x) + 1))) := by
            intro dv; simp only [readLoop, if_neg h1, if_pos h2]
          exact Or.inl ⟨e1, _, e2⟩
        · have e1 : keyExistsLoop d w k true (x :: xs) = keyExistsLoop d w k true xs := by
            simp only [keyExistsLoop, if_neg h1, if_neg h2]
          have e2 : ∀ dv, readLoop d w k dv true (x :: xs) = readLoop d w k dv true xs := by
            intro dv; simp only [readLoop, if_neg h1, if_neg h2]
          simp only [e1, e2]
          exact ih true


/-! ## The header test and its reference definition -/

theorem lstrip_takeWhile_isBlank (l : Str) : lstrip (l.takeWhile isBlank) = [] := by
  unfold lstrip
  rw [List.dropWhile_eq_nil_iff]
  intro x hx
  exact List.mem_takeWhile_imp hx

theorem takeWhile_isBlank_append_lstrip (l : Str) : l.takeWhile isBlank ++ lstrip l = l :=
  List.takeWhile_append_dropWhile isBlank l

/-- A line whose stripped text starts with a word that begins with a character
that is no blank: the line is blanks followed by the word. -/
theorem lstrip_blank_append (bl : Str) (c : Char) (r : Str) (hbl : lstrip bl = [])
    (hc : isBlank c = false) : lstrip (bl ++ c :: r) = c :: r := by
  rw [lstrip_append_cons bl c r hc, hbl]
  rfl

theorem takeWhile_ne_append_cons {s : Str} {c : Char} (hs : c ∉ s) (r : Str) :
    (s ++ c :: r).takeWhile (fun x => x != c) = s := by
  induction s with
  | nil => simp
  | cons y ys ih =>
    have hy : y ≠ c := fun e => hs (by simp [e])
    have hys : c ∉ ys := fun e => hs (by simp [e])
    simp [List.takeWhile_cons, hy, ih hys]

theorem exists_takeWhile_ne_of_mem {tl : Str} {c : Char} (h : c ∈ tl) :
    ∃ r, tl = tl.takeWhile (fun x => x != c) ++ c :: r := by
  induction tl with
  | nil => simp at h
  | cons y ys ih =>
    by_cases hy : y = c
    · subst hy
      exact ⟨ys, by simp⟩
    · have hm : c ∈ ys := by
        rcases List.mem_cons.1 h with e | e
        · exact absurd e.symm hy
        · exact e
      obtain ⟨r, hr⟩ := ih hm
      refine ⟨r, ?_⟩
      simp only [List.takeWhile_cons, bne_iff_ne, ne_eq, hy, not_false_eq_true, decide_True,
        if_true, List.cons_append]
      rw [← hr]

/-- The reference definition holds when the stripped line without comment
starts with the searched word. -/
theorem isHeaderSpec_of_startsWith (d : Dialect) {s : Str} (hs : ']' ∉ s) (l r : Str)
    (h : strip (removeComment d l) = searchedWord s ++ r) : isHeaderSpec d s l = true := by
  unfold isHeaderSpec
  rw [h]
  have e : (searchedWord s ++ r).tail = s ++ ']' :: r := by
    simp [searchedWord]
  have e0 : (searchedWord s ++ r).head? = some '[' := rfl
  rw [e, e0, takeWhile_ne_append_cons hs]
  simp

theorem startsWith_of_isHeaderSpec (d : Dialect) (s l : Str) (h : isHeaderSpec d s l = true) :
    searchedWord s <+: strip (removeComment d l) := by
  unfold isHeaderSpec at h
  simp only [Bool.and_eq_true, beq_iff_eq] at h
  obtain ⟨⟨h1, h2⟩, h3⟩ := h
  have hm : ']' ∈ (strip (removeComment d l)).tail := by
    rw [List.contains, List.elem_iff] at h2
    exact h2
  obtain ⟨r, hr⟩ := exists_takeWhile_ne_of_mem hm
  rw [h3] at hr
  cases ht : strip (removeComment d l) with
  | nil => rw [ht] at h1; simp at h1
  | cons c tl =>
    rw [ht] at h1 hr
    simp only [List.head?_cons, Option.some.injEq] at h1
    simp only [List.tail_cons] at hr
    subst h1
    rw [hr]
    exact ⟨r, by simp [searchedWord]⟩

/-- For a name without `']'` and without comment character, the header test
of the code is the reference definition. -/
theorem isHeader_eq_isHeaderSpec (d : Dialect) (hc1 : isBlank d.commentchar = false)
    (hc2 : d.commentchar ≠ '[') (hc3 : d.commentchar ≠ ']') {s : Str} (hs : ']' ∉ s)
    (hsc : d.commentchar ∉ s) (l : Str) : isHeader s l = isHeaderSpec d s l := by
  rw [Bool.eq_iff_iff]
  constructor
  · intro h
    obtain ⟨r, hr⟩ := (startsWith_iff _ _).1 h
    have hl : l = l.takeWhile isBlank ++ (searchedWord s ++ r) := by
      rw [hr]; exact (takeWhile_isBlank_append_lstrip l).symm
    have hp1 : ∀ x ∈ l.takeWhile isBlank, (fun c => c != d.commentchar) x = true := by
      intro x hx
      have hb : isBlank x = true := List.mem_takeWhile_imp hx
      simp only [bne_iff_ne, ne_eq]
      rintro rfl
      rw [hc1] at hb; cases hb
    have hp2 : ∀ x ∈ searchedWord s, (fun c => c != d.commentchar) x = true := by
      intro x hx
      simp only [bne_iff_ne, ne_eq]
      rintro rfl
      simp only [searchedWord, List.mem_cons, List.mem_append, List.mem_singleton,
        List.not_mem_nil, or_false] at hx
      rcases hx with e | e | e
      · exact hc2 e
      · exact hsc e
      · exact hc3 e
    have hrc : removeComment d l = l.takeWhile isBlank ++
        (searchedWord s ++ r.takeWhile (fun c => c != d.commentchar)) := by
      unfold removeComment
      conv_lhs => rw [hl]
      rw [List.takeWhile_append_of_pos hp1, List.takeWhile_append_of_pos hp2]
    have hst : strip (removeComment d l)
        = rstrip (searchedWord s ++ r.takeWhile (fun c => c != d.commentchar)) := by
      unfold strip
      rw [hrc]
      have := lstrip_blank_append (l.takeWhile isBlank) '['
        ((s ++ [']']) ++ r.takeWhile (fun c => c != d.commentchar))
        (lstrip_takeWhile_isBlank l) (by decide)
      simp only [searchedWord, List.cons_append] at this ⊢
      rw [this]
    have hpre : searchedWord s <+: strip (removeComment d l) := by
      rw [hst, searchedWord_eq]
      exact (prefix_rstrip_iff _ _ (by decide) _).2 ⟨_, rfl⟩
    obtain ⟨r2, hr2⟩ := hpre
    exact isHeaderSpec_of_startsWith d hs l r2 hr2.symm
  · intro h
    have hpre := startsWith_of_isHeaderSpec d s l h
    unfold strip at hpre
    rw [searchedWord_eq] at hpre
    obtain ⟨r3, hr3⟩ := (prefix_rstrip_iff _ _ (by decide) _).1 hpre
    obtain ⟨r4, hr4⟩ : removeComment d l <+: l := List.takeWhile_prefix _
    have hc0 := takeWhile_isBlank_append_lstrip (removeComment d l)
    rw [← hr3] at hc0
    generalize removeComment d l = c0 at hr4 hc0
    have hl : l = c0.takeWhile isBlank ++ '[' :: (s ++ [']'] ++ r3 ++ r4) := by
      rw [← hr4]
      conv_lhs => rw [← hc0]
      simp
    unfold isHeader
    rw [startsWith_iff, hl, lstrip_blank_append _ '[' _ (lstrip_takeWhile_isBlank _) (by decide)]
    exact ⟨r3 ++ r4, by simp [searchedWord]⟩


/-! ## Files whose lines carry no surrounding blanks -/

theorem chomp_mem_getlines {content l : Str} (hl : l ∈ rawLines content) :
    chomp l ∈ getlines content :=
  List.mem_map.2 ⟨l, hl, rfl⟩

/-- When the text of every line is stripped already, `strip` leaves the raw
lines as they are. -/
theorem strip_rawLine_of_clean {content : Str} (hclean : ∀ l ∈ getlines content, strip l = l)
    {l : Str} (hl : l ∈ rawLines content) : strip l = l := by
  have hc := hclean (chomp l) (chomp_mem_getlines hl)
  rcases (lineList_rawLines content).mem hl with ⟨b, rfl, _⟩ | hn
  · rw [chomp_append_nl] at hc
    rw [strip_append_nl, lstrip_of_strip_eq hc]
  · rwa [chomp_of_not_mem l hn] at hc

theorem map_strip_of_clean {ls : List Str} (h : ∀ l ∈ ls, strip l = l) : ls.map strip = ls := by
  induction ls with
  | nil => rfl
  | cons x xs ih =>
    rw [List.map_cons, h x (by simp), ih fun l hl => h l (by simp [hl])]

/-- In such a file a line that `write` takes for an empty line is `"\n"`. -/
theorem rawLine_blank_of_clean {content : Str} (hclean : ∀ l ∈ getlines content, strip l = l)
    {l : Str} (hl : l ∈ rawLines content) (hb : (strip l).head? = some '\n') : l = ['\n'] := by
  have hc := hclean (chomp l) (chomp_mem_getlines hl)
  rcases (lineList_rawLines content).mem hl with ht | hn
  · have hv : view l = [] := (head?_strip_terminated ht).1 hb
    obtain ⟨b, rfl, _⟩ := ht
    rw [view_append_nl] at hv
    rw [chomp_append_nl, hv] at hc
    rw [← hc]
    rfl
  · exfalso
    rw [strip_rawLine_of_clean hclean hl] at hb
    exact hn (List.mem_of_mem_head? hb)

/-! ## Where `write` puts a new section and a new key -/

/-- No line is a header of the section: the lines are copied stripped and the
section is added after them. -/
theorem writeFile_no_header (d : Dialect) (s k v : Str) (ls : List Str)
    (h : ∀ l ∈ ls, isHeader s l = false) :
    writeFile d s k v ls = ls.map strip ++ [['\n'], searchedWord s ++ ['\n'], keyLine d k v] := by
  induction ls with
  | nil => rfl
  | cons x xs ih =>
    have hx : ¬ startsWith (strip x) (searchedWord s) = true := by
      rw [← isHeader_eq, h x (by simp)]; simp
    rw [writeFile, if_neg hx, ih fun l hl => h l (by simp [hl])]
    rfl

/-- Up to the first header of the section the lines are copied stripped. -/
theorem writeFile_before (d : Dialect) (s k v : Str) (h : Str) (rest : List Str)
    (hh : isHeader s h = true) (pre : List Str) (hpre : ∀ l ∈ pre, isHeader s l = false) :
    writeFile d s k v (pre ++ h :: rest) =
      pre.map strip ++ strip h :: writeSection d k v 0 rest := by
  induction pre with
  | nil =>
    rw [isHeader_eq] at hh
    rw [List.nil_append, writeFile, if_pos hh]
    rfl
  | cons x xs ih =>
    have hx : ¬ startsWith (strip x) (searchedWord s) = true := by
      rw [← isHeader_eq, hpre x (by simp)]; simp
    rw [List.cons_append, writeFile, if_neg hx, ih fun l hl => hpre l (by simp [hl])]
    rfl

theorem flushEmpty_succ (d : Dialect) (n : Nat) :
    flushEmpty d (n + 1) = flushEmpty d n ++ [[d.lineterminator]] := by
  rw [flushEmpty_add]
  rfl

theorem flushEmpty_length_of_blank {blanks : List Str} (h : ∀ l ∈ blanks, l = ['\n']) :
    flushEmpty defaultDialect blanks.length = blanks := by
  unfold flushEmpty
  exact (List.eq_replicate_iff.2 ⟨rfl, h⟩).symm

/-- The empty lines before the next header: the key is added before them. -/
theorem writeSection_blanks (k v : Str) (nh : Str) (post : List Str)
    (hnh : (strip nh).head? = some '[') (blanks : List Str) (hb : ∀ l ∈ blanks, l = ['\n']) :
    ∀ n, writeSection defaultDialect k v n (blanks ++ nh :: post) =
      keyLine defaultDialect k v ::
        (flushEmpty defaultDialect (n + blanks.length) ++ strip nh :: post.map strip) := by
  induction blanks with
  | nil =>
    intro n
    have h1 : ¬ (strip nh).head? = some defaultDialect.lineterminator := by
      rw [hnh]; decide
    rw [List.nil_append, writeSection, if_neg h1, if_pos hnh]
    rfl
  | cons x xs ih =>
    intro n
    have hx : x = ['\n'] := hb x (by simp)
    subst hx
    rw [List.cons_append, writeSection_nl_cons, ih (fun l hl => hb l (by simp [hl])) (n + 1)]
    congr 2
    simp only [List.length_cons]
    congr 1
    omega

theorem getLast?_cons_of_ne {α : Type} (x : α) {xs : List α} (h : xs ≠ []) :
    (x :: xs).getLast? = xs.getLast? := by
  cases xs with
  | nil => exact absurd rfl h
  | cons y ys => exact List.getLast?_cons_cons

/-- The lines of the section up to its last line that is not empty: they are
copied, the empty lines among them in their place. -/
theorem writeSection_body (k v : Str) (tail : List Str) (body : List Str) :
    ∀ n, body ≠ [] → body.getLast? ≠ some ['\n'] →
      (∀ l ∈ body, strip l = l) →
      (∀ l ∈ body, (strip l).head? = some '\n' → l = ['\n']) →
      (∀ l ∈ body, (strip l).head? ≠ some '[' ∧ isKeyLine defaultDialect k (strip l) = false) →
      writeSection defaultDialect k v n (body ++ tail) =
        flushEmpty defaultDialect n ++ body ++ writeSection defaultDialect k v 0 tail := by
  induction body with
  | nil => intro n h; exact absurd rfl h
  | cons x xs ih =>
    intro n _ hlast hclean hblank hbody
    have hxs1 : ∀ l ∈ xs, strip l = l := fun l hl => hclean l (by simp [hl])
    have hxs2 : ∀ l ∈ xs, (strip l).head? = some '\n' → l = ['\n'] :=
      fun l hl => hblank l (by simp [hl])
    have hxs3 : ∀ l ∈ xs, (strip l).head? ≠ some '[' ∧
        isKeyLine defaultDialect k (strip l) = false := fun l hl => hbody l (by simp [hl])
    by_cases h1 : (strip x).head? = some defaultDialect.lineterminator
    · have hx : x = ['\n'] := hblank x (by simp) h1
      subst hx
      have hne : xs ≠ [] := by
        rintro rfl
        exact hlast rfl
      have hlast' : xs.getLast? ≠ some ['\n'] := by
        rwa [getLast?_cons_of_ne _ hne] at hlast
      rw [List.cons_append, writeSection_nl_cons, ih (n + 1) hne hlast' hxs1 hxs2 hxs3,
        flushEmpty_succ]
      simp [defaultDialect]
    · obtain ⟨h2, h3⟩ := hbody x (by simp)
      have h3' : ¬ isKeyLine defaultDialect k (strip x) = true := by rw [h3]; simp
      rw [List.cons_append, writeSection, if_neg h1, if_neg h2, if_neg h3', hclean x (by simp)]
      by_cases hne : xs = []
      · subst hne
        simp
      · have hlast' : xs.getLast? ≠ some ['\n'] := by
          rwa [getLast?_cons_of_ne _ hne] at hlast
        rw [ih 0 hne hlast' hxs1 hxs2 hxs3]
        simp [flushEmpty]


/-! ## The two functions `write` -/

theorem writeStepDouble_eq {R : Type} (fmt : R → Str) (d : Dialect) (w k : Str) (x : R)
    (st : WriteState) (line : Str) :
    writeStepDouble fmt d w k x st line = writeStep d w k (fmt x) st line := rfl

theorem writeLoopDouble_eq {R : Type} (fmt : R → Str) (d : Dialect) (w k : Str) (x : R)
    (ls : List Str) :
    ∀ st, writeLoopDouble fmt d w k x st ls = writeLoop d w k (fmt x) st ls := by
  induction ls with
  | nil => intro st; rfl
  | cons l rest ih =>
    intro st
    simp only [writeLoopDouble, writeLoop, writeStepDouble_eq, ih]

theorem writeTailDouble_eq {R : Type} (fmt : R → Str) (d : Dialect) (w k : Str) (x : R)
    (st : WriteState) :
    writeTailDouble fmt d w k x st = writeTail d w k (fmt x) st := rfl


/-! ## Lines the scanner ignores -/

theorem startsWith_false_of_head? {t s : Str} (h : t.head? ≠ some '[') :
    startsWith t (searchedWord s) = false := by
  cases hh : startsWith t (searchedWord s) with
  | false => rfl
  | true =>
    obtain ⟨r, hr⟩ := (startsWith_iff _ _).1 hh
    rw [← hr] at h
    exact absurd rfl h

theorem ignoredLine_head? {x : Str} (hx : ignoredLine defaultDialect x) :
    (strip x).head? ≠ some '[' := by
  rcases hx with h | h | ⟨h, _⟩
  · rw [h]; simp
  · rw [h]; decide
  · exact h

theorem ignoredLine_isKeyLine {x : Str} (hx : ignoredLine defaultDialect x) (k : Str) :
    isKeyLine defaultDialect k (strip x) = false := by
  cases hk : isKeyLine defaultDialect k (strip x) with
  | false => rfl
  | true =>
    exfalso
    obtain ⟨hc, p, q, hpq, _, _, _⟩ := (isKeyLine_iff _ _ _).1 hk
    rcases hx with h | h | ⟨_, h⟩
    · rw [h] at hpq
      cases p <;> simp at hpq
    · exact hc h
    · apply h
      apply (strip_sublist x).subset
      rw [hpq]
      simp

theorem ignoredLine_startsWith_strip {x : Str} (hx : ignoredLine defaultDialect x) (s : Str) :
    startsWith (strip x) (searchedWord s) = false :=
  startsWith_false_of_head? (ignoredLine_head? hx)

theorem ignoredLine_startsWith_lstrip {x : Str} (hx : ignoredLine defaultDialect x) (s : Str) :
    startsWith (lstrip x) (searchedWord s) = false := by
  rw [← startsWith_strip]
  exact ignoredLine_startsWith_strip hx s

theorem keyExistsLoop_insert {x : Str} (hx : ignoredLine defaultDialect x) (s k : Str)
    (B : List Str) (A : List Str) :
    ∀ b, keyExistsLoop defaultDialect (searchedWord s) k b (A ++ x :: B) =
      keyExistsLoop defaultDialect (searchedWord s) k b (A ++ B) := by
  induction A with
  | nil =>
    intro b
    cases b
    · simp only [List.nil_append, keyExistsLoop, ignoredLine_startsWith_strip hx]
      simp
    · simp only [List.nil_append, keyExistsLoop, if_neg (ignoredLine_head? hx),
        ignoredLine_isKeyLine hx]
      simp
  | cons a as ih =>
    intro b
    cases b
    · simp only [List.cons_append, keyExistsLoop, List.append_eq, ih]
    · simp only [List.cons_append, keyExistsLoop, List.append_eq, ih]

theorem readLoop_insert {x : Str} (hx : ignoredLine defaultDialect x) (s k dv : Str)
    (B : List Str) (A : List Str) :
    ∀ b, readLoop defaultDialect (searchedWord s) k dv b (A ++ x :: B) =
      readLoop defaultDialect (searchedWord s) k dv b (A ++ B) := by
  induction A with
  | nil =>
    intro b
    cases b
    · simp only [List.nil_append, readLoop, ignoredLine_startsWith_strip hx]
      simp
    · simp only [List.nil_append, readLoop, if_neg (ignoredLine_head? hx),
        ignoredLine_isKeyLine hx]
      simp
  | cons a as ih =>
    intro b
    cases b
    · simp only [List.cons_append, readLoop, List.append_eq, ih]
    · simp only [List.cons_append, readLoop, List.append_eq, ih]


/-! ## The cut of a file at the first line of a key -/

theorem head?_strip_bracket_raw {l : Str} (h : Terminated l ∨ '\n' ∉ l) :
    (strip l).head? = some '[' ↔ (view l).head? = some '[' := by
  rcases h with h | h
  · exact head?_strip_bracket h
  · unfold view; rw [chomp_of_not_mem l h]

theorem isKeyLine_view_raw {l : Str} (h : Terminated l ∨ '\n' ∉ l) (k : Str) :
    isKeyLine defaultDialect k (strip l) = isKeyLine defaultDialect k (view l) := by
  rcases h with h | h
  · exact isKeyLine_view h k
  · unfold view; rw [chomp_of_not_mem l h]

theorem rawLines_mem_ne_nil (s : Str) : ∀ l ∈ rawLines s, l ≠ [] := by
  have h := rawLines_flatten_of_lineList (lineList_rawLines s)
  rw [rawLines_flatten] at h
  intro l hl
  rw [h] at hl
  simpa using (List.mem_filter.1 hl).2

theorem LineList.replace {y : Str} (hy : Terminated y) (x : Str) (B : List Str) (A : List Str) :
    LineList (A ++ x :: B) → LineList (A ++ y :: B) := by
  induction A with
  | nil =>
    intro h
    rcases h with ⟨_, hB⟩ | ⟨_, rfl⟩
    · exact Or.inl ⟨hy, hB⟩
    · exact Or.inl ⟨hy, trivial⟩
  | cons a as ih =>
    intro h
    rcases h with ⟨ha, hr⟩ | ⟨_, hnil⟩
    · exact Or.inl ⟨ha, ih hr⟩
    · simp at hnil

/-- Inside the section: when `key_exists` answers true the lines are cut at the
first line of the key, no line before it starting with `'['`. -/
theorem keyExistsLoop_cut_section (w k : Str) (L : List Str) :
    keyExistsLoop defaultDialect w k true (L.map chomp) = some true →
    ∃ body kl post, L = body ++ kl :: post ∧
      (∀ l ∈ body, (view l).head? ≠ some '[' ∧ isKeyLine defaultDialect k (view l) = false) ∧
      (view kl).head? ≠ some '[' ∧ isKeyLine defaultDialect k (view kl) = true := by
  induction L with
  | nil => intro h; simp [keyExistsLoop] at h
  | cons x xs ih =>
    intro h
    simp only [List.map_cons, keyExistsLoop] at h
    by_cases h1 : (strip (chomp x)).head? = some '['
    · rw [if_pos h1] at h; simp at h
    · rw [if_neg h1] at h
      by_cases h2 : isKeyLine defaultDialect k (strip (chomp x)) = true
      · exact ⟨[], x, xs, rfl, by simp, h1, h2⟩
      · rw [if_neg h2] at h
        obtain ⟨body, kl, post, e, hb, hk⟩ := ih h
        refine ⟨x :: body, kl, post, by rw [e]; rfl, ?_, hk⟩
        intro l hl
        rcases List.mem_cons.1 hl with rfl | hm
        · exact ⟨h1, by simpa using h2⟩
        · exact hb l hm

/-- Before the section: when `key_exists` answers true the lines are cut at the
first header of the section. -/
theorem keyExistsLoop_cut (s k : Str) (L : List Str) :
    (∀ l ∈ L, Terminated l ∨ '\n' ∉ l) →
    keyExistsLoop defaultDialect (searchedWord s) k false (L.map chomp) = some true →
    ∃ pre h rest, L = pre ++ h :: rest ∧ (∀ l ∈ pre, isHeader s l = false) ∧
      isHeader s h = true ∧
      keyExistsLoop defaultDialect (searchedWord s) k true (rest.map chomp) = some true := by
  induction L with
  | nil => intro _ h; simp [keyExistsLoop] at h
  | cons x xs ih =>
    intro hL h
    simp only [List.map_cons, keyExistsLoop] at h
    have e : startsWith (strip (chomp x)) (searchedWord s) = isHeader s x :=
      startsWith_view s (hL x (by simp))
    rw [e] at h
    by_cases h1 : isHeader s x = true
    · rw [if_pos h1] at h
      exact ⟨[], x, xs, rfl, by simp, h1, h⟩
    · rw [if_neg h1] at h
      obtain ⟨pre, hd, rest, e1, hp, hh, hr⟩ := ih (fun l hl => hL l (by simp [hl])) h
      refine ⟨x :: pre, hd, rest, by rw [e1]; rfl, ?_, hh, hr⟩
      intro l hl
      rcases List.mem_cons.1 hl with rfl | hm
      · simpa using h1
      · exact hp l hm

/-- The cut of the raw lines of a file in which the key exists: the lines
before the first header of the section, that header, the lines of the section
before the first line of the key, that line, and the lines after it. -/
theorem key_exists_cut {content sect key : Str}
    (hex : key_exists defaultDialect (some content) sect key = .ok true) :
    ∃ pre h body kl post, rawLines content = pre ++ h :: (body ++ kl :: post) ∧
      (∀ l ∈ pre, isHeader sect l = false) ∧ isHeader sect h = true ∧
      (∀ l ∈ body, (view l).head? ≠ some '[' ∧ isKeyLine defaultDialect key (view l) = false) ∧
      (view kl).head? ≠ some '[' ∧ isKeyLine defaultDialect key (view kl) = true := by
  have h0 : (keyExistsLoop defaultDialect (searchedWord sect) key false
      ((rawLines content).map chomp)).getD false = true := by
    have := hex
    simp only [key_exists, Except.ok.injEq] at this
    exact this
  have h1 : keyExistsLoop defaultDialect (searchedWord sect) key false
      ((rawLines content).map chomp) = some true := by
    cases hc : keyExistsLoop defaultDialect (searchedWord sect) key false
        ((rawLines content).map chomp) with
    | none => rw [hc] at h0; simp at h0
    | some b => rw [hc] at h0; simp at h0; rw [h0]
  obtain ⟨pre, h, rest, e1, hp, hh, hr⟩ :=
    keyExistsLoop_cut sect key (rawLines content)
      (fun l hl => (lineList_rawLines content).mem hl) h1
  obtain ⟨body, kl, post, e2, hb, hk⟩ := keyExistsLoop_cut_section _ key rest hr
  exact ⟨pre, h, body, kl, post, by rw [e1, e2], hp, hh, hb, hk⟩

/-- Before the section `key_delete` copies the stripped lines, the first
header of the section included. -/
theorem keyDeleteLoop_before_ok (d : Dialect) (sect k : Str) (h : Str) (rest : List Str)
    (hh : isHeader sect h = true) (r : List Str × Bool)
    (hr : keyDeleteLoop d (searchedWord sect) k true true false rest = .ok r) (pre : List Str) :
    ∀ sf, (∀ l ∈ pre, isHeader sect l = false) →
      keyDeleteLoop d (searchedWord sect) k false sf false (pre ++ h :: rest) =
        .ok (pre.map strip ++ strip h :: r.1, r.2) := by
  induction pre with
  | nil =>
    intro sf _
    rw [isHeader_eq] at hh
    simp only [List.nil_append, keyDeleteLoop, if_pos hh, hr]
    rfl
  | cons x xs ih =>
    intro sf hpre
    have hx : ¬ startsWith (strip x) (searchedWord sect) = true := by
      rw [← isHeader_eq, hpre x (by simp)]; simp
    simp only [List.cons_append, keyDeleteLoop, if_neg hx, List.append_eq,
      ih sf (fun l hl => hpre l (by simp [hl]))]
    rfl

/-- Inside the section `key_delete` copies the stripped lines but for the first
line of the key. -/
theorem keyDeleteLoop_key (d : Dialect) (w k : Str) (kl : Str) (post : List Str)
    (hk1 : (strip kl).head? ≠ some '[') (hk2 : isKeyLine d k (strip kl) = true)
    (body : List Str) :
    ∀ sf, (∀ l ∈ body, (strip l).head? ≠ some '[' ∧ isKeyLine d k (strip l) = false) →
      keyDeleteLoop d w k true sf false (body ++ kl :: post) =
        .ok (body.map strip ++ post.map strip, sf) := by
  induction body with
  | nil =>
    intro sf _
    simp only [List.nil_append, keyDeleteLoop, if_neg hk1, if_pos hk2, keyDeleteLoop_found]
    rfl
  | cons x xs ih =>
    intro sf hb
    obtain ⟨h1, h2⟩ := hb x (by simp)
    have h2' : ¬ isKeyLine d k (strip x) = true := by rw [h2]; simp
    simp only [List.cons_append, keyDeleteLoop, if_neg h1, if_neg h2', List.append_eq,
      ih sf (fun l hl => hb l (by simp [hl]))]
    rfl

/-- The lines of the section before the line of the key are copied by `write`,
the empty lines among them in their place, when what follows flushes the
empty lines held back. -/
theorem writeSection_body_tail (k v : Str) (tail T : List Str)
    (htail : ∀ m, writeSection defaultDialect k v m tail = flushEmpty defaultDialect m ++ T)
    (body : List Str) :
    ∀ n, (∀ l ∈ body, strip l = l) →
      (∀ l ∈ body, (strip l).head? = some '\n' → l = ['\n']) →
      (∀ l ∈ body, (strip l).head? ≠ some '[' ∧ isKeyLine defaultDialect k (strip l) = false) →
      writeSection defaultDialect k v n (body ++ tail) =
        flushEmpty defaultDialect n ++ (body ++ T) := by
  induction body with
  | nil => intro n _ _ _; exact htail n
  | cons x xs ih =>
    intro n hclean hblank hbody
    have hxs1 : ∀ l ∈ xs, strip l = l := fun l hl => hclean l (by simp [hl])
    have hxs2 : ∀ l ∈ xs, (strip l).head? = some '\n' → l = ['\n'] :=
      fun l hl => hblank l (by simp [hl])
    have hxs3 : ∀ l ∈ xs, (strip l).head? ≠ some '[' ∧
        isKeyLine defaultDialect k (strip l) = false := fun l hl => hbody l (by simp [hl])
    by_cases h1 : (strip x).head? = some defaultDialect.lineterminator
    · have hx : x = ['\n'] := hblank x (by simp) h1
      subst hx
      rw [List.cons_append, writeSection_nl_cons, ih (n + 1) hxs1 hxs2 hxs3, flushEmpty_succ]
      simp [defaultDialect]
    · obtain ⟨h2, h3⟩ := hbody x (by simp)
      have h3' : ¬ isKeyLine defaultDialect k (strip x) = true := by rw [h3]; simp
      rw [List.cons_append, writeSection, if_neg h1, if_neg h2, if_neg h3', hclean x (by simp),
        ih 0 hxs1 hxs2 hxs3]
      simp [flushEmpty]

/-- At the first line of the key `write` flushes the empty lines held back,
prints the new line and copies the rest. -/
theorem writeSection_key (k v : Str) (kl : Str) (post : List Str)
    (hk1 : (strip kl).head? ≠ some '[') (hk2 : isKeyLine defaultDialect k (strip kl) = true)
    (m : Nat) :
    writeSection defaultDialect k v m (kl :: post) =
      flushEmpty defaultDialect m ++ keyLine defaultDialect k v :: post.map strip := by
  have h1 : ¬ (strip kl).head? = some defaultDialect.lineterminator := by
    obtain ⟨_, p, q, hpq, _, hpn, _⟩ := (isKeyLine_iff _ _ _).1 hk2
    rw [hpq]
    intro hh
    cases p with
    | nil => simp [defaultDialect] at hh
    | cons c cs =>
      simp only [List.cons_append, List.head?_cons, Option.some.injEq] at hh
      exact hpn (by simp [hh])
  rw [writeSection, if_neg h1, if_neg hk1, if_pos hk2]

theorem not_mem_key_of_isKeyLine {d : Dialect} {k x : Str} (h : isKeyLine d k x = true) :
    d.lineterminator ∉ k := by
  obtain ⟨_, p, q, _, _, hpn, hk⟩ := (isKeyLine_iff _ _ _).1 h
  rw [hk]
  exact fun hm => hpn ((strip_sublist p).subset hm)


/-! ## `read` after `section_rename` -/

theorem view_lstrip_raw {l : Str} (h : Terminated l ∨ '\n' ∉ l) : view (lstrip l) = view l := by
  rcases h with ⟨b, rfl, _⟩ | h
  · rw [lstrip_append_cons b '\n' [] (by decide), view_append_nl, view_append_nl, strip_lstrip]
  · unfold view
    rw [chomp_of_not_mem l h, chomp_of_not_mem _ (fun hm => h ((lstrip_sublist l).subset hm)),
      strip_lstrip]

theorem view_nil : view [] = [] := rfl

/-- An empty chunk is no line: `read` does not see it. -/
theorem readRaw_filter (d : Dialect) (s k dv : Str) (ls : List Str) :
    ∀ b, readRaw d s k dv b (ls.filter (fun l => decide (l ≠ []))) = readRaw d s k dv b ls := by
  induction ls with
  | nil => intro b; rfl
  | cons x xs ih =>
    intro b
    by_cases hx : x = []
    · subst hx
      have e : ([] :: xs).filter (fun l => decide (l ≠ [])) =
          xs.filter (fun l => decide (l ≠ [])) := by simp
      rw [e, ih b]
      cases b
      · rw [readRaw_false_cons _ _ _ _ _ _ (Or.inr (by simp)), isHeader_nil]
        simp
      · rw [readRaw_true_cons, view_nil, isKeyLine_nil]
        simp
    · have e : (x :: xs).filter (fun l => decide (l ≠ [])) =
          x :: xs.filter (fun l => decide (l ≠ [])) := by simp [hx]
      rw [e]
      unfold readRaw at ih ⊢
      cases b
      · simp only [List.map_cons, readLoop]
        split
        · exact ih true
        · exact ih false
      · simp only [List.map_cons, readLoop]
        split
        · rfl
        · split
          · rfl
          · exact ih true

/-- When `section_rename` does not throw, no line is a header of the new name
unless it is a header of the old one. -/
theorem sectionRenameLoop_ok_no_new (d : Dialect) (a b : Str) (ls : List Str) :
    ∀ sf r, sectionRenameLoop d (searchedWord a) (searchedWord b) sf ls = .ok r →
      ∀ l ∈ ls, isHeader a l = false → isHeader b l = false := by
  induction ls with
  | nil => intro _ _ _ l hl; simp at hl
  | cons x xs ih =>
    intro sf r h l hl hla
    simp only [sectionRenameLoop] at h
    by_cases hx : isHeader a x = true
    · have hx' : startsWith (lstrip x) (searchedWord a) = true := hx
      rw [if_pos hx'] at h
      obtain ⟨r1, h1, _⟩ := except_map_ok h
      rcases List.mem_cons.1 hl with rfl | hm
      · rw [hx] at hla; cases hla
      · exact ih true r1 h1 l hm hla
    · have hx' : ¬ startsWith (lstrip x) (searchedWord a) = true := hx
      rw [if_neg hx'] at h
      by_cases hxb : startsWith (lstrip x) (searchedWord b) = true
      · rw [if_pos hxb] at h; cases h
      · rw [if_neg hxb] at h
        obtain ⟨r1, h1, _⟩ := except_map_ok h
        rcases List.mem_cons.1 hl with rfl | hm
        · simpa [isHeader] using hxb
        · exact ih sf r1 h1 l hm hla

/-- On the lines `section_rename` writes, `read` of the new name goes as `read`
of the old name goes on the lines of the file. -/
theorem readRaw_rename (a b k dv : Str) (ls : List Str) :
    (∀ l ∈ ls, Terminated l ∨ '\n' ∉ l) →
    (∀ l ∈ ls, isHeader a l = false → isHeader b l = false) →
    ∀ st, readRaw defaultDialect b k dv st (ls.map (fun raw =>
        if isHeader a raw then searchedWord b ++ ['\n'] else lstrip raw)) =
      readRaw defaultDialect a k dv st ls := by
  induction ls with
  | nil => intro _ _ st; cases st <;> rfl
  | cons x xs ih =>
    intro hraw hnew st
    have ih' := ih (fun l hl => hraw l (by simp [hl])) (fun l hl => hnew l (by simp [hl]))
    have hx := hraw x (by simp)
    simp only [List.map_cons]
    by_cases ha : isHeader a x = true
    · rw [if_pos ha]
      cases st
      · rw [readRaw_false_cons _ _ _ _ _ _ hx, if_pos ha]
        unfold readRaw
        simp only [List.map_cons, readLoop]
        have e : startsWith (strip (chomp (searchedWord b ++ ['\n']))) (searchedWord b) = true := by
          have := view_searchedWord_nl b
          unfold view at this
          rw [this, startsWith_iff]
        rw [if_pos e]
        exact ih' true
      · have h1 : (view x).head? = some '[' :=
          (head?_strip_bracket_raw hx).1 (head?_of_isHeader ha)
        rw [readRaw_true_cons, readRaw_true_cons, view_searchedWord_nl, if_pos h1,
          if_pos (show (searchedWord b).head? = some '[' from rfl)]
    · rw [if_neg ha]
      have hb : isHeader b x = false := hnew x (by simp) (by simpa using ha)
      have hx' : Terminated (lstrip x) ∨ '\n' ∉ lstrip x := by
        rcases hx with h | h
        · exact Or.inl h.lstrip
        · exact Or.inr fun hm => h ((lstrip_sublist x).subset hm)
      cases st
      · rw [readRaw_false_cons _ _ _ _ _ _ hx, readRaw_false_cons _ _ _ _ _ _ hx', if_neg ha,
          isHeader_lstrip, hb]
        simp only [Bool.false_eq_true, if_false]
        exact ih' false
      · rw [readRaw_true_cons, readRaw_true_cons, view_lstrip_raw hx, ih' true]


/-! ## `key_rename` on the cut of a file at the first line of the key -/

theorem view_strip_raw {l : Str} (h : Terminated l ∨ '\n' ∉ l) : view (strip l) = view l := by
  rcases h with h | h
  · exact view_strip h
  · unfold view
    rw [chomp_of_not_mem l h, chomp_of_not_mem _ (fun hm => h ((strip_sublist l).subset hm)),
      strip_idem]

theorem raw_strip {l : Str} (h : Terminated l ∨ '\n' ∉ l) :
    Terminated (strip l) ∨ '\n' ∉ strip l := by
  rcases h with h | h
  · exact Or.inl h.strip
  · exact Or.inr fun hm => h ((strip_sublist l).subset hm)

theorem LineList.map_strip_replace {y : Str} (hy : Terminated y) (x : Str) (B : List Str)
    (A : List Str) : LineList (A ++ x :: B) → LineList (A.map strip ++ y :: B) := by
  induction A with
  | nil =>
    intro h
    rcases h with ⟨_, hB⟩ | ⟨_, rfl⟩
    · exact Or.inl ⟨hy, hB⟩
    · exact Or.inl ⟨hy, trivial⟩
  | cons a as ih =>
    intro h
    rcases h with ⟨ha, hr⟩ | ⟨_, hnil⟩
    · exact Or.inl ⟨ha.strip, ih hr⟩
    · simp at hnil

/-- Before the section `read` skips the lines, the first header of the section
included. -/
theorem readRaw_before (d : Dialect) (s k dv : Str) (h : Str) (rest : List Str)
    (hraw : Terminated h ∨ '\n' ∉ h) (hh : isHeader s h = true) (pre : List Str) :
    (∀ l ∈ pre, Terminated l ∨ '\n' ∉ l) → (∀ l ∈ pre, isHeader s l = false) →
    readRaw d s k dv false (pre ++ h :: rest) = readRaw d s k dv true rest := by
  induction pre with
  | nil =>
    intro _ _
    rw [List.nil_append, readRaw_false_cons _ _ _ _ _ _ hraw, if_pos hh]
  | cons x xs ih =>
    intro h1 h2
    rw [List.cons_append, readRaw_false_cons _ _ _ _ _ _ (h1 x (by simp)), h2 x (by simp)]
    simp only [Bool.false_eq_true, if_false]
    exact ih (fun l hl => h1 l (by simp [hl])) (fun l hl => h2 l (by simp [hl]))

/-- Inside the section `read` skips the lines that neither start with `'['`
nor are lines of the key. -/
theorem readRaw_skip (d : Dialect) (s k dv : Str) (rest : List Str) (body : List Str) :
    (∀ l ∈ body, (view l).head? ≠ some '[' ∧ isKeyLine d k (view l) = false) →
    readRaw d s k dv true (body ++ rest) = readRaw d s k dv true rest := by
  induction body with
  | nil => intro _; rfl
  | cons x xs ih =>
    intro hb
    obtain ⟨h1, h2⟩ := hb x (by simp)
    rw [List.cons_append, readRaw_true_cons, if_neg h1, h2]
    simp only [Bool.false_eq_true, if_false]
    exact ih fun l hl => hb l (by simp [hl])

theorem keyExistsLoop_before (d : Dialect) (s k : Str) (h : Str) (rest : List Str)
    (hraw : Terminated h ∨ '\n' ∉ h) (hh : isHeader s h = true) (pre : List Str) :
    (∀ l ∈ pre, Terminated l ∨ '\n' ∉ l) → (∀ l ∈ pre, isHeader s l = false) →
    keyExistsLoop d (searchedWord s) k false ((pre ++ h :: rest).map chomp) =
      keyExistsLoop d (searchedWord s) k true (rest.map chomp) := by
  induction pre with
  | nil =>
    intro _ _
    have e : startsWith (strip (chomp h)) (searchedWord s) = true := by
      rw [← hh]; exact startsWith_view s hraw
    simp only [List.nil_append, List.map_cons, keyExistsLoop, if_pos e]
  | cons x xs ih =>
    intro h1 h2
    have e : ¬ startsWith (strip (chomp x)) (searchedWord s) = true := by
      have := startsWith_view s (h1 x (by simp))
      unfold view at this
      rw [this, h2 x (by simp)]
      simp
    simp only [List.cons_append, List.map_cons, keyExistsLoop, if_neg e]
    exact ih (fun l hl => h1 l (by simp [hl])) (fun l hl => h2 l (by simp [hl]))

theorem keyExistsLoop_skip (d : Dialect) (w k : Str) (rest : List Str) (body : List Str) :
    (∀ l ∈ body, (view l).head? ≠ some '[' ∧ isKeyLine d k (view l) = false) →
    keyExistsLoop d w k true ((body ++ rest).map chomp) =
      keyExistsLoop d w k true (rest.map chomp) := by
  induction body with
  | nil => intro _; rfl
  | cons x xs ih =>
    intro hb
    obtain ⟨h1, h2⟩ := hb x (by simp)
    have h1' : ¬ (strip (chomp x)).head? = some '[' := h1
    have h2' : ¬ isKeyLine d k (strip (chomp x)) = true := by
      have : isKeyLine d k (strip (chomp x)) = false := h2
      rw [this]; simp
    simp only [List.cons_append, List.map_cons, keyExistsLoop, if_neg h1', if_neg h2']
    exact ih fun l hl => hb l (by simp [hl])

/-- A line of the key before any line that starts with `'['`: the key exists. -/
theorem keyExistsLoop_mem (d : Dialect) (w k : Str) (rest : List Str) (body : List Str) :
    (∀ l ∈ body, (view l).head? ≠ some '[') →
    (∃ l ∈ body, isKeyLine d k (view l) = true) →
    keyExistsLoop d w k true ((body ++ rest).map chomp) = some true := by
  induction body with
  | nil => intro _ h; obtain ⟨l, hl, _⟩ := h; simp at hl
  | cons x xs ih =>
    intro hb hex
    have h1 : ¬ (strip (chomp x)).head? = some '[' := hb x (by simp)
    simp only [List.cons_append, List.map_cons, keyExistsLoop, if_neg h1]
    by_cases h2 : isKeyLine d k (strip (chomp x)) = true
    · rw [if_pos h2]
    · rw [if_neg h2]
      apply ih (fun l hl => hb l (by simp [hl]))
      obtain ⟨l, hl, hk⟩ := hex
      rcases List.mem_cons.1 hl with rfl | hm
      · exact absurd hk h2
      · exact ⟨l, hm, hk⟩

/-- Once the key is renamed `key_rename` copies the raw lines. -/
theorem keyRenameLoop_found (d : Dialect) (w k k' : Str) (ls : List Str) :
    ∀ sf ins, keyRenameLoop d w k k' sf true ins ls = .ok (ls, sf) := by
  induction ls with
  | nil => intro sf ins; cases sf <;> cases ins <;> rfl
  | cons x xs ih =>
    intro sf ins
    cases sf <;> cases ins <;> simp [keyRenameLoop, ih, Except.map]

/-- Inside the section `key_rename` copies the stripped lines up to the first
line of the key, which it prints anew with the new key. -/
theorem keyRenameLoop_key (d : Dialect) (w k k' : Str) (kl : Str) (post : List Str)
    (hk1 : (strip kl).head? ≠ some '[') (hk2 : isKeyLine d k (strip kl) = true)
    (body : List Str) :
    (∀ l ∈ body, (strip l).head? ≠ some '[' ∧ isKeyLine d k (strip l) = false ∧
      isKeyLine d k' (strip l) = false) →
    keyRenameLoop d w k k' true false true (body ++ kl :: post) =
      .ok (body.map strip ++ (k' ++ d.delimiter :: (substr (strip kl) (scanDelim d (strip kl) + 1)
        (scanDelim d (strip kl) + 1 +
          scanComment d ((strip kl).drop (scanDelim d (strip kl) + 1))) ++ ['\n'])) :: post,
        true) := by
  induction body with
  | nil =>
    intro _
    simp only [List.nil_append, keyRenameLoop, if_neg hk1, if_pos hk2, keyRenameLoop_found]
    rfl
  | cons x xs ih =>
    intro hb
    obtain ⟨h1, h2, h3⟩ := hb x (by simp)
    have h2' : ¬ isKeyLine d k (strip x) = true := by rw [h2]; simp
    have h3' : ¬ isKeyLine d k' (strip x) = true := by rw [h3]; simp
    simp only [List.cons_append, keyRenameLoop, if_neg h1, if_neg h2', if_neg h3', List.append_eq,
      ih (fun l hl => hb l (by simp [hl]))]
    rfl

/-- Before the section `key_rename` copies the stripped lines, the first header
of the section included. -/
theorem keyRenameLoop_before_ok (d : Dialect) (s k k' : Str) (h : Str) (rest : List Str)
    (hh : isHeader s h = true) (r : List Str × Bool)
    (hr : keyRenameLoop d (searchedWord s) k k' true false true rest = .ok r) (pre : List Str) :
    ∀ ins, (∀ l ∈ pre, isHeader s l = false) →
      keyRenameLoop d (searchedWord s) k k' false false ins (pre ++ h :: rest) =
        .ok (pre.map strip ++ strip h :: r.1, r.2) := by
  induction pre with
  | nil =>
    intro ins _
    rw [isHeader_eq] at hh
    simp only [List.nil_append, keyRenameLoop, if_pos hh, hr]
    rfl
  | cons x xs ih =>
    intro ins hpre
    have hx : ¬ startsWith (strip x) (searchedWord s) = true := by
      rw [← isHeader_eq, hpre x (by simp)]; simp
    simp only [List.cons_append, keyRenameLoop, if_neg hx, List.append_eq,
      ih ins (fun l hl => hpre l (by simp [hl]))]
    rfl

theorem scanComment_append (d : Dialect) (q r : Str) (h1 : d.commentchar ∉ q)
    (h2 : d.lineterminator ∉ q) (hr : r = [] ∨ r.head? = some d.lineterminator) :
    scanComment d (q ++ r) = q.length := by
  induction q with
  | nil =>
    rcases hr with rfl | hr
    · rfl
    · cases r with
      | nil => rfl
      | cons c cs =>
        simp only [List.head?_cons, Option.some.injEq] at hr
        simp [scanComment, hr]
  | cons c cs ih =>
    have hc1 : c ≠ d.commentchar := fun e => h1 (by simp [e])
    have hc2 : c ≠ d.lineterminator := fun e => h2 (by simp [e])
    simp [scanComment, hc1, hc2, ih (fun e => h1 (by simp [e])) (fun e => h2 (by simp [e]))]

/-- The value `key_rename` copies from a line of the key that holds no comment
character: it holds no line terminator and `read` returned it, stripped. -/
theorem renamed_value (k kl : Str) (hraw : Terminated kl ∨ '\n' ∉ kl) (hc : ';' ∉ kl)
    (hk : isKeyLine defaultDialect k (strip kl) = true) :
    '\n' ∉ substr (strip kl) (scanDelim defaultDialect (strip kl) + 1)
        (scanDelim defaultDialect (strip kl) + 1 +
          scanComment defaultDialect ((strip kl).drop (scanDelim defaultDialect (strip kl) + 1))) ∧
    stripped ((view kl).drop (scanDelim defaultDialect (view kl) + 1)) =
      strip (substr (strip kl) (scanDelim defaultDialect (strip kl) + 1)
        (scanDelim defaultDialect (strip kl) + 1 +
          scanComment defaultDialect ((strip kl).drop (scanDelim defaultDialect (strip kl) + 1)))) := by
  have key : ∀ (p q r : Str), '=' ∉ p → '\n' ∉ p → ';' ∉ q → '\n' ∉ q →
      (r = [] ∨ r.head? = some '\n') →
      substr (p ++ '=' :: (q ++ r)) (scanDelim defaultDialect (p ++ '=' :: (q ++ r)) + 1)
        (scanDelim defaultDialect (p ++ '=' :: (q ++ r)) + 1 +
          scanComment defaultDialect ((p ++ '=' :: (q ++ r)).drop
            (scanDelim defaultDialect (p ++ '=' :: (q ++ r)) + 1))) = q := by
    intro p q r hp1 hp2 hq1 hq2 hr
    have e1 := drop_scanDelim_append defaultDialect p (q ++ r) hp1 hp2
    have e2 := scanDelim_append defaultDialect p (q ++ r) hp1 hp2
    have e3 := scanComment_append defaultDialect q r hq1 hq2 hr
    simp only [defaultDialect] at e1 e2 e3 ⊢
    rw [e1, e3]
    unfold substr
    rw [e1, e2]
    simp
  rcases hraw with ⟨b, rfl, hb⟩ | hn
  · rw [strip_append_nl] at hk ⊢
    rw [isKeyLine_append_nl defaultDialect (by decide)] at hk
    obtain ⟨_, p, q, hpq, hp1, hp2, _⟩ := (isKeyLine_iff _ _ _).1 hk
    have hsub : ∀ c, c ∈ q → c ∈ b := fun c hc' =>
      (lstrip_sublist b).subset (by rw [hpq]; simp [hc'])
    have hq1 : ';' ∉ q := fun hm => hc (by simp [hsub _ hm])
    have hq2 : '\n' ∉ q := fun hm => hb (hsub _ hm)
    have e : lstrip b ++ ['\n'] = p ++ '=' :: (q ++ ['\n']) := by rw [hpq]; simp [defaultDialect]
    rw [e, key p q ['\n'] hp1 hp2 hq1 hq2 (Or.inr rfl), view_append_nl]
    refine ⟨hq2, ?_⟩
    have hv : strip b = p ++ '=' :: rstrip q := by
      unfold strip
      rw [hpq]
      exact rstrip_append_cons p '=' q (by decide)
    have e5 : (p ++ '=' :: rstrip q).drop (scanDelim defaultDialect (p ++ '=' :: rstrip q) + 1)
        = rstrip q := drop_scanDelim_append defaultDialect p (rstrip q) hp1 hp2
    rw [hv, e5]
    exact strip_rstrip q
  · have hv : view kl = strip kl := by unfold view; rw [chomp_of_not_mem kl hn]
    rw [hv]
    obtain ⟨_, p, q, hpq, hp1, hp2, _⟩ := (isKeyLine_iff _ _ _).1 hk
    have hsub : ∀ c, c ∈ q → c ∈ kl := fun c hc' =>
      (strip_sublist kl).subset (by rw [hpq]; simp [hc'])
    have hq1 : ';' ∉ q := fun hm => hc (hsub _ hm)
    have hq2 : '\n' ∉ q := fun hm => hn (hsub _ hm)
    have e : strip kl = p ++ '=' :: (q ++ []) := by rw [hpq]; simp [defaultDialect]
    rw [e, key p q [] hp1 hp2 hq1 hq2 (Or.inl rfl)]
    refine ⟨hq2, ?_⟩
    have e5 : (p ++ '=' :: (q ++ [])).drop (scanDelim defaultDialect (p ++ '=' :: (q ++ [])) + 1)
        = q ++ [] := drop_scanDelim_append defaultDialect p (q ++ []) hp1 hp2
    rw [e5, List.append_nil]
    rfl


/-! ## C1: `write`, then `read` -/

/-- C1, as stated, fails, the value holding no delimiter, comment or line
terminator in each case: `read` trims what it returns, so the value `" v"`
comes back as `"v"`; the key `"a=b"` is cut at its delimiter and is not found;
in the file `"[s]\na=1"`, which does not end with a line terminator, the new
line is glued to the last one (`"[s]\na=1k=v\n"`) and is not found; the header
of the section `"a\nb"` is spread over two lines and is not found; the key
`" k"` is compared with its trimmed text and is not found; the line of the key
`"[k"` is taken for a header and that of the key `";k"` for a comment; the
line of the key `"a\nb"` is spread over two lines. -/
theorem write_read_value_not_returned :
    read defaultDialect (write defaultDialect none "s".toList "k".toList " v".toList)
      "s".toList "k".toList [] = .ok "v".toList ∧
    read defaultDialect (write defaultDialect none "s".toList "a=b".toList "v".toList)
      "s".toList "a=b".toList [] = .ok [] ∧
    read defaultDialect (write defaultDialect (some "[s]\na=1".toList) "s".toList "k".toList
      "v".toList) "s".toList "k".toList [] = .ok [] ∧
    read defaultDialect (write defaultDialect none "a\nb".toList "k".toList "v".toList)
      "a\nb".toList "k".toList [] = .ok [] ∧
    read defaultDialect (write defaultDialect none "s".toList " k".toList "v".toList)
      "s".toList " k".toList [] = .ok [] ∧
    read defaultDialect (write defaultDialect none "s".toList "[k".toList "v".toList)
      "s".toList "[k".toList [] = .ok [] ∧
    read defaultDialect (write defaultDialect none "s".toList ";k".toList "v".toList)
      "s".toList ";k".toList [] = .ok [] ∧
    read defaultDialect (write defaultDialect none "s".toList "a\nb".toList "v".toList)
      "s".toList "a\nb".toList [] = .ok [] :=
  ⟨rfl, rfl, rfl, rfl, rfl, rfl, rfl, rfl⟩

/-- C1, amended: under the default dialect, for every file that does not
exist, is empty or ends with a line terminator, every section name without
line terminator, every key without surrounding blanks, without delimiter or
line terminator, that does not start with `'['` or the comment character, and
every value without surrounding blanks that contains no delimiter, comment or
line-terminator character: after `write(f, section, key, value)` the call
`read(f, section, key, "")` returns exactly `value`. -/
theorem write_read_round_trip (file : Option Str) (sect key value : Str)
    (hfile : ∀ content, file = some content → EndsWithNewline content)
    (hsect : defaultDialect.lineterminator ∉ sect)
    (hkey : strip key = key)
    (hkd : defaultDialect.delimiter ∉ key)
    (hkn : defaultDialect.lineterminator ∉ key)
    (hkb : key.head? ≠ some '[')
    (hkc : key.head? ≠ some defaultDialect.commentchar)
    (hvalue : strip value = value)
    (hchars : ∀ c ∈ value, c ≠ defaultDialect.delimiter ∧ c ≠ defaultDialect.commentchar ∧
      c ≠ defaultDialect.lineterminator) :
    read defaultDialect (write defaultDialect file sect key value) sect key [] = .ok value := by
  have hvn : defaultDialect.lineterminator ∉ value := fun hm => (hchars _ hm).2.2 rfl
  have h := read_write hfile hsect hkey hkd hkn hkb hkc value [] hvn
  rw [hvalue] at h
  exact h

/-- C1, amended, at the file `"[a]\nx=1\n"`, the section `net`, the key `port`
and the value `8080`. -/
theorem write_read_round_trip_witness :
    EndsWithNewline "[a]\nx=1\n".toList ∧
    read defaultDialect
      (write defaultDialect (some "[a]\nx=1\n".toList) "net".toList "port".toList "8080".toList)
      "net".toList "port".toList [] = .ok "8080".toList :=
  ⟨Or.inr rfl,
    write_read_round_trip (some "[a]\nx=1\n".toList) "net".toList "port".toList "8080".toList
      (fun _ h => by cases h; exact Or.inr rfl)
      (by decide) (by decide) (by decide) (by decide) (by decide) (by decide) (by decide)
      (by decide)⟩


/-! ## C2: `write` twice -/

/-- C2, as stated, fails under the default dialect with the key `k` and the
value `v`: in the file `"[s]\na=1"`, which does not end with a line terminator,
the first `write` glues the new line to the last one and the second does not
find the key, it adds the line again; the header of the section `"a\nb"` is
spread over two lines, the second `write` does not find the section and adds it
again. -/
theorem write_twice_changes_file :
    write defaultDialect
        (write defaultDialect (some "[s]\na=1".toList) "s".toList "k".toList "v".toList)
        "s".toList "k".toList "v".toList
      ≠ write defaultDialect (some "[s]\na=1".toList) "s".toList "k".toList "v".toList ∧
    write defaultDialect
        (write defaultDialect none "a\nb".toList "k".toList "v".toList)
        "a\nb".toList "k".toList "v".toList
      ≠ write defaultDialect none "a\nb".toList "k".toList "v".toList := by
  decide

/-- C2, amended: under the default dialect, for every file that does not
exist, is empty or ends with a line terminator, every section name without
line terminator, every key without surrounding blanks, without delimiter or
line terminator, that does not start with `'['` or the comment character, and
every value without line terminator (so also for every key and value of the
claim), `write(f, section, key, value)` applied twice leaves the file
byte-identical to the file after the first application. -/
theorem write_idempotent (file : Option Str) (sect key value : Str)
    (hfile : ∀ content, file = some content → EndsWithNewline content)
    (hsect : defaultDialect.lineterminator ∉ sect)
    (hkey : strip key = key)
    (hkd : defaultDialect.delimiter ∉ key)
    (hkn : defaultDialect.lineterminator ∉ key)
    (hkb : key.head? ≠ some '[')
    (hkc : key.head? ≠ some defaultDialect.commentchar)
    (hvn : defaultDialect.lineterminator ∉ value) :
    write defaultDialect (write defaultDialect file sect key value) sect key value =
      write defaultDialect file sect key value :=
  write_write hfile hsect hkey hkd hkn hkb hkc value hvn

/-- C2, amended, at the file `"[net]\nhost=a\n\n[log]\n"`, the section `net`,
the key `port` and the value `8080`. -/
theorem write_idempotent_witness :
    EndsWithNewline "[net]\nhost=a\n\n[log]\n".toList ∧
    write defaultDialect
        (write defaultDialect (some "[net]\nhost=a\n\n[log]\n".toList) "net".toList
          "port".toList "8080".toList)
        "net".toList "port".toList "8080".toList
      = write defaultDialect (some "[net]\nhost=a\n\n[log]\n".toList) "net".toList
          "port".toList "8080".toList :=
  ⟨Or.inr rfl,
    write_idempotent (some "[net]\nhost=a\n\n[log]\n".toList) "net".toList "port".toList
      "8080".toList (fun _ h => by cases h; exact Or.inr rfl)
      (by decide) (by decide) (by decide) (by decide) (by decide) (by decide) (by decide)⟩


/-! ## C3: the reference definition of `read` -/

/-- C3: for every existing file, `read(f, s, k, d)` does not fail, and its
result is that of the reference definition with first-match semantics
(`readSpec`): `d` when no trimmed line starts with `"[s]"`; otherwise the
trimmed text after the first delimiter of the first key line for `k` among the
lines after the first such header and before the next line that starts with
`'['`, and `d` when there is none, whatever comes later in the file. -/
theorem read_eq_readSpec (content sect key default_value : Str) :
    read defaultDialect (some content) sect key default_value
      = .ok (readSpec defaultDialect content sect key default_value) := by
  unfold read readSpec
  simp only
  congr 1
  exact readLoop_file defaultDialect sect key default_value (getlines content)
    (getlines_not_mem content)


/-! ## C4: `write` and the other settings -/

/-- C4, as stated, fails under the default dialect: in the file `"[s]\na=1"`,
which does not end with a line terminator, `write(f, "s", "k", "v")` glues the
new line to the last one and `read(f, "s", "a", "d")` returns `"1k=v"` instead
of `"1"`; the section name `"\nx=1\n[q"` holds no `']'`, its header is spread
over three lines and `read(f, "q", "k", "d")` returns `"v"` instead of `"d"`;
on a file that does not exist `read` fails before `write` and returns the
default after it. -/
theorem write_disturbs_other_setting :
    (read defaultDialect (some "[s]\na=1".toList) "s".toList "a".toList "d".toList
        = .ok "1".toList ∧
      read defaultDialect
        (write defaultDialect (some "[s]\na=1".toList) "s".toList "k".toList "v".toList)
        "s".toList "a".toList "d".toList = .ok "1k=v".toList) ∧
    (read defaultDialect (some "[t]\n".toList) "q".toList "k".toList "d".toList
        = .ok "d".toList ∧
      read defaultDialect
        (write defaultDialect (some "[t]\n".toList) "\nx=1\n[q".toList "k".toList "v".toList)
        "q".toList "k".toList "d".toList = .ok "v".toList) ∧
    (read defaultDialect none "q".toList "k".toList "d".toList = .error Error.cannotOpen ∧
      read defaultDialect (write defaultDialect none "s".toList "k".toList "v".toList)
        "q".toList "k".toList "d".toList = .ok "d".toList) :=
  ⟨⟨rfl, rfl⟩, ⟨rfl, rfl⟩, ⟨rfl, rfl⟩⟩

/-- C4, amended: under the default dialect, for every existing file that is
empty or ends with a line terminator, every target with a section `s` without
`']'` and without line terminator, a key `k` without surrounding blanks, not
starting with `'['` and without delimiter or line terminator (it need not be
non-empty), and a value `v` without line terminator, and every other pair
`(s', k')` different from `(s, k)` with `s'` containing no `']'`:
`read(f, s', k', d)` returns the same result after `write(f, s, k, v)` as
before it, for every default `d`. -/
theorem write_preserves_other_setting (content sect key value sect' key' default_value : Str)
    (hfile : EndsWithNewline content)
    (hsb : ']' ∉ sect)
    (hsn : defaultDialect.lineterminator ∉ sect)
    (hkey : strip key = key)
    (hkb : key.head? ≠ some '[')
    (hkd : defaultDialect.delimiter ∉ key)
    (hkn : defaultDialect.lineterminator ∉ key)
    (hvn : defaultDialect.lineterminator ∉ value)
    (hne : (sect', key') ≠ (sect, key))
    (hsb' : ']' ∉ sect') :
    read defaultDialect (write defaultDialect (some content) sect key value) sect' key'
        default_value
      = read defaultDialect (some content) sect' key' default_value := by
  have hf : ∀ c, some content = some c → EndsWithNewline c := fun c h => by cases h; exact hfile
  have hne' : sect' ≠ sect ∨ key' ≠ key := by
    by_contra hc
    simp only [not_or, not_not] at hc
    exact hne (by rw [hc.1, hc.2])
  obtain ⟨out, e1, e2⟩ := rawLines_write (v := value) hf hsn hkn hvn
  rw [e1, read_eq_readRaw, e2, read_eq_readRaw]
  congr 1
  exact readRaw_writeFile_other hsb hsn hsb' hkey hkd hkn hkb hne' value default_value hvn _
    (rawLines_terminated hfile) false

/-- C4, amended, at the file `"[net]\nhost=a\n[log]\nlevel=3\n"`, the target
`(net, port)` with the value `8080` and the other setting `(log, level)`. -/
theorem write_preserves_other_setting_witness :
    EndsWithNewline "[net]\nhost=a\n[log]\nlevel=3\n".toList ∧
    ("log".toList, "level".toList) ≠ ("net".toList, "port".toList) ∧
    read defaultDialect
        (write defaultDialect (some "[net]\nhost=a\n[log]\nlevel=3\n".toList) "net".toList
          "port".toList "8080".toList)
        "log".toList "level".toList "0".toList
      = read defaultDialect (some "[net]\nhost=a\n[log]\nlevel=3\n".toList) "log".toList
          "level".toList "0".toList :=
  ⟨Or.inr rfl, by decide,
    write_preserves_other_setting "[net]\nhost=a\n[log]\nlevel=3\n".toList "net".toList
      "port".toList "8080".toList "log".toList "level".toList "0".toList (Or.inr rfl)
      (by decide) (by decide) (by decide) (by decide) (by decide) (by decide) (by decide)
      (by decide) (by decide)⟩


/-! ## C5: what `key_delete` keeps of the lines outside the section -/

/-- C5, as stated, fails: `key_delete(f, "s", "k")` succeeds on the file
`" [a]\nx=1\n[s]\nk=1\n"` and writes `"[a]\nx=1\n[s]\n"`; the line `" [a]\n"`
of the section `a` has lost its leading blank, it is no line of the output. -/
theorem key_delete_strips_other_sections :
    key_delete defaultDialect (some " [a]\nx=1\n[s]\nk=1\n".toList) "s".toList "k".toList
      = ⟨none, some "[a]\nx=1\n[s]\n".toList⟩ ∧
    " [a]\n".toList ∈ rawLines " [a]\nx=1\n[s]\nk=1\n".toList ∧
    " [a]\n".toList ∉ rawLines "[a]\nx=1\n[s]\n".toList := by
  decide

/-- C5, amended: for every file and every successful `key_delete(f, s, k)`,
cut the lines of the file into the lines `pre` before the first header `h` of
`s`, the lines `body` of that section and the lines `post` from the next header
on.  The output is the lines of `pre`, the header `h` and the lines of `post`,
in the same order, each one stripped (`strip`: without its leading blanks, and
without its trailing blanks when the line has no terminator) and otherwise
byte-identical, with lines taken from the stripped `body` between `h` and
`post`. -/
theorem key_delete_keeps_stripped_outside (d : Dialect) (content sect key : Str)
    (hok : (key_delete d (some content) sect key).error = none)
    (pre : List Str) (h : Str) (body post : List Str)
    (hcut : rawLines content = pre ++ h :: (body ++ post))
    (hpre : ∀ l ∈ pre, isHeader sect l = false)
    (hh : isHeader sect h = true)
    (hbody : ∀ l ∈ body, (strip l).head? ≠ some '[')
    (hpost : post = [] ∨ ∃ p ps, post = p :: ps ∧ (strip p).head? = some '[') :
    ∃ body' : List Str, body'.Sublist (body.map strip) ∧
      (key_delete d (some content) sect key).file =
        some ((pre.map strip).flatten ++ strip h ++ body'.flatten ++ (post.map strip).flatten) := by
  simp only [key_delete] at hok ⊢
  cases hr : keyDeleteLoop d (searchedWord sect) key false false false (rawLines content) with
  | error e => rw [hr] at hok; simp at hok
  | ok r =>
    rw [hr] at hok
    simp only at hok ⊢
    split at hok
    · simp at hok
    · next hfound =>
      rw [if_neg hfound]
      rw [hcut] at hr
      obtain ⟨r', h2, e1, _⟩ := keyDeleteLoop_before d sect key h (body ++ post) hh pre false r hpre hr
      obtain ⟨body', hs, e3⟩ := keyDeleteLoop_section d (searchedWord sect) key post hpost body true r' hbody h2
      refine ⟨body', hs, ?_⟩
      simp [installTemp, e1, e3]

/-- C5, amended, at the file `" [a]\nx=1\n[s]\nk=1\n  [b]\n"`, the section `s`
and the key `k`. -/
theorem key_delete_keeps_stripped_outside_witness :
    ((key_delete defaultDialect (some " [a]\nx=1\n[s]\nk=1\n  [b]\n".toList) "s".toList
        "k".toList).error = none ∧
      rawLines " [a]\nx=1\n[s]\nk=1\n  [b]\n".toList
        = [" [a]\n".toList, "x=1\n".toList] ++ "[s]\n".toList ::
          (["k=1\n".toList] ++ ["  [b]\n".toList])) ∧
    ∃ body' : List Str, body'.Sublist (["k=1\n".toList].map strip) ∧
      (key_delete defaultDialect (some " [a]\nx=1\n[s]\nk=1\n  [b]\n".toList) "s".toList
        "k".toList).file =
        some (([" [a]\n".toList, "x=1\n".toList].map strip).flatten ++ strip "[s]\n".toList ++
          body'.flatten ++ (["  [b]\n".toList].map strip).flatten) :=
  ⟨⟨by decide, by decide⟩,
    key_delete_keeps_stripped_outside defaultDialect " [a]\nx=1\n[s]\nk=1\n  [b]\n".toList
      "s".toList "k".toList (by decide) [" [a]\n".toList, "x=1\n".toList] "[s]\n".toList
      ["k=1\n".toList] ["  [b]\n".toList] (by decide) (by decide) (by decide) (by decide)
      (Or.inr ⟨"  [b]\n".toList, [], rfl, by decide⟩)⟩


/-! ## C6: a failing call leaves the file as it was -/

/-- C6: whenever `section_delete`, `key_delete` or `key_rename` fails - the
source file is missing, the section or the key is not found, or the new key
already exists - the content of the file after the call is its content before
the call (a missing file is still missing). -/
theorem failed_call_leaves_file (d : Dialect) (file : Option Str) (sect key new_key : Str)
    (o : Outcome)
    (hcall : o = section_delete d file sect ∨ o = key_delete d file sect key ∨
      o = key_rename d file sect key new_key)
    (hfail : o.error ≠ none) : o.file = file := by
  cases file with
  | none =>
    rcases hcall with rfl | rfl | rfl <;> rfl
  | some content =>
    rcases hcall with rfl | rfl | rfl
    · simp only [section_delete] at hfail ⊢
      split
      · rfl
      · next h => rw [if_neg h] at hfail; simp at hfail
    · simp only [key_delete] at hfail ⊢
      split
      · rfl
      · split
        · rfl
        · next heq h => rw [heq] at hfail; simp only [if_neg h] at hfail; simp at hfail
    · simp only [key_rename] at hfail ⊢
      split
      · rfl
      · split
        · rfl
        · next heq h => rw [heq] at hfail; simp only [if_neg h] at hfail; simp at hfail

/-- C6 at the file `"[a]\nx=1\n[b]\n"`, where `key_delete(f, "a", "k")` fails
with the error of the missing key. -/
theorem failed_call_leaves_file_witness :
    (key_delete defaultDialect (some "[a]\nx=1\n[b]\n".toList) "a".toList "k".toList).error
      = some Error.keyNotFound ∧
    (key_delete defaultDialect (some "[a]\nx=1\n[b]\n".toList) "a".toList "k".toList).file
      = some "[a]\nx=1\n[b]\n".toList :=
  ⟨by decide,
    failed_call_leaves_file defaultDialect (some "[a]\nx=1\n[b]\n".toList) "a".toList
      "k".toList "z".toList _ (Or.inr (Or.inl rfl)) (by decide)⟩


/-! ## C7: `section_rename` when the section is missing -/

/-- C7 fails on the code: on the file `"  x=1\n"`, which has no header of
`old`, `section_rename(f, "old", "new")` throws the error of the missing
section after it has replaced the file: the content is `"x=1\n"` afterwards,
the leading blanks of the line are gone. -/
theorem section_rename_replaces_before_not_found :
    section_rename defaultDialect (some "  x=1\n".toList) "old".toList "new".toList
      = ⟨some Error.sectionNotFound, some "x=1\n".toList⟩ := by
  decide


/-! ## C8: `section_rename`, then `section_exists` -/

/-- C8, as stated, fails: the name `"x\n[s"` holds no `']'`, the call
`section_rename(f, "s", "x\n[s")` succeeds on the file `"[s]\n"` and writes
`"[x\n[s]\n"`, whose second line is a header of `s`: afterwards
`section_exists(f, "s")` is true and `section_exists(f, "x\n[s")` is false. -/
theorem section_rename_newline_in_name :
    "s".toList ≠ "x\n[s".toList ∧ ']' ∉ "x\n[s".toList ∧
    (section_rename defaultDialect (some "[s]\n".toList) "s".toList "x\n[s".toList).error = none ∧
    section_exists defaultDialect
      (section_rename defaultDialect (some "[s]\n".toList) "s".toList "x\n[s".toList).file
      "s".toList = .ok true ∧
    section_exists defaultDialect
      (section_rename defaultDialect (some "[s]\n".toList) "s".toList "x\n[s".toList).file
      "x\n[s".toList = .ok false :=
  ⟨by decide, by decide, rfl, rfl, rfl⟩

/-- C8, amended: under the default dialect (under every dialect whose line
terminator is `'\n'`), for every file and all distinct section names `a` and
`b` where `b` contains neither `']'` nor `'\n'`, if `section_rename(f, a, b)`
succeeds then afterwards `section_exists(f, a)` is false and
`section_exists(f, b)` is true. -/
theorem section_rename_round_trip (d : Dialect) (hd : d.lineterminator = '\n')
    (file : Option Str) (a b : Str) (hab : a ≠ b) (hb : ']' ∉ b) (hnl : '\n' ∉ b)
    (hok : (section_rename d file a b).error = none) :
    section_exists d (section_rename d file a b).file a = .ok false ∧
    section_exists d (section_rename d file a b).file b = .ok true := by
  cases file with
  | none => simp [section_rename] at hok
  | some content =>
    simp only [section_rename] at hok ⊢
    cases h : sectionRenameLoop d (searchedWord a) (searchedWord b) false (rawLines content) with
    | error e => rw [h] at hok; simp at hok
    | ok r =>
      rw [h] at hok
      simp only at hok ⊢
      split at hok
      · simp at hok
      · next hfound =>
        rw [if_neg hfound]
        obtain ⟨e1, e2⟩ := sectionRenameLoop_ok d a b (rawLines content) false r h
        rw [hd] at e1
        simp only [installTemp, e1]
        have hll := (lineList_rawLines content).map_rename a b hnl
        rw [section_exists_flatten d a hll, section_exists_flatten d b hll]
        constructor
        · congr 1
          rw [List.any_eq_false]
          intro o ho
          obtain ⟨l, _, rfl⟩ := List.mem_map.1 ho
          by_cases hl : isHeader a l = true
          · rw [if_pos hl, isHeader_newHeader_other hab hb]; simp
          · rw [if_neg hl, isHeader_lstrip]; exact hl
        · congr 1
          have hany : (rawLines content).any (isHeader a) = true := by
            simpa [e2] using hfound
          obtain ⟨l, hl, hla⟩ := List.any_eq_true.1 hany
          rw [List.any_eq_true]
          refine ⟨searchedWord b ++ ['\n'], ?_, isHeader_newHeader_self b⟩
          exact List.mem_map.2 ⟨l, hl, by rw [if_pos hla]⟩

/-- C8, amended, at the file `"[a]\nx=1\n"` and the names `a` and `b`. -/
theorem section_rename_round_trip_witness :
    defaultDialect.lineterminator = '\n' ∧ "a".toList ≠ "b".toList ∧
    ']' ∉ "b".toList ∧ '\n' ∉ "b".toList ∧
    (section_rename defaultDialect (some "[a]\nx=1\n".toList) "a".toList "b".toList).error
      = none ∧
    section_exists defaultDialect
      (section_rename defaultDialect (some "[a]\nx=1\n".toList) "a".toList "b".toList).file
      "a".toList = .ok false ∧
    section_exists defaultDialect
      (section_rename defaultDialect (some "[a]\nx=1\n".toList) "a".toList "b".toList).file
      "b".toList = .ok true :=
  ⟨rfl, by decide, by decide, by decide, by decide,
    section_rename_round_trip defaultDialect rfl (some "[a]\nx=1\n".toList) "a".toList
      "b".toList (by decide) (by decide) (by decide) (by decide)⟩


/-! ## C9: `section_delete`, then `section_exists` -/

/-- C9, as stated, fails: in the file `"[s]\n[s]\n"` the second header ends the
section that `section_delete` removes and is copied without being tested, so
`section_delete(f, "s")` succeeds and `section_exists(f, "s")` is still true. -/
theorem section_delete_leaves_adjacent_header :
    (section_delete defaultDialect (some "[s]\n[s]\n".toList) "s".toList).error = none ∧
    section_exists defaultDialect
      (section_delete defaultDialect (some "[s]\n[s]\n".toList) "s".toList).file "s".toList
      = .ok true :=
  ⟨rfl, rfl⟩

/-- C9, amended: for every file in which at most one line is a header of the
section `s`, if `section_delete(f, s)` succeeds then `section_exists(f, s)` is
false afterwards. -/
theorem section_delete_unique_then_absent (d : Dialect) (file : Option Str) (sect : Str)
    (huniq : (linesOf file).countP (isHeader sect) ≤ 1)
    (hok : (section_delete d file sect).error = none) :
    section_exists d (section_delete d file sect).file sect = .ok false := by
  cases file with
  | none => simp [section_delete] at hok
  | some content =>
    simp only [linesOf, countP_getlines] at huniq
    simp only [section_delete] at hok ⊢
    split at hok
    · simp at hok
    · next hfound =>
      rw [if_neg hfound]
      simp only [installTemp]
      have hll : LineList
          (sectionDeleteLoop (searchedWord sect) false false (rawLines content)).1 :=
        ((lineList_rawLines content).map_strip).sublist (sectionDeleteLoop_sublist _ _ _ _)
      rw [section_exists_flatten d sect hll]
      congr 1
      rw [List.any_eq_false]
      intro o ho
      have := sectionDeleteLoop_no_header sect (rawLines content) false false
        (fun _ => huniq) (by simp) o ho
      simp [this]

/-- C9, amended, at the file `"[a]\nx=1\n[b]\ny=2\n"` and the section `a`. -/
theorem section_delete_unique_then_absent_witness :
    (linesOf (some "[a]\nx=1\n[b]\ny=2\n".toList)).countP (isHeader "a".toList) ≤ 1 ∧
    (section_delete defaultDialect (some "[a]\nx=1\n[b]\ny=2\n".toList) "a".toList).error = none ∧
    section_exists defaultDialect
      (section_delete defaultDialect (some "[a]\nx=1\n[b]\ny=2\n".toList) "a".toList).file
      "a".toList = .ok false :=
  ⟨by decide, by decide,
    section_delete_unique_then_absent defaultDialect (some "[a]\nx=1\n[b]\ny=2\n".toList)
      "a".toList (by decide) (by decide)⟩


/-! ## C10: `key_delete` when the key is missing -/

/-- C10 fails on the code: in the file `"[net]\n"` the section `net` exists and
holds no key `port`, it is the last section of the file, and
`key_delete(f, "net", "port")` ends without an error (the file is rewritten
with the same content): the missing key is reported only when another header
follows the section. -/
theorem key_delete_last_section_no_error :
    section_exists defaultDialect (some "[net]\n".toList) "net".toList = .ok true ∧
    key_exists defaultDialect (some "[net]\n".toList) "net".toList "port".toList = .ok false ∧
    key_delete defaultDialect (some "[net]\n".toList) "net".toList "port".toList
      = ⟨none, some "[net]\n".toList⟩ :=
  ⟨rfl, rfl, by decide⟩


/-! ## C11: `key_rename` and a key that exists already -/

/-- C11 fails on the code: in the file `"[s]\na=1\nb=2\n"` the section `s`
holds a line of the key `b` after the line of the key `a`, and
`key_rename(f, "s", "a", "b")` ends without an error and writes
`"[s]\nb=1\nb=2\n"`, with the key `b` twice: once the old key is found the
lines that follow are copied without being tested.  With the line of `b` before
the line of `a` the call fails as the claim says. -/
theorem key_rename_duplicates_later_key :
    key_rename defaultDialect (some "[s]\na=1\nb=2\n".toList) "s".toList "a".toList "b".toList
      = ⟨none, some "[s]\nb=1\nb=2\n".toList⟩ ∧
    key_rename defaultDialect (some "[s]\nb=2\na=1\n".toList) "s".toList "a".toList "b".toList
      = ⟨some Error.keyAlreadyExists, some "[s]\nb=2\na=1\n".toList⟩ := by
  decide


/-! ## C12: `section_rename` to a name that exists -/

/-- C12: for all distinct section names `old` and `new` that contain no `']'`
and every file that has a header line of the section `new`,
`section_rename(f, old, new)` fails with the error of the section that exists
already, whether or not `old` exists and whichever header comes first, and the
content of the file is unchanged. -/
theorem section_rename_existing_target_fails (d : Dialect) (file : Option Str)
    (old new : Str) (hne : old ≠ new) (hold : ']' ∉ old) (hnew : ']' ∉ new)
    (hexists : section_exists d file new = .ok true) :
    section_rename d file old new = ⟨some Error.sectionAlreadyExists, file⟩ := by
  cases file with
  | none => simp [section_exists] at hexists
  | some content =>
    rw [section_exists_eq] at hexists
    have hany : (rawLines content).any (isHeader new) = true := by
      simpa using hexists
    simp only [section_rename]
    rw [sectionRenameLoop_exists d hne hold hnew (rawLines content) hany false]

/-- C12 at the file `"[b]\nx=1\n[a]\n"`, renaming `a` to `b`. -/
theorem section_rename_existing_target_fails_witness :
    section_exists defaultDialect (some "[b]\nx=1\n[a]\n".toList) "b".toList = .ok true ∧
    section_rename defaultDialect (some "[b]\nx=1\n[a]\n".toList) "a".toList "b".toList
      = ⟨some Error.sectionAlreadyExists, some "[b]\nx=1\n[a]\n".toList⟩ :=
  ⟨rfl,
    section_rename_existing_target_fails defaultDialect (some "[b]\nx=1\n[a]\n".toList)
      "a".toList "b".toList (by decide) (by decide) (by decide) rfl⟩


/-! ## C13: `section_delete` and `section_exists` -/

/-- C13: for every existing file and section name `s`, `section_delete(f, s)`
fails with the error of the missing section if and only if
`section_exists(f, s)` is false. -/
theorem section_delete_not_found_iff (d : Dialect) (content sect : Str) :
    (section_delete d (some content) sect).error = some Error.sectionNotFound ↔
      section_exists d (some content) sect = .ok false := by
  rw [section_exists_eq]
  simp only [section_delete, sectionDeleteLoop_found]
  cases h : (rawLines content).any (isHeader sect) <;> simp [installTemp]


/-! ## C14: `write` on a missing or empty file -/

/-- C14 fails on the code: on an empty file, and on a file that does not
exist, `write(f, "net", "port", "8080")` leaves `"\n[net]\nport=8080\n"`: an
empty line stands before the header, the content is not `"[net]\nport=8080\n"`. -/
theorem write_empty_file_starts_with_blank_line :
    write defaultDialect (some []) "net".toList "port".toList "8080".toList
      = some "\n[net]\nport=8080\n".toList ∧
    write defaultDialect none "net".toList "port".toList "8080".toList
      = some "\n[net]\nport=8080\n".toList ∧
    "\n[net]\nport=8080\n".toList ≠ "[net]\nport=8080\n".toList := by
  decide


/-! ## C15: `read` and a trailing comment -/

/-- C15 fails on the code: in the file `"[s]\na = 1 ; c\n"` the line of the key
`a` is `key + delimiter + value + comment_char + comment`, and
`read(f, "s", "a", "d")` returns `"1 ; c"`, the comment character and the
comment included, not the value `"1"`. -/
theorem read_keeps_trailing_comment :
    read defaultDialect (some "[s]\na = 1 ; c\n".toList) "s".toList "a".toList "d".toList
      = .ok "1 ; c".toList ∧
    "1 ; c".toList ≠ "1".toList :=
  ⟨rfl, by decide⟩


/-! ## C16: what `section_exists` finds -/

/-- C16: for every existing file and every section name `s` that contains no
`']'` and no comment character, `section_exists(f, s)` is true if and only if
some line of the file is a section header named `s` in the sense of the
reference definition `isHeaderSpec`: after removing a trailing comment and
surrounding whitespace the line starts with `'['` and the text up to the first
`']'` is `s`. -/
theorem section_exists_iff_header_line (content sect : Str) (hs : ']' ∉ sect)
    (hsc : defaultDialect.commentchar ∉ sect) :
    section_exists defaultDialect (some content) sect = .ok true ↔
      ∃ l ∈ getlines content, isHeaderSpec defaultDialect sect l = true := by
  unfold section_exists
  simp only [Except.ok.injEq, List.any_eq_true]
  constructor
  · rintro ⟨l, hl, h⟩
    refine ⟨l, hl, ?_⟩
    rw [← isHeader_eq_isHeaderSpec defaultDialect (by decide) (by decide) (by decide) hs hsc]
    exact h
  · rintro ⟨l, hl, h⟩
    refine ⟨l, hl, ?_⟩
    rw [← isHeader_eq_isHeaderSpec defaultDialect (by decide) (by decide) (by decide) hs hsc] at h
    exact h

/-- C16 at the file `"x=1\n  [net] ; the network\n"` and the name `net`. -/
theorem section_exists_iff_header_line_witness :
    ']' ∉ "net".toList ∧ defaultDialect.commentchar ∉ "net".toList ∧
    (section_exists defaultDialect (some "x=1\n  [net] ; the network\n".toList) "net".toList
        = .ok true ↔
      ∃ l ∈ getlines "x=1\n  [net] ; the network\n".toList,
        isHeaderSpec defaultDialect "net".toList l = true) :=
  ⟨by decide, by decide,
    section_exists_iff_header_line "x=1\n  [net] ; the network\n".toList "net".toList
      (by decide) (by decide)⟩


/-! ## C17: `key_exists` and `read` -/

/-- C17: for every existing file, section `s` and key `k`,
`key_exists(f, s, k)` is false if and only if `read(f, s, k, d)` returns `d`
for every default `d`; and `key_exists(f, s, k)` is true if and only if `read`
returns one value, taken from the file, whatever the default is. -/
theorem key_exists_iff_read (d : Dialect) (content sect key : Str) :
    (key_exists d (some content) sect key = .ok false ↔
      ∀ dv, read d (some content) sect key dv = .ok dv) ∧
    (key_exists d (some content) sect key = .ok true ↔
      ∃ v, ∀ dv, read d (some content) sect key dv = .ok v) := by
  have hk : key_exists d (some content) sect key
      = .ok ((keyExistsLoop d (searchedWord sect) key false (getlines content)).getD false) :=
    rfl
  have hr : ∀ dv, read d (some content) sect key dv
      = .ok ((readLoop d (searchedWord sect) key dv false (getlines content)).getD dv) :=
    fun _ => rfl
  have hne : ∀ v : Str, 'x' :: v ≠ v := fun v h => by
    have := congrArg List.length h
    simp at this
  rcases keyExistsLoop_readLoop d (searchedWord sect) key (getlines content) false with
    ⟨h1, v, h2⟩ | ⟨h1, h2⟩ | ⟨h1, h2⟩
  · refine ⟨⟨fun h => ?_, fun h => ?_⟩, ⟨fun _ => ⟨v, fun dv => ?_⟩, fun _ => ?_⟩⟩
    · rw [hk, h1] at h; cases h
    · have h3 := h ('x' :: v)
      rw [hr, h2] at h3
      simp only [Option.getD_some, Except.ok.injEq] at h3
      exact absurd h3.symm (hne v)
    · rw [hr, h2]; rfl
    · rw [hk, h1]; rfl
  · refine ⟨⟨fun _ dv => ?_, fun _ => ?_⟩, ⟨fun h => ?_, fun h => ?_⟩⟩
    · rw [hr, h2]; rfl
    · rw [hk, h1]; rfl
    · rw [hk, h1] at h; cases h
    · obtain ⟨v, hv⟩ := h
      have h3 := hv ('x' :: v)
      rw [hr, h2] at h3
      simp only [Option.getD_some, Except.ok.injEq] at h3
      exact absurd h3 (hne v)
  · refine ⟨⟨fun _ dv => ?_, fun _ => ?_⟩, ⟨fun h => ?_, fun h => ?_⟩⟩
    · rw [hr, h2]; rfl
    · rw [hk, h1]; rfl
    · rw [hk, h1] at h; cases h
    · obtain ⟨v, hv⟩ := h
      have h3 := hv ('x' :: v)
      rw [hr, h2] at h3
      simp only [Option.getD_none, Except.ok.injEq] at h3
      exact absurd h3 (hne v)


/-! ## C18: `write` of a section that is missing -/

/-- C18, as stated, fails: the file `"[a]\nx=1"` is not empty, its lines carry
no surrounding blanks and none is a header of `s`, but its last line has no
terminator; `write(f, "s", "k", "v")` leaves `"[a]\nx=1\n[s]\nk=v\n"`, where the
`'\n'` printed before the header ends the line `x=1`: no empty line stands
between the lines of the input and the header.  With the section name `"a\nb"`
the header is not one line of the output, and with the key `"a\nb"` or the
value `"1\n2"` the text `k + delimiter + v` is not one line of it. -/
theorem write_missing_section_without_blank_line :
    (write defaultDialect (some "[a]\nx=1".toList) "s".toList "k".toList "v".toList
        = some "[a]\nx=1\n[s]\nk=v\n".toList ∧
      ['\n'] ∉ rawLines "[a]\nx=1\n[s]\nk=v\n".toList) ∧
    (write defaultDialect (some "x=1\n".toList) "a\nb".toList "k".toList "v".toList
        = some "x=1\n\n[a\nb]\nk=v\n".toList ∧
      "[a\nb]\n".toList ∉ rawLines "x=1\n\n[a\nb]\nk=v\n".toList) ∧
    (write defaultDialect (some "x=1\n".toList) "s".toList "a\nb".toList "v".toList
        = some "x=1\n\n[s]\na\nb=v\n".toList ∧
      "a\nb=v\n".toList ∉ rawLines "x=1\n\n[s]\na\nb=v\n".toList) ∧
    (write defaultDialect (some "x=1\n".toList) "s".toList "k".toList "1\n2".toList
        = some "x=1\n\n[s]\nk=1\n2\n".toList ∧
      "k=1\n2\n".toList ∉ rawLines "x=1\n\n[s]\nk=1\n2\n".toList) := by
  decide

/-- C18, amended: under the default dialect, for every non-empty file that
ends with a line terminator (its last character is `'\n'`), whose lines carry
no surrounding blanks and in which no line is a header of `s`, with `s`, `k`
and `v` holding no line terminator: the output of `write(f, s, k, v)` is the input followed by
`"\n[s]\n"` and `k + delimiter + v + "\n"`, and its lines are the lines of the
input in their original order followed by exactly one empty line, the line
`"[s]"` and the line `k + delimiter + v`. -/
theorem write_appends_missing_section (content sect key value : Str)
    (hlast : content.getLast? = some '\n')
    (hclean : ∀ l ∈ getlines content, strip l = l)
    (hno : section_exists defaultDialect (some content) sect = .ok false)
    (hs : defaultDialect.lineterminator ∉ sect)
    (hk : defaultDialect.lineterminator ∉ key)
    (hv : defaultDialect.lineterminator ∉ value) :
    ∃ out, write defaultDialect (some content) sect key value = some out ∧
      out = content ++ ('\n' :: (searchedWord sect ++ '\n' :: keyLine defaultDialect key value)) ∧
      rawLines out = rawLines content ++
        [['\n'], searchedWord sect ++ ['\n'], keyLine defaultDialect key value] := by
  have hfile : EndsWithNewline content := Or.inr hlast
  rw [section_exists_eq] at hno
  have hnone : ∀ l ∈ rawLines content, isHeader sect l = false := by
    have h : (rawLines content).any (isHeader sect) = false := by simpa using hno
    exact fun l hl => by
      cases hh : isHeader sect l with
      | false => rfl
      | true =>
        have : (rawLines content).any (isHeader sect) = true := List.any_eq_true.2 ⟨l, hl, hh⟩
        rw [h] at this; cases this
  have hw : writeFile defaultDialect sect key value (rawLines content) =
      rawLines content ++ [['\n'], searchedWord sect ++ ['\n'], keyLine defaultDialect key value] := by
    rw [writeFile_no_header defaultDialect sect key value _ hnone,
      map_strip_of_clean fun l hl => strip_rawLine_of_clean hclean hl]
  have hterm : ∀ l ∈ rawLines content ++
      [['\n'], searchedWord sect ++ ['\n'], keyLine defaultDialect key value], Terminated l := by
    intro l hl
    rcases List.mem_append.1 hl with h | h
    · exact rawLines_terminated hfile l h
    · simp only [List.mem_cons, List.mem_singleton, List.not_mem_nil, or_false] at h
      rcases h with rfl | rfl | rfl
      · exact terminated_singleton
      · exact terminated_searchedWord hs
      · exact terminated_keyLine hk hv
  refine ⟨_, write_eq defaultDialect (some content) sect key value, ?_, ?_⟩
  · simp only [writeInput]
    rw [hw, List.flatten_append, rawLines_flatten]
    simp
  · simp only [writeInput]
    rw [hw, rawLines_flatten_of_terminated hterm]

/-- C18, amended, at the file `"[a]\nx=1\n"`, the section `s`, the key `k` and
the value `v`. -/
theorem write_appends_missing_section_witness :
    "[a]\nx=1\n".toList.getLast? = some '\n' ∧
    ∃ out, write defaultDialect (some "[a]\nx=1\n".toList) "s".toList "k".toList "v".toList
        = some out ∧
      out = "[a]\nx=1\n".toList ++
        ('\n' :: (searchedWord "s".toList ++ '\n' :: keyLine defaultDialect "k".toList "v".toList)) ∧
      rawLines out = rawLines "[a]\nx=1\n".toList ++
        [['\n'], searchedWord "s".toList ++ ['\n'], keyLine defaultDialect "k".toList "v".toList] :=
  ⟨rfl,
    write_appends_missing_section "[a]\nx=1\n".toList "s".toList "k".toList "v".toList
      rfl (by decide) rfl (by decide) (by decide) (by decide)⟩


/-! ## C19: `write` of a key that is missing, before the next header -/

/-- C19: under the default dialect, take a file whose lines carry no
surrounding blanks and cut its lines into the lines `pre` before the first
header `h` of `s`, the lines `body` of that section up to its last line that
is not empty (none of them a line of the key `k`), the run `blanks` of empty
lines that follows and the next header `nh` with the lines `post` after it.
The output of `write(f, s, k, v)` is the input with the one line
`k + delimiter + v` put right after `body`, that is after the last line of the
section that is not empty, so that the run of empty lines stays between the
new line and the next header; nothing else changes. -/
theorem write_inserts_key_before_blank_run (content sect key value : Str)
    (pre : List Str) (h : Str) (body blanks : List Str) (nh : Str) (post : List Str)
    (hclean : ∀ l ∈ getlines content, strip l = l)
    (hcut : rawLines content = pre ++ h :: (body ++ (blanks ++ nh :: post)))
    (hpre : ∀ l ∈ pre, isHeader sect l = false)
    (hh : isHeader sect h = true)
    (hbody : ∀ l ∈ body, (strip l).head? ≠ some '[' ∧
      isKeyLine defaultDialect key (strip l) = false)
    (hlast : body.getLast? ≠ some ['\n'])
    (hblanks : ∀ l ∈ blanks, l = ['\n'])
    (hnh : (strip nh).head? = some '[') :
    content = (pre ++ h :: body).flatten ++ (blanks ++ nh :: post).flatten ∧
    write defaultDialect (some content) sect key value =
      some ((pre ++ h :: body).flatten ++ keyLine defaultDialect key value ++
        (blanks ++ nh :: post).flatten) := by
  have hmem : ∀ l, l ∈ pre ++ h :: (body ++ (blanks ++ nh :: post)) → l ∈ rawLines content :=
    fun l hl => by rw [hcut]; exact hl
  have hc : ∀ l ∈ pre ++ h :: (body ++ (blanks ++ nh :: post)), strip l = l :=
    fun l hl => strip_rawLine_of_clean hclean (hmem l hl)
  have hcpre : ∀ l ∈ pre, strip l = l := fun l hl => hc l (by simp [hl])
  have hcbody : ∀ l ∈ body, strip l = l := fun l hl => hc l (by simp [hl])
  have hcpost : ∀ l ∈ post, strip l = l := fun l hl => hc l (by simp [hl])
  have hch : strip h = h := hc h (by simp)
  have hcnh : strip nh = nh := hc nh (by simp)
  have hbl : ∀ l ∈ body, (strip l).head? = some '\n' → l = ['\n'] :=
    fun l hl hb => rawLine_blank_of_clean hclean (hmem l (by simp [hl])) hb
  constructor
  · have := rawLines_flatten content
    rw [hcut] at this
    rw [← this]
    simp
  · rw [write_eq]
    simp only [writeInput]
    rw [hcut, writeFile_before defaultDialect sect key value h _ hh pre hpre,
      map_strip_of_clean hcpre, hch]
    have hB := writeSection_blanks key value nh post hnh blanks hblanks 0
    rw [Nat.zero_add, flushEmpty_length_of_blank hblanks, hcnh, map_strip_of_clean hcpost] at hB
    by_cases hne : body = []
    · subst hne
      rw [List.nil_append, hB]
      simp
    · rw [writeSection_body key value _ body 0 hne hlast hcbody hbl hbody, hB]
      simp [flushEmpty]

/-- C19 at the file `"[s]\na=1\n\n[t]\nx=2\n"`, the section `s`, the key `k`
and the value `v`: the output is `"[s]\na=1\nk=v\n\n[t]\nx=2\n"`. -/
theorem write_inserts_key_before_blank_run_witness :
    rawLines "[s]\na=1\n\n[t]\nx=2\n".toList
      = [] ++ "[s]\n".toList :: (["a=1\n".toList] ++ ([['\n']] ++ "[t]\n".toList ::
          ["x=2\n".toList])) ∧
    write defaultDialect (some "[s]\na=1\n\n[t]\nx=2\n".toList) "s".toList "k".toList "v".toList
      = some (([] ++ "[s]\n".toList :: ["a=1\n".toList]).flatten ++
          keyLine defaultDialect "k".toList "v".toList ++
          ([['\n']] ++ "[t]\n".toList :: ["x=2\n".toList]).flatten) :=
  ⟨by decide,
    (write_inserts_key_before_blank_run "[s]\na=1\n\n[t]\nx=2\n".toList "s".toList "k".toList
      "v".toList [] "[s]\n".toList ["a=1\n".toList] [['\n']] "[t]\n".toList ["x=2\n".toList]
      (by decide) (by decide) (by decide) (by decide) (by decide) (by decide) (by decide)
      (by decide)).2⟩


/-! ## C20: `write` and the empty lines at the end of the file -/

/-- C20 fails on the code: in the file `"[s]\na=1\n\n\n"` the section `s` is
the last one, holds no key `k` and ends with two empty lines;
`write(f, "s", "k", "v")` leaves `"[s]\na=1\nk=v\n"`: the new line is there and
the two empty lines are gone, no empty line is left in the output. -/
theorem write_drops_trailing_empty_lines :
    write defaultDialect (some "[s]\na=1\n\n\n".toList) "s".toList "k".toList "v".toList
      = some "[s]\na=1\nk=v\n".toList ∧
    (rawLines "[s]\na=1\n\n\n".toList).count ['\n'] = 2 ∧
    (rawLines "[s]\na=1\nk=v\n".toList).count ['\n'] = 0 := by
  decide


/-! ## C21: `section_delete` and several sections of the same name -/

/-- C21 fails on the code: the file `"[s]\na=1\n[t]\nb=2\n[s]\nc=3\n"` holds two
sections named `s`; `section_delete(f, "s")` succeeds and leaves `"[t]\nb=2\n"`:
the second section `s` and its line `c=3` are removed as well, they are not
kept. -/
theorem section_delete_removes_later_section :
    section_delete defaultDialect (some "[s]\na=1\n[t]\nb=2\n[s]\nc=3\n".toList) "s".toList
      = ⟨none, some "[t]\nb=2\n".toList⟩ ∧
    "[s]\n".toList ∉ rawLines "[t]\nb=2\n".toList ∧
    "c=3\n".toList ∉ rawLines "[t]\nb=2\n".toList := by
  decide


/-! ## C22: the file that does not exist -/

/-- C22: when the file does not exist, `section_exists`, `key_exists`, `read`,
`section_delete`, `key_delete`, `section_rename` and `key_rename` each fail
with the error of the file that can not be opened, and the file still does not
exist afterwards; `write` does not fail, the file exists afterwards. -/
theorem missing_file_cannot_be_opened (d : Dialect) (sect key value new_name : Str) :
    section_exists d none sect = .error Error.cannotOpen ∧
    key_exists d none sect key = .error Error.cannotOpen ∧
    read d none sect key value = .error Error.cannotOpen ∧
    section_delete d none sect = ⟨some Error.cannotOpen, none⟩ ∧
    key_delete d none sect key = ⟨some Error.cannotOpen, none⟩ ∧
    section_rename d none sect new_name = ⟨some Error.cannotOpen, none⟩ ∧
    key_rename d none sect key new_name = ⟨some Error.cannotOpen, none⟩ ∧
    (write d none sect key value).isSome = true :=
  ⟨rfl, rfl, rfl, rfl, rfl, rfl, rfl, rfl⟩


/-! ## C23: `write`, then `read`, for a well-formed key and value -/

/-- C23, as stated, fails under the default dialect for the key `k` and the
value `v`, which are well-formed: in the file `"[s]\na=1"`, which does not end
with a line terminator, `write` glues the new line to the last one
(`"[s]\na=1k=v\n"`) and `read(f, "s", "k", "d")` returns the default; the
section name `"a\nb"` holds no `']'`, its header is spread over two lines and
`read` returns the default. -/
theorem write_read_well_formed_not_returned :
    read defaultDialect
        (write defaultDialect (some "[s]\na=1".toList) "s".toList "k".toList "v".toList)
        "s".toList "k".toList "d".toList = .ok "d".toList ∧
    read defaultDialect
        (write defaultDialect none "a\nb".toList "k".toList "v".toList)
        "a\nb".toList "k".toList "d".toList = .ok "d".toList ∧
    ']' ∉ "a\nb".toList ∧ "d".toList ≠ "v".toList :=
  ⟨rfl, rfl, by decide, by decide⟩

/-- C23, amended: under the default dialect, for every initial file that does
not exist, is empty or ends with a line terminator, every section name `s`
without line terminator (with or without `']'`), every key `k` that has no
surrounding blanks, does not start with `'['` or the comment character and
contains no delimiter or line terminator (empty or not), and every value `v`
that has no surrounding blanks and no line terminator: `read(f, s, k, d)` after
`write(f, s, k, v)` returns `v` for every default `d`. -/
theorem write_read_well_formed (file : Option Str) (sect key value default_value : Str)
    (hfile : ∀ content, file = some content → EndsWithNewline content)
    (hsect : defaultDialect.lineterminator ∉ sect)
    (hkey : strip key = key)
    (hkb : key.head? ≠ some '[')
    (hkc : key.head? ≠ some defaultDialect.commentchar)
    (hkd : defaultDialect.delimiter ∉ key)
    (hkn : defaultDialect.lineterminator ∉ key)
    (hvalue : strip value = value)
    (hvn : defaultDialect.lineterminator ∉ value) :
    read defaultDialect (write defaultDialect file sect key value) sect key default_value
      = .ok value := by
  have h := read_write hfile hsect hkey hkd hkn hkb hkc value default_value hvn
  rw [hvalue] at h
  exact h

/-- C23, amended, on a file that does not exist, with the section `net`, the
key `port`, the value `8080` and the default `0`. -/
theorem write_read_well_formed_witness :
    read defaultDialect (write defaultDialect none "net".toList "port".toList "8080".toList)
      "net".toList "port".toList "0".toList = .ok "8080".toList :=
  write_read_well_formed none "net".toList "port".toList "8080".toList "0".toList
    (fun _ h => by cases h) (by decide) (by decide) (by decide) (by decide) (by decide)
    (by decide) (by decide) (by decide)


/-! ## C24: `write` replaces the first line of the key -/

/-- C24, as stated, fails for a value that holds a line terminator: on the
file `"[s]\nk=0\n"`, whose lines carry no surrounding blanks and whose section
`s` has a line of the key `k`, `write(f, "s", "k", "1\n2")` gives
`"[s]\nk=1\n2\n"`, which has three lines where the input has two. -/
theorem write_value_with_newline_adds_line :
    (∀ l ∈ getlines "[s]\nk=0\n".toList, strip l = l) ∧
    key_exists defaultDialect (some "[s]\nk=0\n".toList) "s".toList "k".toList = .ok true ∧
    write defaultDialect (some "[s]\nk=0\n".toList) "s".toList "k".toList "1\n2".toList
      = some "[s]\nk=1\n2\n".toList ∧
    (rawLines "[s]\nk=1\n2\n".toList).length = 3 ∧
    (rawLines "[s]\nk=0\n".toList).length = 2 :=
  ⟨by decide, rfl, by decide, by decide, by decide⟩

/-- C24, amended: under the default dialect, for every file whose lines carry
no surrounding blanks and in which `key_exists(f, s, k)` is true, and every
value `v` that contains no line terminator, the lines of the file are cut into
the lines `pre` before the first header `h` of `s`, the lines `body` of that
section before its first line `kl` of the key `k`, and the lines `post` after
it; the output of `write(f, s, k, v)` has the same number of lines as the
input and its lines are those of the input with `kl` replaced by
`k + delimiter + v`: later lines of the same key, in the same or in later
sections, are unchanged. -/
theorem write_replaces_first_key_line (content sect key value : Str)
    (hclean : ∀ l ∈ getlines content, strip l = l)
    (hex : key_exists defaultDialect (some content) sect key = .ok true)
    (hvalue : '\n' ∉ value) :
    ∃ pre h body kl post out,
      rawLines content = pre ++ h :: (body ++ kl :: post) ∧
      (∀ l ∈ pre, isHeader sect l = false) ∧ isHeader sect h = true ∧
      (∀ l ∈ body, (view l).head? ≠ some '[' ∧
        isKeyLine defaultDialect key (view l) = false) ∧
      ((view kl).head? ≠ some '[' ∧ isKeyLine defaultDialect key (view kl) = true) ∧
      write defaultDialect (some content) sect key value = some out ∧
      rawLines out = pre ++ h :: (body ++ keyLine defaultDialect key value :: post) ∧
      (rawLines out).length = (rawLines content).length := by
  obtain ⟨pre, h, body, kl, post, hcut, hpre, hh, hbody, hkl⟩ := key_exists_cut hex
  refine ⟨pre, h, body, kl, post,
    (pre ++ h :: (body ++ keyLine defaultDialect key value :: post)).flatten,
    hcut, hpre, hh, hbody, hkl, ?_⟩
  have hmem : ∀ l, l ∈ pre ++ h :: (body ++ kl :: post) → l ∈ rawLines content :=
    fun l hl => by rw [hcut]; exact hl
  have hraw : ∀ l, l ∈ pre ++ h :: (body ++ kl :: post) → Terminated l ∨ '\n' ∉ l :=
    fun l hl => (lineList_rawLines content).mem (hmem l hl)
  have hc : ∀ l ∈ pre ++ h :: (body ++ kl :: post), strip l = l :=
    fun l hl => strip_rawLine_of_clean hclean (hmem l hl)
  have hbody' : ∀ l ∈ body, (strip l).head? ≠ some '[' ∧
      isKeyLine defaultDialect key (strip l) = false := by
    intro l hl
    have hr := hraw l (by simp [hl])
    obtain ⟨h1, h2⟩ := hbody l hl
    exact ⟨fun hh => h1 ((head?_strip_bracket_raw hr).1 hh), by rw [isKeyLine_view_raw hr, h2]⟩
  have hrk := hraw kl (by simp)
  have hk1 : (strip kl).head? ≠ some '[' := fun hh => hkl.1 ((head?_strip_bracket_raw hrk).1 hh)
  have hk2 : isKeyLine defaultDialect key (strip kl) = true := by
    rw [isKeyLine_view_raw hrk, hkl.2]
  have hkn : '\n' ∉ key := not_mem_key_of_isKeyLine hk2
  have hterm : Terminated (keyLine defaultDialect key value) :=
    terminated_keyLine hkn hvalue
  have hlist : LineList (pre ++ h :: (body ++ keyLine defaultDialect key value :: post)) := by
    have h0 := lineList_rawLines content
    rw [hcut] at h0
    have e : ∀ x, pre ++ h :: (body ++ x :: post) = (pre ++ h :: body) ++ x :: post :=
      fun x => by simp
    rw [e] at h0 ⊢
    exact LineList.replace hterm kl post _ h0
  have hne : ∀ l ∈ pre ++ h :: (body ++ keyLine defaultDialect key value :: post), l ≠ [] := by
    intro l hl
    have hl' : l = keyLine defaultDialect key value ∨ l ∈ pre ++ h :: (body ++ kl :: post) := by
      simp only [List.mem_append, List.mem_cons] at hl ⊢
      tauto
    rcases hl' with rfl | hl'
    · exact hterm.ne_nil
    · exact rawLines_mem_ne_nil content l (hmem l hl')
  have hlines : rawLines (pre ++ h :: (body ++ keyLine defaultDialect key value :: post)).flatten
      = pre ++ h :: (body ++ keyLine defaultDialect key value :: post) := by
    rw [rawLines_flatten_of_lineList hlist, List.filter_eq_self]
    intro l hl
    simpa using hne l hl
  refine ⟨?_, hlines, ?_⟩
  · rw [write_eq]
    simp only [writeInput]
    rw [hcut, writeFile_before defaultDialect sect key value h _ hh pre hpre,
      writeSection_body_tail key value (kl :: post)
        (keyLine defaultDialect key value :: post.map strip)
        (writeSection_key key value kl post hk1 hk2) body 0
        (fun l hl => hc l (by simp [hl]))
        (fun l hl hb => rawLine_blank_of_clean hclean (hmem l (by simp [hl])) hb) hbody',
      map_strip_of_clean fun l hl => hc l (by simp [hl]),
      map_strip_of_clean fun l hl => hc l (by simp [hl]), hc h (by simp)]
    simp [flushEmpty]
  · rw [hlines, hcut]
    simp

/-- C24, amended, at the file `"[s]\nk=0\nk=5\n"`, the section `s`, the key `k`
and the value `v`. -/
theorem write_replaces_first_key_line_witness :
    write defaultDialect (some "[s]\nk=0\nk=5\n".toList) "s".toList "k".toList "v".toList
        = some "[s]\nk=v\nk=5\n".toList ∧
    ∃ pre h body kl post out,
      rawLines "[s]\nk=0\nk=5\n".toList = pre ++ h :: (body ++ kl :: post) ∧
      (∀ l ∈ pre, isHeader "s".toList l = false) ∧ isHeader "s".toList h = true ∧
      (∀ l ∈ body, (view l).head? ≠ some '[' ∧
        isKeyLine defaultDialect "k".toList (view l) = false) ∧
      ((view kl).head? ≠ some '[' ∧ isKeyLine defaultDialect "k".toList (view kl) = true) ∧
      write defaultDialect (some "[s]\nk=0\nk=5\n".toList) "s".toList "k".toList "v".toList
        = some out ∧
      rawLines out = pre ++ h :: (body ++ keyLine defaultDialect "k".toList "v".toList :: post) ∧
      (rawLines out).length = (rawLines "[s]\nk=0\nk=5\n".toList).length :=
  ⟨by decide,
    write_replaces_first_key_line "[s]\nk=0\nk=5\n".toList "s".toList "k".toList "v".toList
      (by decide) rfl (by decide)⟩


/-! ## C25: `key_delete` removes one line -/

/-- C25: under the default dialect, for every file whose lines carry no
surrounding blanks and for which `key_exists(f, s, k)` is true, the lines of
the file are cut into the lines `pre` before the first header `h` of `s`, the
lines `body` of that section before its first line `kl` of the key `k`, and
the lines `post` after that line; `key_delete(f, s, k)` succeeds and its
output is the input without the line `kl`: the header and every other line,
later lines of the same key included, stay as they are and in their order. -/
theorem key_delete_removes_first_key_line (content sect key : Str)
    (hclean : ∀ l ∈ getlines content, strip l = l)
    (hex : key_exists defaultDialect (some content) sect key = .ok true) :
    ∃ pre h body kl post,
      rawLines content = pre ++ h :: (body ++ kl :: post) ∧
      (∀ l ∈ pre, isHeader sect l = false) ∧ isHeader sect h = true ∧
      (∀ l ∈ body, (view l).head? ≠ some '[' ∧
        isKeyLine defaultDialect key (view l) = false) ∧
      ((view kl).head? ≠ some '[' ∧ isKeyLine defaultDialect key (view kl) = true) ∧
      key_delete defaultDialect (some content) sect key =
        ⟨none, some (pre ++ h :: (body ++ post)).flatten⟩ := by
  obtain ⟨pre, h, body, kl, post, hcut, hpre, hh, hbody, hkl⟩ := key_exists_cut hex
  refine ⟨pre, h, body, kl, post, hcut, hpre, hh, hbody, hkl, ?_⟩
  have hmem : ∀ l, l ∈ pre ++ h :: (body ++ kl :: post) → l ∈ rawLines content :=
    fun l hl => by rw [hcut]; exact hl
  have hraw : ∀ l, l ∈ pre ++ h :: (body ++ kl :: post) → Terminated l ∨ '\n' ∉ l :=
    fun l hl => (lineList_rawLines content).mem (hmem l hl)
  have hc : ∀ l ∈ pre ++ h :: (body ++ kl :: post), strip l = l :=
    fun l hl => strip_rawLine_of_clean hclean (hmem l hl)
  have hbody' : ∀ l ∈ body, (strip l).head? ≠ some '[' ∧
      isKeyLine defaultDialect key (strip l) = false := by
    intro l hl
    have hr := hraw l (by simp [hl])
    obtain ⟨h1, h2⟩ := hbody l hl
    exact ⟨fun hh => h1 ((head?_strip_bracket_raw hr).1 hh), by rw [isKeyLine_view_raw hr, h2]⟩
  have hrk := hraw kl (by simp)
  have hk1 : (strip kl).head? ≠ some '[' := fun hh => hkl.1 ((head?_strip_bracket_raw hrk).1 hh)
  have hk2 : isKeyLine defaultDialect key (strip kl) = true := by
    rw [isKeyLine_view_raw hrk, hkl.2]
  have e1 := keyDeleteLoop_key defaultDialect (searchedWord sect) key kl post hk1 hk2 body true
    hbody'
  have e2 := keyDeleteLoop_before_ok defaultDialect sect key h _ hh _ e1 pre false hpre
  simp only [key_delete, hcut, e2, installTemp]
  rw [map_strip_of_clean fun l hl => hc l (by simp [hl]),
    map_strip_of_clean fun l hl => hc l (by simp [hl]),
    map_strip_of_clean fun l hl => hc l (by simp [hl]), hc h (by simp)]
  rfl

/-- C25 at the file `"[net]\nport=8080\nhost=a\nport=1\n"`, the section `net`
and the key `port`: the first line of the key goes, the second one stays. -/
theorem key_delete_removes_first_key_line_witness :
    key_delete defaultDialect (some "[net]\nport=8080\nhost=a\nport=1\n".toList) "net".toList
        "port".toList = ⟨none, some "[net]\nhost=a\nport=1\n".toList⟩ ∧
    ∃ pre h body kl post,
      rawLines "[net]\nport=8080\nhost=a\nport=1\n".toList = pre ++ h :: (body ++ kl :: post) ∧
      (∀ l ∈ pre, isHeader "net".toList l = false) ∧ isHeader "net".toList h = true ∧
      (∀ l ∈ body, (view l).head? ≠ some '[' ∧
        isKeyLine defaultDialect "port".toList (view l) = false) ∧
      ((view kl).head? ≠ some '[' ∧ isKeyLine defaultDialect "port".toList (view kl) = true) ∧
      key_delete defaultDialect (some "[net]\nport=8080\nhost=a\nport=1\n".toList) "net".toList
        "port".toList = ⟨none, some (pre ++ h :: (body ++ post)).flatten⟩ :=
  ⟨by decide,
    key_delete_removes_first_key_line "[net]\nport=8080\nhost=a\nport=1\n".toList "net".toList
      "port".toList (by decide) rfl⟩


/-! ## C26: lines the scanner ignores -/

/-- C26, as stated, fails: the line `" [s]"` is not blank, holds no delimiter
and does not start with `'['`, it starts with a blank; inserted into a file
with the one line `x`, it is found as the header of `s`: `section_exists(f, "s")`
is false before and true after. -/
theorem inserted_indented_header_is_seen :
    " [s]".toList.head? ≠ some '[' ∧ defaultDialect.delimiter ∉ " [s]".toList ∧
    getlines "x\n".toList = [] ++ ["x".toList] ∧
    getlines " [s]\nx\n".toList = [] ++ " [s]".toList :: ["x".toList] ∧
    section_exists defaultDialect (some "x\n".toList) "s".toList = .ok false ∧
    section_exists defaultDialect (some " [s]\nx\n".toList) "s".toList = .ok true :=
  ⟨by decide, by decide, by decide, by decide, rfl, rfl⟩

/-- C26, amended: under the default dialect, for every file, inserting at any
position a blank line, a line whose first non-blank character is the comment
character, or a line that contains no delimiter and whose first non-blank
character is not `'['` changes the result of none of `section_exists(f, s)`,
`key_exists(f, s, k)` and `read(f, s, k, d)`. -/
theorem ignored_line_changes_no_result (content content' : Str) (A B : List Str) (x : Str)
    (sect key default_value : Str)
    (hbefore : getlines content = A ++ B)
    (hafter : getlines content' = A ++ x :: B)
    (hx : ignoredLine defaultDialect x) :
    section_exists defaultDialect (some content') sect
      = section_exists defaultDialect (some content) sect ∧
    key_exists defaultDialect (some content') sect key
      = key_exists defaultDialect (some content) sect key ∧
    read defaultDialect (some content') sect key default_value
      = read defaultDialect (some content) sect key default_value := by
  refine ⟨?_, ?_, ?_⟩
  · simp only [section_exists, hbefore, hafter, List.any_append, List.any_cons,
      ignoredLine_startsWith_lstrip hx, Bool.false_or]
  · simp only [key_exists, hbefore, hafter, keyExistsLoop_insert hx]
  · simp only [read, hbefore, hafter, readLoop_insert hx]

/-- C26, amended, at the file `"[s]\nk=1\n"` and the comment line `"; c"`
inserted after the header. -/
theorem ignored_line_changes_no_result_witness :
    getlines "[s]\nk=1\n".toList = ["[s]".toList] ++ ["k=1".toList] ∧
    getlines "[s]\n; c\nk=1\n".toList = ["[s]".toList] ++ "; c".toList :: ["k=1".toList] ∧
    read defaultDialect (some "[s]\n; c\nk=1\n".toList) "s".toList "k".toList "d".toList
      = read defaultDialect (some "[s]\nk=1\n".toList) "s".toList "k".toList "d".toList :=
  ⟨by decide, by decide,
    (ignored_line_changes_no_result "[s]\nk=1\n".toList "[s]\n; c\nk=1\n".toList
      ["[s]".toList] ["k=1".toList] "; c".toList "s".toList "k".toList "d".toList
      (by decide) (by decide) (Or.inr (Or.inl (by decide)))).2.2⟩


/-! ## C27: `write` of a real value -/

/-- C27: for every file, section, key and real value `x`, `write` for a real
value produces the file that `write` for a string produces on the rendering
`fmt x` of the value by `"%f"`, whatever that rendering is. -/
theorem write_double_eq_write_string {R : Type} (fmt : R → Str) (d : Dialect)
    (file : Option Str) (sect key : Str) (x : R) :
    writeDouble fmt d file sect key x = write d file sect key (fmt x) := by
  unfold writeDouble write
  simp only [writeLoopDouble_eq, writeTailDouble_eq]


/-! ## C28: `read` after `section_rename` -/

/-- C28, as stated, fails for a new name that holds a line terminator: the
names `"a"` and `"x\ny"` are distinct and without `']'`, `section_rename`
succeeds on the file `"[a]\nk=1\n"` and writes the header over two lines, so
that `read(f, "x\ny", "k", "d")` gives the default `"d"` afterwards where
`read(f, "a", "k", "d")` gave `"1"` before. -/
theorem section_rename_newline_name_loses_settings :
    "a".toList ≠ "x\ny".toList ∧ ']' ∉ "a".toList ∧ ']' ∉ "x\ny".toList ∧
    section_rename defaultDialect (some "[a]\nk=1\n".toList) "a".toList "x\ny".toList
      = ⟨none, some "[x\ny]\nk=1\n".toList⟩ ∧
    read defaultDialect (some "[x\ny]\nk=1\n".toList) "x\ny".toList "k".toList "d".toList
      = .ok "d".toList ∧
    read defaultDialect (some "[a]\nk=1\n".toList) "a".toList "k".toList "d".toList
      = .ok "1".toList ∧
    "d".toList ≠ "1".toList :=
  ⟨by decide, by decide, by decide, by decide, rfl, rfl, by decide⟩

/-- C28, amended: under the default dialect, for all names `a` and `b`, `b`
without line terminator (in particular for all distinct names without `']'`
of which `b` has no line terminator), and every file on which
`section_rename(f, a, b)` succeeds, `read(f, b, k, d)` after the rename equals
`read(f, a, k, d)` before the rename, for every key `k` and default `d`. -/
theorem section_rename_keeps_settings (file : Option Str) (a b key default_value : Str)
    (hbn : '\n' ∉ b)
    (hok : (section_rename defaultDialect file a b).error = none) :
    read defaultDialect (section_rename defaultDialect file a b).file b key default_value
      = read defaultDialect file a key default_value := by
  cases file with
  | none => simp [section_rename] at hok
  | some content =>
    have hdef : section_rename defaultDialect (some content) a b =
        match sectionRenameLoop defaultDialect (searchedWord a) (searchedWord b) false
            (rawLines content) with
        | .error e => ⟨some e, some content⟩
        | .ok r => if !r.2 then ⟨some .sectionNotFound, installTemp r.1⟩
            else ⟨none, installTemp r.1⟩ := rfl
    cases hloop : sectionRenameLoop defaultDialect (searchedWord a) (searchedWord b) false
        (rawLines content) with
    | error e =>
      rw [hdef, hloop] at hok
      simp at hok
    | ok r =>
      rw [hdef, hloop] at hok ⊢
      simp only at hok ⊢
      by_cases hr : (!r.2) = true
      · rw [if_pos hr] at hok; simp at hok
      · rw [if_neg hr]
        simp only [installTemp]
        obtain ⟨e1, _⟩ := sectionRenameLoop_ok defaultDialect a b (rawLines content) false r hloop
        have hnew := sectionRenameLoop_ok_no_new defaultDialect a b (rawLines content) false r
          hloop
        have hl : LineList r.1 := by
          rw [e1]
          exact (lineList_rawLines content).map_rename a b hbn
        rw [read_eq_readRaw, read_eq_readRaw, rawLines_flatten_of_lineList hl, readRaw_filter, e1]
        exact congrArg Except.ok (readRaw_rename a b key default_value (rawLines content)
          (fun l hl => (lineList_rawLines content).mem hl) hnew false)

/-- C28, amended, at the file `"[old]\n  k = 1\n[t]\nk=2\n"` and the names
`old` and `new`. -/
theorem section_rename_keeps_settings_witness :
    read defaultDialect
        (section_rename defaultDialect (some "[old]\n  k = 1\n[t]\nk=2\n".toList) "old".toList
          "new".toList).file "new".toList "k".toList "d".toList
      = read defaultDialect (some "[old]\n  k = 1\n[t]\nk=2\n".toList) "old".toList "k".toList
          "d".toList :=
  section_rename_keeps_settings (some "[old]\n  k = 1\n[t]\nk=2\n".toList) "old".toList
    "new".toList "k".toList "d".toList (by decide) (by decide)


/-! ## C29: `read` after `key_rename` -/

/-- C29, as stated, fails for a new key that holds a line terminator: on the
file `"[s]\nk=1\n"` the key `k` exists and its line holds no comment
character; the new key `"a\nb"` is not empty, trimmed, without delimiter, does
not start with `'['` or the comment character, differs from `k` and does not
occur in the section; `key_rename` succeeds and writes the new line over two
lines, so that `read(f, "s", "a\nb", "d")` gives the default `"d"` afterwards
where `read(f, "s", "k", "d")` gave `"1"` before. -/
theorem key_rename_newline_key_loses_value :
    key_exists defaultDialect (some "[s]\nk=1\n".toList) "s".toList "k".toList = .ok true ∧
    (strip "a\nb".toList = "a\nb".toList ∧ '=' ∉ "a\nb".toList ∧
      "a\nb".toList.head? ≠ some '[' ∧ "a\nb".toList.head? ≠ some ';' ∧
      "a\nb".toList ≠ "k".toList) ∧
    key_exists defaultDialect (some "[s]\nk=1\n".toList) "s".toList "a\nb".toList = .ok false ∧
    key_rename defaultDialect (some "[s]\nk=1\n".toList) "s".toList "k".toList "a\nb".toList
      = ⟨none, some "[s]\na\nb=1\n".toList⟩ ∧
    read defaultDialect (some "[s]\na\nb=1\n".toList) "s".toList "a\nb".toList "d".toList
      = .ok "d".toList ∧
    read defaultDialect (some "[s]\nk=1\n".toList) "s".toList "k".toList "d".toList
      = .ok "1".toList ∧
    "d".toList ≠ "1".toList :=
  ⟨rfl, ⟨by decide, by decide, by decide, by decide, by decide⟩, rfl, by decide, rfl, rfl,
    by decide⟩

/-- C29, amended: under the default dialect, take a file whose lines are cut
into the lines `pre` before the first header `h` of `s`, the lines `body` of
that section before its first line `kl` of the key `k`, and the lines `post`
after it, so that `key_exists(f, s, k)` is true and `kl` is the matched line;
let `kl` contain no comment character and let the new key `k'` be trimmed,
without delimiter and without line terminator, not start with `'['` or the
comment character, and not occur in the section (`key_exists(f, s, k')` is
false).  Then `key_rename(f, s, k, k')` succeeds and afterwards
`read(f, s, k', d)` equals the value that `read(f, s, k, d)` returned before
the rename. -/
theorem key_rename_keeps_value (content sect key new_key default_value : Str)
    (pre : List Str) (h : Str) (body : List Str) (kl : Str) (post : List Str)
    (hcut : rawLines content = pre ++ h :: (body ++ kl :: post))
    (hpre : ∀ l ∈ pre, isHeader sect l = false) (hh : isHeader sect h = true)
    (hbody : ∀ l ∈ body, (view l).head? ≠ some '[' ∧
      isKeyLine defaultDialect key (view l) = false)
    (hkl : (view kl).head? ≠ some '[' ∧ isKeyLine defaultDialect key (view kl) = true)
    (hcomment : ';' ∉ kl)
    (hstrip : strip new_key = new_key) (hdelim : '=' ∉ new_key)
    (hnl : '\n' ∉ new_key) (hbr : new_key.head? ≠ some '[') (hcm : new_key.head? ≠ some ';')
    (hnot : key_exists defaultDialect (some content) sect new_key = .ok false) :
    key_exists defaultDialect (some content) sect key = .ok true ∧
    (key_rename defaultDialect (some content) sect key new_key).error = none ∧
    read defaultDialect (key_rename defaultDialect (some content) sect key new_key).file sect
        new_key default_value
      = read defaultDialect (some content) sect key default_value := by
  have hmem : ∀ l, l ∈ pre ++ h :: (body ++ kl :: post) → l ∈ rawLines content :=
    fun l hl => by rw [hcut]; exact hl
  have hraw : ∀ l, l ∈ pre ++ h :: (body ++ kl :: post) → Terminated l ∨ '\n' ∉ l :=
    fun l hl => (lineList_rawLines content).mem (hmem l hl)
  have hrpre : ∀ l ∈ pre, Terminated l ∨ '\n' ∉ l := fun l hl => hraw l (by simp [hl])
  have hrbody : ∀ l ∈ body, Terminated l ∨ '\n' ∉ l := fun l hl => hraw l (by simp [hl])
  have hrh : Terminated h ∨ '\n' ∉ h := hraw h (by simp)
  have hrk : Terminated kl ∨ '\n' ∉ kl := hraw kl (by simp)
  have hK : ∀ kk, key_exists defaultDialect (some content) sect kk =
      .ok ((keyExistsLoop defaultDialect (searchedWord sect) kk true
        ((body ++ kl :: post).map chomp)).getD false) := by
    intro kk
    show Except.ok ((keyExistsLoop defaultDialect (searchedWord sect) kk false
      ((rawLines content).map chomp)).getD false) = _
    rw [hcut, keyExistsLoop_before defaultDialect sect kk h _ hrh hh pre hrpre hpre]
  have hbody_new : ∀ l ∈ body, isKeyLine defaultDialect new_key (view l) = false := by
    intro l hl
    cases hc : isKeyLine defaultDialect new_key (view l) with
    | false => rfl
    | true =>
      exfalso
      have := keyExistsLoop_mem defaultDialect (searchedWord sect) new_key (kl :: post) body
        (fun l hl => (hbody l hl).1) ⟨l, hl, hc⟩
      rw [hK, this] at hnot
      cases hnot
  have hbody_s : ∀ l ∈ body, (strip l).head? ≠ some '[' ∧
      isKeyLine defaultDialect key (strip l) = false ∧
      isKeyLine defaultDialect new_key (strip l) = false := by
    intro l hl
    have hr := hrbody l hl
    obtain ⟨h1, h2⟩ := hbody l hl
    exact ⟨fun hh => h1 ((head?_strip_bracket_raw hr).1 hh), by rw [isKeyLine_view_raw hr, h2],
      by rw [isKeyLine_view_raw hr, hbody_new l hl]⟩
  have hk1 : (strip kl).head? ≠ some '[' := fun hh => hkl.1 ((head?_strip_bracket_raw hrk).1 hh)
  have hk2 : isKeyLine defaultDialect key (strip kl) = true := by
    rw [isKeyLine_view_raw hrk, hkl.2]
  obtain ⟨hvn, hval⟩ := renamed_value key kl hrk hcomment hk2
  have e1 := keyRenameLoop_key defaultDialect (searchedWord sect) key new_key kl post hk1 hk2
    body hbody_s
  have e2 := keyRenameLoop_before_ok defaultDialect sect key new_key h _ hh _ e1 pre false hpre
  generalize substr (strip kl) (scanDelim defaultDialect (strip kl) + 1)
    (scanDelim defaultDialect (strip kl) + 1 +
      scanComment defaultDialect ((strip kl).drop (scanDelim defaultDialect (strip kl) + 1)))
    = val at hvn hval e1 e2
  have hren : key_rename defaultDialect (some content) sect key new_key =
      ⟨none, some (pre.map strip ++ strip h ::
        (body.map strip ++ keyLine defaultDialect new_key val :: post)).flatten⟩ := by
    simp only [key_rename, hcut, e2, installTemp]
    rfl
  have hterm : Terminated (keyLine defaultDialect new_key val) := terminated_keyLine hnl hvn
  have hlist : LineList (pre.map strip ++ strip h ::
      (body.map strip ++ keyLine defaultDialect new_key val :: post)) := by
    have h0 := lineList_rawLines content
    rw [hcut] at h0
    have e : pre ++ h :: (body ++ kl :: post) = (pre ++ h :: body) ++ kl :: post := by simp
    have e' : pre.map strip ++ strip h ::
        (body.map strip ++ keyLine defaultDialect new_key val :: post) =
        (pre ++ h :: body).map strip ++ keyLine defaultDialect new_key val :: post := by simp
    rw [e] at h0
    rw [e']
    exact LineList.map_strip_replace hterm kl post _ h0
  refine ⟨?_, ?_, ?_⟩
  · rw [hK, keyExistsLoop_skip defaultDialect (searchedWord sect) key (kl :: post) body hbody]
    have h1 : ¬ (strip (chomp kl)).head? = some '[' := hkl.1
    have h2 : isKeyLine defaultDialect key (strip (chomp kl)) = true := hkl.2
    simp only [List.map_cons, keyExistsLoop, if_neg h1, if_pos h2]
    rfl
  · rw [hren]
  · rw [hren]
    simp only
    rw [read_eq_readRaw, read_eq_readRaw, rawLines_flatten_of_lineList hlist, readRaw_filter,
      hcut]
    congr 1
    rw [readRaw_before defaultDialect sect key default_value h _ hrh hh pre hrpre hpre,
      readRaw_skip defaultDialect sect key default_value (kl :: post) body hbody,
      readRaw_true_cons, if_neg hkl.1, if_pos hkl.2, hval,
      readRaw_before defaultDialect sect new_key default_value (strip h) _ (raw_strip hrh)
        (by rw [isHeader_strip]; exact hh) (pre.map strip)
        (by
          intro l hl
          obtain ⟨l0, hl0, rfl⟩ := List.mem_map.1 hl
          exact raw_strip (hrpre l0 hl0))
        (by
          intro l hl
          obtain ⟨l0, hl0, rfl⟩ := List.mem_map.1 hl
          rw [isHeader_strip]
          exact hpre l0 hl0),
      readRaw_skip defaultDialect sect new_key default_value _ (body.map strip)
        (by
          intro l hl
          obtain ⟨l0, hl0, rfl⟩ := List.mem_map.1 hl
          rw [view_strip_raw (hrbody l0 hl0)]
          exact ⟨(hbody l0 hl0).1, hbody_new l0 hl0⟩),
      readRaw_keyLine_true hstrip hdelim hnl hbr hcm]

/-- C29, amended, at the file `"[s]\nx=0\nport = 80\n[t]\n"`, the section `s`,
the key `port` and the new key `p`. -/
theorem key_rename_keeps_value_witness :
    rawLines "[s]\nx=0\nport = 80\n[t]\n".toList
      = [] ++ "[s]\n".toList :: (["x=0\n".toList] ++ "port = 80\n".toList :: ["[t]\n".toList]) ∧
    key_exists defaultDialect (some "[s]\nx=0\nport = 80\n[t]\n".toList) "s".toList
      "port".toList = .ok true ∧
    (key_rename defaultDialect (some "[s]\nx=0\nport = 80\n[t]\n".toList) "s".toList
      "port".toList "p".toList).error = none ∧
    read defaultDialect (key_rename defaultDialect (some "[s]\nx=0\nport = 80\n[t]\n".toList)
        "s".toList "port".toList "p".toList).file "s".toList "p".toList "d".toList
      = read defaultDialect (some "[s]\nx=0\nport = 80\n[t]\n".toList) "s".toList "port".toList
          "d".toList :=
  ⟨by decide,
    key_rename_keeps_value "[s]\nx=0\nport = 80\n[t]\n".toList "s".toList "port".toList
      "p".toList "d".toList [] "[s]\n".toList ["x=0\n".toList] "port = 80\n".toList
      ["[t]\n".toList] (by decide) (by decide) (by decide) (by decide) (by decide) (by decide)
      (by decide) (by decide) (by decide) (by decide) (by decide) rfl⟩


/-! ## C30: a key exists in a section that exists -/

/-- C30: for every existing file, section `s` and key `k`, if
`key_exists(f, s, k)` is true then `section_exists(f, s)` is true. -/
theorem key_exists_imp_section_exists (d : Dialect) (content sect key : Str)
    (h : key_exists d (some content) sect key = .ok true) :
    section_exists d (some content) sect = .ok true := by
  have hk : ∀ ls : List Str, ∀ b, keyExistsLoop d (searchedWord sect) key b ls = some true →
      b = true ∨ ls.any (fun line => startsWith (lstrip line) (searchedWord sect)) = true := by
    intro ls
    induction ls with
    | nil => intro b hb; cases b <;> simp [keyExistsLoop] at hb
    | cons x xs ih =>
      intro b hb
      cases b
      · right
        simp only [keyExistsLoop] at hb
        rw [List.any_cons, ← startsWith_strip]
        by_cases hx : startsWith (strip x) (searchedWord sect) = true
        · rw [hx]; rfl
        · rw [if_neg hx] at hb
          rcases ih false hb with h1 | h1
          · cases h1
          · rw [h1, Bool.or_true]
      · exact Or.inl rfl
  simp only [key_exists, Except.ok.injEq] at h
  simp only [section_exists, Except.ok.injEq]
  cases hl : keyExistsLoop d (searchedWord sect) key false (getlines content) with
  | none => rw [hl] at h; cases h
  | some b =>
    rw [hl] at h
    simp only [Option.getD_some] at h
    subst h
    rcases hk _ false hl with h1 | h1
    · cases h1
    · exact h1

/-- C30 at the file `"[net]\nport=1\n"`, the section `net` and the key `port`. -/
theorem key_exists_imp_section_exists_witness :
    key_exists defaultDialect (some "[net]\nport=1\n".toList) "net".toList "port".toList
      = .ok true ∧
    section_exists defaultDialect (some "[net]\nport=1\n".toList) "net".toList = .ok true :=
  ⟨rfl,
    key_exists_imp_section_exists defaultDialect "[net]\nport=1\n".toList "net".toList
      "port".toList rfl⟩


end Polder.Ini

namespace Polder.Math

/-! ## The loop of `fibonacci` -/

theorem sub_wrap (m x y z : Nat) (hm : 0 < m) (h : x = y + z) :
    (x % m + m - y % m) % m = z % m := by
  have hy : y % m < m := Nat.mod_lt _ hm
  have h1 : (x % m + m - y % m) + y % m = x % m + m := by omega
  have h2 : ((x % m + m - y % m) + y % m) ≡ z + y % m [MOD m] := by
    rw [h1, h]
    calc (y + z) % m + m ≡ (y + z) % m [MOD m] := by simp [Nat.ModEq]
      _ ≡ y + z [MOD m] := Nat.mod_modEq _ _
      _ ≡ z + y [MOD m] := by rw [Nat.add_comm]
      _ ≡ z + y % m [MOD m] := Nat.ModEq.add_left z (Nat.mod_modEq y m).symm
  exact Nat.ModEq.add_right_cancel' _ h2

/-- The variables of the loop of `fibonacci` hold two consecutive Fibonacci
numbers modulo `2 ^ w`. -/
theorem fibonacciLoop_eq (w : Nat) : ∀ n i,
    fibonacciLoop w n (Nat.fib i % 2 ^ w, Nat.fib (i + 1) % 2 ^ w) =
      (Nat.fib (i + n) % 2 ^ w, Nat.fib (i + n + 1) % 2 ^ w) := by
  intro n
  induction n with
  | zero => intro i; rfl
  | succ k ih =>
    intro i
    have hm : 0 < 2 ^ w := Nat.two_pow_pos w
    have hb : (Nat.fib (i + 1) % 2 ^ w + Nat.fib i % 2 ^ w) % 2 ^ w = Nat.fib (i + 2) % 2 ^ w := by
      rw [← Nat.add_mod, Nat.fib_add_two, Nat.add_comm]
    have ha' : (Nat.fib (i + 2) % 2 ^ w + 2 ^ w - Nat.fib i % 2 ^ w) % 2 ^ w
        = Nat.fib (i + 1) % 2 ^ w := sub_wrap _ _ _ _ hm Nat.fib_add_two
    rw [fibonacciLoop, hb, ha', ih (i + 1)]
    have e : i + 1 + k = i + (k + 1) := by omega
    rw [e]

theorem meta_fibonacci_eq (w : Nat) (hw : 0 < w) : ∀ n, meta.fibonacci w n = Nat.fib n % 2 ^ w := by
  have h1 : 1 < 2 ^ w := Nat.one_lt_two_pow (by omega)
  have key : ∀ n, meta.fibonacci w n = Nat.fib n % 2 ^ w ∧
      meta.fibonacci w (n + 1) = Nat.fib (n + 1) % 2 ^ w := by
    intro n
    induction n with
    | zero =>
      refine ⟨by simp [meta.fibonacci], ?_⟩
      simp only [meta.fibonacci, Nat.zero_add, Nat.fib_one]
      exact (Nat.mod_eq_of_lt h1).symm
    | succ k ih =>
      refine ⟨ih.2, ?_⟩
      rw [meta.fibonacci, ih.1, ih.2, ← Nat.add_mod, Nat.fib_add_two]
  exact fun n => (key n).1


/-! ## The loop of `gcd` -/

/-- The loop of `gcd` returns the greatest common divisor of `b` and `r` as
soon as it has `r` steps to take. -/
theorem gcdLoop_eq : ∀ (fuel a b r : Nat), r ≤ fuel → gcdLoop fuel a b r = some (Nat.gcd b r) := by
  intro fuel
  induction fuel with
  | zero =>
    intro a b r h
    have hr : r = 0 := Nat.le_zero.1 h
    subst hr
    simp [gcdLoop]
  | succ f ih =>
    intro a b r h
    by_cases hr : r = 0
    · subst hr
      simp [gcdLoop]
    · have hlt : b % r < r := Nat.mod_lt _ (Nat.pos_of_ne_zero hr)
      rw [gcdLoop, if_pos hr, ih b r (b % r) (by omega), Nat.gcd_comm r (b % r), ← Nat.gcd_rec,
        Nat.gcd_comm]

theorem gcd_eq (fuel a b : Nat) (ha : a ≠ 0) (hb : b ≠ 0) (hfuel : min a b ≤ fuel) :
    gcd fuel a b = some (Nat.gcd a b) := by
  have h0 : ¬ (a = 0 ∨ b = 0) := by simp [ha, hb]
  unfold gcd
  rw [if_neg h0]
  by_cases hba : b > a
  · have hlt : b % a < a := Nat.mod_lt _ (Nat.pos_of_ne_zero ha)
    have hm : min a b = a := by omega
    rw [if_pos hba, gcdLoop_eq fuel b a (b % a) (by omega), Nat.gcd_comm a (b % a),
      ← Nat.gcd_rec]
  · have hlt : a % b < b := Nat.mod_lt _ (Nat.pos_of_ne_zero hb)
    have hm : min a b = b := by omega
    rw [if_neg hba, gcdLoop_eq fuel a b (a % b) (by omega), Nat.gcd_comm b (a % b),
      ← Nat.gcd_rec, Nat.gcd_comm]


/-! ## The vector of `prime` -/

theorem primesBelow_succ (m : Nat) :
    primesBelow (m + 1) = primesBelow m ++ (if Nat.Prime m then [m] else []) := by
  unfold primesBelow
  rw [List.range_succ, List.filter_append]
  congr 1
  by_cases h : Nat.Prime m <;> simp [List.filter, h]

theorem mem_primesBelow {m q : Nat} : q ∈ primesBelow m ↔ q < m ∧ Nat.Prime q := by
  simp [primesBelow, List.mem_filter, List.mem_range]

theorem pairwise_primesBelow (m : Nat) : (primesBelow m).Pairwise (fun a b => a < b) :=
  List.Pairwise.filter _ (List.pairwise_lt_range m)

theorem length_primesBelow (m : Nat) : (primesBelow m).length = Nat.count Nat.Prime m := by
  induction m with
  | zero => rfl
  | succ k ih =>
    rw [primesBelow_succ, List.length_append, ih, Nat.count_succ]
    by_cases h : Nat.Prime k <;> simp [h]

/-- The prime numbers below `m` are the first prime numbers, in their order. -/
theorem getD_primesBelow (m : Nat) :
    ∀ i, i < (primesBelow m).length → (primesBelow m).getD i 0 = Nat.nth Nat.Prime i := by
  induction m with
  | zero => intro i h; simp [primesBelow] at h
  | succ k ih =>
    intro i h
    rw [primesBelow_succ] at h ⊢
    by_cases hi : i < (primesBelow k).length
    · rw [List.getD_append _ _ _ _ hi]
      exact ih i hi
    · by_cases hk : Nat.Prime k
      · rw [if_pos hk] at h ⊢
        have hie : i = (primesBelow k).length := by
          simp only [List.length_append, List.length_singleton] at h
          omega
        rw [List.getD_append_right _ _ _ _ (by omega), hie, Nat.sub_self, length_primesBelow,
          Nat.nth_count hk]
        rfl
      · rw [if_neg hk] at h
        simp only [List.append_nil] at h
        exact absurd h hi

theorem primesBelow_head : ∀ m, 3 ≤ m → ∃ rest, primesBelow m = 2 :: rest := by
  intro m hm
  induction m, hm using Nat.le_induction with
  | base =>
    refine ⟨[], ?_⟩
    simp [primesBelow, List.range_succ, List.filter]
    norm_num
  | succ k _ ih =>
    obtain ⟨rest, h⟩ := ih
    exact ⟨rest ++ (if Nat.Prime k then [k] else []), by rw [primesBelow_succ, h]; rfl⟩

/-- The known primes from `primes.begin()+2` on are the odd primes up to the
last number tested. -/
theorem mem_drop_two {T q : Nat} (hT : 3 ≤ T) :
    q ∈ (1 :: primesBelow (T + 1)).drop 2 ↔ (3 ≤ q ∧ q ≤ T ∧ Nat.Prime q) := by
  obtain ⟨rest, h⟩ := primesBelow_head (T + 1) (by omega)
  have hp := pairwise_primesBelow (T + 1)
  have hm : ∀ x, x ∈ primesBelow (T + 1) ↔ x < T + 1 ∧ Nat.Prime x := fun x => mem_primesBelow
  rw [h] at hp hm ⊢
  have hd : (1 :: 2 :: rest).drop 2 = rest := rfl
  rw [hd]
  have hgt : ∀ x ∈ rest, 2 < x := (List.pairwise_cons.1 hp).1
  constructor
  · intro hq
    have h1 := (hm q).1 (List.mem_cons_of_mem _ hq)
    have h2 := hgt q hq
    exact ⟨by omega, by omega, h1.2⟩
  · rintro ⟨h1, h2, h3⟩
    rcases List.mem_cons.1 ((hm q).2 ⟨by omega, h3⟩) with h4 | h4
    · omega
    · exact h4

theorem pairwise_drop_two (T : Nat) :
    ((1 :: primesBelow (T + 1)).drop 2).Pairwise (fun a b => a < b) := by
  have hp := pairwise_primesBelow (T + 1)
  exact hp.sublist (List.drop_sublist 1 _)

theorem primeDivisorLoop_false (t : Nat) (ds : List Nat) :
    primeDivisorLoop t ds = false → ∃ d ∈ ds, d ∣ t := by
  induction ds with
  | nil => intro h; simp [primeDivisorLoop] at h
  | cons d rest ih =>
    intro h
    simp only [primeDivisorLoop] at h
    by_cases h1 : d * d > t
    · rw [if_pos h1] at h; cases h
    · rw [if_neg h1] at h
      by_cases h2 : t % d = 0
      · exact ⟨d, by simp, Nat.dvd_of_mod_eq_zero h2⟩
      · rw [if_neg h2] at h
        obtain ⟨x, hx, hxt⟩ := ih h
        exact ⟨x, List.mem_cons_of_mem _ hx, hxt⟩

theorem primeDivisorLoop_true (t : Nat) (ds : List Nat) :
    ds.Pairwise (fun a b => a < b) → primeDivisorLoop t ds = true →
    ∀ d ∈ ds, d * d ≤ t → ¬ d ∣ t := by
  induction ds with
  | nil => intro _ _ d hd; simp at hd
  | cons x rest ih =>
    intro hp h d hd hsq
    simp only [primeDivisorLoop] at h
    obtain ⟨hx, hrest⟩ := List.pairwise_cons.1 hp
    by_cases h1 : x * x > t
    · exfalso
      rcases List.mem_cons.1 hd with rfl | hm
      · omega
      · have hlt := hx d hm
        have : x * x ≤ d * d := Nat.mul_le_mul (Nat.le_of_lt hlt) (Nat.le_of_lt hlt)
        omega
    · rw [if_neg h1] at h
      by_cases h2 : t % x = 0
      · rw [if_pos h2] at h; cases h
      · rw [if_neg h2] at h
        rcases List.mem_cons.1 hd with rfl | hm
        · exact fun hdvd => h2 (Nat.mod_eq_zero_of_dvd hdvd)
        · exact ih hrest h d hm hsq

/-- The `for` loop of `prime` decides whether the odd number after the last
number tested is prime. -/
theorem primeDivisorLoop_eq {T : Nat} (hT : 3 ≤ T) (hodd : T % 2 = 1) :
    primeDivisorLoop (T + 2) ((1 :: primesBelow (T + 1)).drop 2) = decide (Nat.Prime (T + 2)) := by
  cases h : primeDivisorLoop (T + 2) ((1 :: primesBelow (T + 1)).drop 2) with
  | false =>
    obtain ⟨d, hd, hdvd⟩ := primeDivisorLoop_false _ _ h
    obtain ⟨h3, hle, hprime⟩ := (mem_drop_two hT).1 hd
    have : ¬ Nat.Prime (T + 2) := by
      intro hp
      rcases (Nat.dvd_prime hp).1 hdvd with h1 | h1
      · omega
      · omega
    simp [this]
  | true =>
    by_cases hp : Nat.Prime (T + 2)
    · simp [hp]
    · exfalso
      have hq := Nat.minFac_prime (show T + 2 ≠ 1 by omega)
      have hdvd := Nat.minFac_dvd (T + 2)
      have hsq := Nat.minFac_sq_le_self (show 0 < T + 2 by omega) hp
      have hne2 : Nat.minFac (T + 2) ≠ 2 := by
        intro h2
        have := (Nat.minFac_eq_two_iff _).1 h2
        omega
      have h2le := hq.two_le
      have h3 : 3 ≤ Nat.minFac (T + 2) := by omega
      have hmul : 3 * Nat.minFac (T + 2) ≤ Nat.minFac (T + 2) * Nat.minFac (T + 2) :=
        Nat.mul_le_mul_right _ h3
      rw [Nat.pow_two] at hsq
      have hle : Nat.minFac (T + 2) ≤ T := by omega
      exact primeDivisorLoop_true _ _ (pairwise_drop_two T) h _
        ((mem_drop_two hT).2 ⟨h3, hle, hq⟩) hsq hdvd

theorem length_cache (T : Nat) :
    (1 :: primesBelow (T + 1)).length - 1 = Nat.count Nat.Prime (T + 1) := by
  rw [List.length_cons, length_primesBelow]
  rfl

/-- The test `primes.size()-1 < n` of `prime` holds as long as the last number
tested is below the `n`-th prime number. -/
theorem count_lt_iff {T n : Nat} (hn : 1 ≤ n) :
    Nat.count Nat.Prime (T + 1) < n ↔ T < Nat.nth Nat.Prime (n - 1) := by
  have h : Nat.count Nat.Prime (T + 1) ≤ n - 1 ↔ T + 1 ≤ Nat.nth Nat.Prime (n - 1) :=
    Nat.count_le_iff_le_nth Nat.infinite_setOf_prime
  omega

theorem cache_step {T : Nat} (hT : 3 ≤ T) (hodd : T % 2 = 1) :
    1 :: primesBelow (T + 2 + 1) =
      (1 :: primesBelow (T + 1)) ++ (if Nat.Prime (T + 2) then [T + 2] else []) := by
  have heven : ¬ Nat.Prime (T + 1) := by
    intro hp
    rcases hp.eq_two_or_odd with h | h <;> omega
  rw [primesBelow_succ (T + 2), primesBelow_succ (T + 1), if_neg heven, List.append_nil]
  rfl

/-- The `while` loop of `prime`, entered with the primes up to the odd number
`T` tested last, ends with the primes up to the `n`-th prime number, when that
number is in the type. -/
theorem primeLoop_eq (w n : Nat) (hn : 1 ≤ n) (hp : Nat.nth Nat.Prime (n - 1) < 2 ^ w) :
    ∀ fuel T, 3 ≤ T → T % 2 = 1 → T ≤ Nat.nth Nat.Prime (n - 1) →
      Nat.nth Nat.Prime (n - 1) - T ≤ fuel →
      primeLoop w n fuel T (1 :: primesBelow (T + 1)) =
        some (1 :: primesBelow (Nat.nth Nat.Prime (n - 1) + 1)) := by
  intro fuel
  induction fuel with
  | zero =>
    intro T _ _ hle hf
    have hT : T = Nat.nth Nat.Prime (n - 1) := by omega
    have hc : ¬ (1 :: primesBelow (T + 1)).length - 1 < n := by
      rw [length_cache, count_lt_iff hn]; omega
    rw [primeLoop, if_neg hc, hT]
  | succ f ih =>
    intro T hT hodd hle hf
    by_cases hlt : T < Nat.nth Nat.Prime (n - 1)
    · have hc : (1 :: primesBelow (T + 1)).length - 1 < n := by
        rw [length_cache, count_lt_iff hn]; exact hlt
      have hprime := Nat.prime_nth_prime (n - 1)
      have hne : Nat.nth Nat.Prime (n - 1) ≠ T + 1 := by
        intro he
        rw [he] at hprime
        rcases hprime.eq_two_or_odd with h | h <;> omega
      have hmod : (T + 2) % 2 ^ w = T + 2 := Nat.mod_eq_of_lt (by omega)
      rw [primeLoop, if_pos hc, hmod, primeDivisorLoop_eq hT hodd]
      have hstep := cache_step hT hodd
      by_cases hpt : Nat.Prime (T + 2)
      · rw [if_pos hpt] at hstep
        rw [if_pos (by simpa using hpt), ← hstep]
        exact ih (T + 2) (by omega) (by omega) (by omega) (by omega)
      · rw [if_neg hpt, List.append_nil] at hstep
        rw [if_neg (by simpa using hpt), ← hstep]
        exact ih (T + 2) (by omega) (by omega) (by omega) (by omega)
    · have hTe : T = Nat.nth Nat.Prime (n - 1) := by omega
      have hc : ¬ (1 :: primesBelow (T + 1)).length - 1 < n := by
        rw [length_cache, count_lt_iff hn]; omega
      rw [primeLoop, if_neg hc, hTe]

theorem getLast?_cache {T : Nat} (hT : Nat.Prime T) :
    (1 :: primesBelow (T + 1)).getLast? = some T := by
  rw [primesBelow_succ, if_pos hT, ← List.cons_append, List.getLast?_concat]

theorem getD_cache (T n : Nat) (h : ¬ (1 :: primesBelow (T + 1)).length - 1 < n) :
    (1 :: primesBelow (T + 1)).getD n 0 = if n = 0 then 1 else Nat.nth Nat.Prime (n - 1) := by
  cases n with
  | zero => rfl
  | succ k =>
    rw [List.getD_cons_succ, if_neg (by omega)]
    exact getD_primesBelow _ k (by simp only [List.length_cons] at h; omega)

/-- One call of `prime` on the vector of the primes up to a prime `T`. -/
theorem prime_eq (w fuel n T : Nat) (hT : 3 ≤ T) (hTp : Nat.Prime T) (hfuel : 2 ^ w ≤ fuel)
    (hn : n = 0 ∨ Nat.nth Nat.Prime (n - 1) < 2 ^ w) :
    ∃ T', 3 ≤ T' ∧ Nat.Prime T' ∧
      prime w fuel n (1 :: primesBelow (T + 1)) =
        some (if n = 0 then 1 else Nat.nth Nat.Prime (n - 1), 1 :: primesBelow (T' + 1)) := by
  have hodd : T % 2 = 1 := by
    rcases hTp.eq_two_or_odd with h | h <;> omega
  by_cases hc : (1 :: primesBelow (T + 1)).length - 1 < n
  · have hn1 : 1 ≤ n := by omega
    have hp : Nat.nth Nat.Prime (n - 1) < 2 ^ w := by
      rcases hn with h | h
      · omega
      · exact h
    have hlt : T < Nat.nth Nat.Prime (n - 1) := by
      rw [length_cache, count_lt_iff hn1] at hc; exact hc
    have hprime := Nat.prime_nth_prime (n - 1)
    refine ⟨Nat.nth Nat.Prime (n - 1), by omega, hprime, ?_⟩
    unfold prime
    rw [if_pos hc, getLast?_cache hTp, Option.getD_some,
      primeLoop_eq w n hn1 hp fuel T hT hodd (by omega) (by omega), Option.map_some']
    have hc' : ¬ (1 :: primesBelow (Nat.nth Nat.Prime (n - 1) + 1)).length - 1 < n := by
      rw [length_cache, count_lt_iff hn1]; omega
    rw [getD_cache _ n hc']
  · refine ⟨T, hT, hTp, ?_⟩
    unfold prime
    rw [if_neg hc, getD_cache T n hc]

/-- Any sequence of calls of `prime` leaves the vector of the primes up to
some prime. -/
theorem primeCalls_eq (w fuel : Nat) (hfuel : 2 ^ w ≤ fuel) (history : List Nat) :
    ∀ T, 3 ≤ T → Nat.Prime T →
      (∀ m ∈ history, m = 0 ∨ Nat.nth Nat.Prime (m - 1) < 2 ^ w) →
      ∃ T', 3 ≤ T' ∧ Nat.Prime T' ∧
        primeCalls w fuel history (1 :: primesBelow (T + 1)) = some (1 :: primesBelow (T' + 1)) := by
  induction history with
  | nil => intro T hT hTp _; exact ⟨T, hT, hTp, rfl⟩
  | cons m rest ih =>
    intro T hT hTp hh
    obtain ⟨T1, h1, h2, h3⟩ := prime_eq w fuel m T hT hTp hfuel (hh m (by simp))
    obtain ⟨T2, h4, h5, h6⟩ := ih T1 h1 h2 (fun x hx => hh x (by simp [hx]))
    refine ⟨T2, h4, h5, ?_⟩
    rw [primeCalls, h3]
    exact h6

theorem primesInit_eq : primesInit = 1 :: primesBelow (3 + 1) := by
  simp [primesInit, primesBelow, List.range_succ, List.filter]
  norm_num

theorem nth_prime_two : Nat.nth Nat.Prime 2 = 5 := by
  have h : Nat.count Nat.Prime 5 = 2 := by
    simp [Nat.count_succ]
    norm_num
  rw [← h]
  exact Nat.nth_count (by norm_num)

theorem nth_prime_three : Nat.nth Nat.Prime 3 = 7 := by
  have h : Nat.count Nat.Prime 7 = 3 := by
    simp [Nat.count_succ]
    norm_num
  rw [← h]
  exact Nat.nth_count (by norm_num)


/-! ## C31: `is_prime` -/

/-- C31 fails on the code: in a type of `32` bits `is_prime(4)` returns true,
and `4` is not a prime number; the helper tries the odd divisors `3`, `5`, ...
only, so that `is_prime` also returns true on `6`, `8` and `10`. -/
theorem is_prime_accepts_four :
    is_prime 32 1 4 = some true ∧ ¬ Nat.Prime 4 ∧
    is_prime 32 1 6 = some true ∧ is_prime 32 1 8 = some true ∧
    is_prime 32 2 10 = some true := by
  refine ⟨by decide, by norm_num, by decide, by decide, by decide⟩


/-! ## C32: `prime` -/

set_option maxRecDepth 100000 in
/-- C32, as stated, fails in an unsigned type of `8` bits: with no earlier
call, `prime(54)` is `251`, the last prime number of the type, and `prime(55)`
makes `tested_number` wrap from `255` to `1`, which the loop takes for a prime:
`prime(55)` returns `1`, which is not a prime number, and the vector ends with
`251, 1`, so it is not increasing. -/
theorem prime_wraps_past_last_prime :
    55 < 2 ^ 8 ∧
    primeCalls 8 200 [] primesInit = some primesInit ∧
    (prime 8 200 54 primesInit).map Prod.fst = some 251 ∧
    (prime 8 200 55 primesInit).map Prod.fst = some 1 ∧ ¬ Nat.Prime 1 ∧
    (prime 8 200 55 primesInit).map (fun r => r.2.drop 54) = some [251, 1] := by
  refine ⟨by decide, rfl, by decide, by decide, by norm_num, by decide⟩

/-- C32, amended: in an unsigned type of `w` bits, after any sequence of
earlier calls `prime(m)` whose `m`-th prime numbers are in the type (below
`2 ^ w`), every call returns and the cached list is the strictly increasing
sequence `1, 2, 3, 5, 7, ...`: `1` followed by the prime numbers up to some
number `T >= 3`, none skipped; so `prime(0) = 1` and for every `n >= 1` whose
`n`-th prime number is in the type, `prime(n)` is the `n`-th prime number
(`prime(1) = 2`), independent of the call history. -/
theorem prime_is_nth_prime (w fuel : Nat) (history : List Nat) (n : Nat)
    (hfuel : 2 ^ w ≤ fuel)
    (hhistory : ∀ m ∈ history, m = 0 ∨ Nat.nth Nat.Prime (m - 1) < 2 ^ w)
    (hn : n = 0 ∨ Nat.nth Nat.Prime (n - 1) < 2 ^ w) :
    ∃ cache T cache', primeCalls w fuel history primesInit = some cache ∧
      3 ≤ T ∧ cache = 1 :: primesBelow (T + 1) ∧
      cache.Pairwise (fun a b => a < b) ∧
      prime w fuel n cache = some (if n = 0 then 1 else Nat.nth Nat.Prime (n - 1), cache') := by
  obtain ⟨T, hT, hTp, hcalls⟩ :=
    primeCalls_eq w fuel hfuel history 3 (Nat.le_refl 3) Nat.prime_three hhistory
  obtain ⟨T', _, _, hcall⟩ := prime_eq w fuel n T hT hTp hfuel hn
  refine ⟨1 :: primesBelow (T + 1), T, 1 :: primesBelow (T' + 1), ?_, hT, rfl, ?_, hcall⟩
  · rw [primesInit_eq]
    exact hcalls
  · rw [List.pairwise_cons]
    exact ⟨fun a ha => (mem_primesBelow.1 ha).2.one_lt, pairwise_primesBelow _⟩

/-- C32, amended, in a type of `8` bits: after the call `prime(3)`, which
returns `5`, the call `prime(4)` returns the fourth prime number `7`. -/
theorem prime_is_nth_prime_witness :
    primeCalls 8 256 [3] primesInit = some [1, 2, 3, 5] ∧
    prime 8 256 4 [1, 2, 3, 5] = some (7, [1, 2, 3, 5, 7]) ∧
    ∃ cache T cache', primeCalls 8 256 [3] primesInit = some cache ∧
      3 ≤ T ∧ cache = 1 :: primesBelow (T + 1) ∧
      cache.Pairwise (fun a b => a < b) ∧
      prime 8 256 4 cache = some (if 4 = 0 then 1 else Nat.nth Nat.Prime (4 - 1), cache') :=
  ⟨by decide, by decide,
    prime_is_nth_prime 8 256 [3] 4 (by decide)
      (fun m hm => Or.inr (by
        simp only [List.mem_singleton] at hm
        subst hm
        simp [nth_prime_two]))
      (Or.inr (by simp [nth_prime_three]))⟩


/-! ## C33: `gcd` -/

/-- C33: for all unsigned `a` and `b` that are both non-zero the loop of `gcd`
terminates (it takes at most `min a b` steps) and `gcd(a, b)` is the greatest
common divisor of `a` and `b`: it divides both and every common divisor
divides it; `gcd(a, b) = gcd(b, a)`; and when `a` or `b` is `0`, `gcd` returns
`0`. -/
theorem gcd_is_greatest_common_divisor (fuel a b : Nat) (hfuel : min a b ≤ fuel) :
    (a ≠ 0 → b ≠ 0 →
      gcd fuel a b = some (Nat.gcd a b) ∧
      (∃ g, gcd fuel a b = some g ∧ g ∣ a ∧ g ∣ b ∧ ∀ d, d ∣ a → d ∣ b → d ∣ g) ∧
      gcd fuel a b = gcd fuel b a) ∧
    (a = 0 ∨ b = 0 → gcd fuel a b = some 0) := by
  constructor
  · intro ha hb
    have h1 := gcd_eq fuel a b ha hb hfuel
    have h2 := gcd_eq fuel b a hb ha (by rwa [Nat.min_comm])
    refine ⟨h1, ⟨Nat.gcd a b, h1, Nat.gcd_dvd_left a b, Nat.gcd_dvd_right a b,
      fun d hda hdb => Nat.dvd_gcd hda hdb⟩, ?_⟩
    rw [h1, h2, Nat.gcd_comm]
  · intro h
    unfold gcd
    rw [if_pos h]

/-- C33 at `a = 12` and `b = 18`, with `12` steps allowed: `gcd(12, 18) = 6`. -/
theorem gcd_is_greatest_common_divisor_witness :
    gcd 12 12 18 = some 6 ∧ gcd 12 12 18 = gcd 12 18 12 ∧ gcd 12 0 18 = some 0 :=
  ⟨((gcd_is_greatest_common_divisor 12 12 18 (by decide)).1 (by decide) (by decide)).1,
    ((gcd_is_greatest_common_divisor 12 12 18 (by decide)).1 (by decide) (by decide)).2.2,
    by decide⟩


/-! ## C34: `lcm` -/

/-- C34: for all unsigned `a` and `b` of a type of `w` bits that are both
non-zero and whose product `a*b` fits in the type, `lcm(a, b)` is returned, is
a common multiple of `a` and `b` that divides every common multiple, and
`lcm(a, b) * gcd(a, b) = a * b`; when `a` or `b` is `0`, `lcm` returns `1`. -/
theorem lcm_is_least_common_multiple (w fuel a b : Nat) (hfuel : min a b ≤ fuel) :
    (a ≠ 0 → b ≠ 0 → a * b < 2 ^ w →
      ∃ l g, lcm w fuel a b = some l ∧ gcd fuel a b = some g ∧ l = Nat.lcm a b ∧
        a ∣ l ∧ b ∣ l ∧ (∀ m, a ∣ m → b ∣ m → l ∣ m) ∧ l * g = a * b) ∧
    (a = 0 ∨ b = 0 → lcm w fuel a b = some 1) := by
  constructor
  · intro ha hb hab
    have h1 := gcd_eq fuel a b ha hb hfuel
    have h0 : ¬ (a = 0 ∨ b = 0) := by simp [ha, hb]
    refine ⟨Nat.lcm a b, Nat.gcd a b, ?_, h1, rfl, Nat.dvd_lcm_left a b, Nat.dvd_lcm_right a b,
      fun m hm1 hm2 => Nat.lcm_dvd hm1 hm2, ?_⟩
    · unfold lcm
      rw [if_neg h0, h1, Nat.mod_eq_of_lt hab]
      rfl
    · rw [Nat.mul_comm, Nat.gcd_mul_lcm]
  · intro h
    unfold lcm
    rw [if_pos h]

/-- C34 at `a = 4` and `b = 6` in a type of `8` bits: `lcm(4, 6) = 12`. -/
theorem lcm_is_least_common_multiple_witness :
    (∃ l g, lcm 8 4 4 6 = some l ∧ gcd 4 4 6 = some g ∧ l = Nat.lcm 4 6 ∧
        4 ∣ l ∧ 6 ∣ l ∧ (∀ m, 4 ∣ m → 6 ∣ m → l ∣ m) ∧ l * g = 4 * 6) ∧
    lcm 8 4 4 6 = some 12 ∧ lcm 8 4 0 6 = some 1 :=
  ⟨(lcm_is_least_common_multiple 8 4 4 6 (by decide)).1 (by decide) (by decide) (by decide),
    by decide, by decide⟩


/-! ## C35: the two Fibonacci functions -/

/-- C35: for every unsigned `n` of a type of `w` bits, the loop-based
`fibonacci(n)` equals the recursive `meta::fibonacci(n)`, both being the
`n`-th Fibonacci number modulo `2 ^ w`, with `fibonacci(0) = 0` and
`fibonacci(1) = 1` (the latter for `n = 1` in the type, that is `w > 0`). -/
theorem fibonacci_eq_meta_fibonacci (w n : Nat) (hn : n < 2 ^ w) :
    fibonacci w n = meta.fibonacci w n ∧ fibonacci w n = Nat.fib n % 2 ^ w ∧
    fibonacci w 0 = 0 ∧ (1 < 2 ^ w → fibonacci w 1 = 1) := by
  have hloop : ∀ m, fibonacci w m = Nat.fib m % 2 ^ w := by
    intro m
    have h := fibonacciLoop_eq w m 0
    simp only [Nat.fib_zero, Nat.zero_mod, Nat.zero_add, Nat.fib_one] at h
    unfold fibonacci
    rw [h]
  refine ⟨?_, hloop n, by rw [hloop]; rfl, fun h1 => by rw [hloop]; exact Nat.mod_eq_of_lt h1⟩
  rw [hloop]
  by_cases hw : 0 < w
  · exact (meta_fibonacci_eq w hw n).symm
  · have hw0 : w = 0 := by omega
    subst hw0
    have hn0 : n = 0 := by simpa using hn
    subst hn0
    rfl

/-- C35 at `n = 13` in a type of `8` bits, where the Fibonacci number `233` is
below `2 ^ 8`, and at `n = 14`, where `377` wraps to `121`. -/
theorem fibonacci_eq_meta_fibonacci_witness :
    fibonacci 8 14 = meta.fibonacci 8 14 ∧ fibonacci 8 14 = Nat.fib 14 % 2 ^ 8 ∧
    fibonacci 8 13 = 233 ∧ fibonacci 8 14 = 121 :=
  ⟨(fibonacci_eq_meta_fibonacci 8 14 (by decide)).1,
    (fibonacci_eq_meta_fibonacci 8 14 (by decide)).2.1, by decide, by decide⟩


end Polder.Math

namespace Polder.type_list

/-! ## C36: indexing a type list -/

theorem size_eq_length {Ty : Type} (ts : List Ty) : size ts = ts.length := by
  cases ts with
  | nil => rfl
  | cons h t =>
    cases t with
    | nil => rfl
    | cons h2 t2 => rfl

theorem at_eq {Ty : Type} (w : Nat) (void : Ty) (ts : List Ty) :
    ∀ i, i < 2 ^ w → at_ w void ts i = ts.getD i void := by
  induction ts with
  | nil => intro i _; rfl
  | cons h t ih =>
    intro i hi
    cases t with
    | nil =>
      cases i with
      | zero => rfl
      | succ k => simp [at_]
    | cons h2 t2 =>
      cases i with
      | zero => simp [at_]
      | succ k =>
        have e : (k + 1 + 2 ^ w - 1) % 2 ^ w = k := by
          have : k + 1 + 2 ^ w - 1 = k + 2 ^ w := by omega
          rw [this, Nat.add_mod_right, Nat.mod_eq_of_lt (by omega)]
        have hk := ih k (by omega)
        simp only [at_, e, hk]
        simp

/-- C36: for every list of `n` types `T0..T(n-1)`, `size` is `n`, `is_empty`
is true exactly when `n = 0`, `at<i>` is `Ti` for every `i < n` and `void` for
every `i >= n` (`i` being a value of `size_type`), `front` is `at<0>` and
`back` is `at<n-1>`, both `void` for the empty list. -/
theorem type_list_indexing {Ty : Type} (w : Nat) (void : Ty) (ts : List Ty) :
    size ts = ts.length ∧
    (is_empty ts = true ↔ ts.length = 0) ∧
    (∀ i (h : i < ts.length), i < 2 ^ w → at_ w void ts i = ts.get ⟨i, h⟩) ∧
    (∀ i, ts.length ≤ i → i < 2 ^ w → at_ w void ts i = void) ∧
    front void ts = at_ w void ts 0 ∧
    back w void ts = at_ w void ts (ts.length - 1) ∧
    (ts.length = 0 → front void ts = void ∧ back w void ts = void) := by
  have hw : 0 < 2 ^ w := Nat.two_pow_pos w
  refine ⟨size_eq_length ts, ?_, ?_, ?_, ?_, ?_, ?_⟩
  · cases ts with
    | nil => simp [is_empty]
    | cons h t => cases t <;> simp [is_empty]
  · intro i h hi
    rw [at_eq w void ts i hi, List.getD_eq_getElem _ _ h]
    rfl
  · intro i h hi
    rw [at_eq w void ts i hi, List.getD_eq_default _ _ h]
  · cases ts with
    | nil => rfl
    | cons h t => cases t <;> simp [front, at_]
  · cases ts with
    | nil => rfl
    | cons h t =>
      cases t with
      | nil => simp [back, at_]
      | cons h2 t2 => simp [back, size]
  · intro h
    have : ts = [] := List.length_eq_zero.1 h
    subst this
    exact ⟨rfl, rfl⟩

/-- C36 at the list of the three types `int`, `char` and `bool`, with a
`size_type` of `64` bits. -/
theorem type_list_indexing_witness :
    size ["int", "char", "bool"] = 3 ∧
    at_ 64 "void" ["int", "char", "bool"] 1 = "char" ∧
    at_ 64 "void" ["int", "char", "bool"] 3 = "void" ∧
    front "void" ["int", "char", "bool"] = at_ 64 "void" ["int", "char", "bool"] 0 ∧
    back 64 "void" ["int", "char", "bool"] = "bool" :=
  ⟨(type_list_indexing 64 "void" ["int", "char", "bool"]).1,
    (type_list_indexing 64 "void" ["int", "char", "bool"]).2.2.1 1 (by decide) (by decide),
    (type_list_indexing 64 "void" ["int", "char", "bool"]).2.2.2.1 3 (by decide) (by decide),
    (type_list_indexing 64 "void" ["int", "char", "bool"]).2.2.2.2.1,
    (type_list_indexing 64 "void" ["int", "char", "bool"]).2.2.2.2.2.1⟩


end Polder.type_list
